import Mathlib

/-! # submyvid: the SRT subtitle codec (`subtitle/srt.go`)

A shallow embedding of the `subtitle` package: `Parse`, `Subtitle.String`,
`Subtitle.AdjustSpeed`, `parseTime` and `formatTime`, together with the parts of
the Go standard library they call (`strings.TrimSpace`, `strings.Split`,
`strings.Join`, `strconv.Atoi`, `fmt.Sprintf` with `%d` / `%02d` / `%03d`,
`regexp.FindStringSubmatch` for the one fixed pattern, `time.Duration.Hours` and
friends, and the float64 arithmetic behind them).

Conventions of the embedding.
* A Go `string` is a `List Char`: the text is taken to be valid UTF-8, so that
  bytes and code points carry the same information.
* `int`, `int64` and `time.Duration` are `Int`; the platform is 64-bit and
  wrap-around is written `wrap64` where the code can overflow.
* A finite `float64` is the rational number it denotes; every float64 operation
  is the exact operation followed by `f64Round` (IEEE-754 round-to-nearest,
  ties-to-even, 53-bit significand, gradual underflow).
* A Go `error` result is an `Option`: `none` is `nil`.
-/

namespace Submyvid

/-! ## Strings -/

/-- Go `unicode.IsSpace`: the code points with the Unicode White_Space property. -/
def isSpace (c : Char) : Bool :=
  (9 ≤ c.toNat && c.toNat ≤ 13) || c.toNat == 0x20 || c.toNat == 0x85 || c.toNat == 0xA0 ||
  c.toNat == 0x1680 || (0x2000 ≤ c.toNat && c.toNat ≤ 0x200A) || c.toNat == 0x2028 ||
  c.toNat == 0x2029 || c.toNat == 0x202F || c.toNat == 0x205F || c.toNat == 0x3000

/-- Go `strings.TrimSpace`: remove all leading and trailing white space. -/
def TrimSpace (s : List Char) : List Char :=
  (s.dropWhile isSpace).rdropWhile isSpace

/-- Worker of `Split`: `splitGo sep k s` scans `s`, first skipping `k` characters that
belong to a separator already recognised; the head of the result is the piece under
construction. -/
def splitGo (sep : List Char) : Nat → List Char → List (List Char)
  | _, [] => [[]]
  | k + 1, _ :: cs => splitGo sep k cs
  | 0, c :: cs =>
    if sep.isPrefixOf (c :: cs) then [] :: splitGo sep (sep.length - 1) cs
    else
      match splitGo sep 0 cs with
      | [] => [[c]]
      | p :: ps => (c :: p) :: ps

/-- Go `strings.Split(s, sep)` for a non-empty separator: cut `s` at the leftmost,
non-overlapping occurrences of `sep`. (The program only splits on a blank line and on a
newline.) -/
def Split (s sep : List Char) : List (List Char) := splitGo sep 0 s

/-- Go `strings.Join(elems, sep)`. -/
def Join : List (List Char) → List Char → List Char
  | [], _ => []
  | [a], _ => a
  | a :: b :: rest, sep => a ++ sep ++ Join (b :: rest) sep

/-! ## Integers: `strconv.Atoi` and `fmt.Sprintf` -/

/-- ASCII decimal digit. -/
def isDigit (c : Char) : Bool := 48 ≤ c.toNat && c.toNat ≤ 57

/-- Value of an ASCII digit. -/
def digitVal (c : Char) : Nat := c.toNat - 48

/-- The ASCII digit of a number below ten. -/
def digitChar (n : Nat) : Char := Char.ofNat (48 + n % 10)

/-- Read a run of decimal digits, most significant first, onto the accumulator;
`none` on any other character. -/
def parseUint (acc : Nat) : List Char → Option Nat
  | [] => some acc
  | c :: cs => if isDigit c then parseUint (acc * 10 + digitVal c) cs else none

/-- Go `strconv.Atoi` on a 64-bit platform: an optional sign, then one or more decimal
digits, the value within the range of `int`; `none` stands for a returned error. -/
def Atoi (s : List Char) : Option Int :=
  match s with
  | [] => none
  | c :: cs =>
    let neg : Bool := c == '-'
    let ds : List Char := if c == '-' || c == '+' then cs else c :: cs
    if ds.isEmpty then none
    else
      match parseUint 0 ds with
      | none => none
      | some n =>
        if neg then (if n ≤ 2 ^ 63 then some (-(n : Int)) else none)
        else (if n < 2 ^ 63 then some (n : Int) else none)

/-- Decimal digits of a natural number, most significant first, pushed in front of
`acc`; `fuel` bounds the number of digits. -/
def fmtNatAux : Nat → Nat → List Char → List Char
  | 0, _, acc => acc
  | fuel + 1, n, acc =>
    if n < 10 then digitChar n :: acc
    else fmtNatAux fuel (n / 10) (digitChar (n % 10) :: acc)

/-- Decimal representation of a natural number. -/
def fmtNat (n : Nat) : List Char := fmtNatAux (n + 1) n []

/-- Left-pad a digit string with zeros to width `w`. -/
def padZeros (w : Nat) (ds : List Char) : List Char :=
  List.replicate (w - ds.length) '0' ++ ds

/-- Go `fmt.Sprintf("%d", n)`. -/
def fmtInt (n : Int) : List Char :=
  if n < 0 then '-' :: fmtNat n.natAbs else fmtNat n.natAbs

/-- Go `fmt.Sprintf("%0wd", n)`: zero padding to width `w`, with the sign counted in the
width. -/
def fmtIntPad (w : Nat) (n : Int) : List Char :=
  if n < 0 then '-' :: padZeros (w - 1) (fmtNat n.natAbs) else padZeros w (fmtNat n.natAbs)

/-! ## float64 arithmetic -/

/-- Round to the nearest integer, ties to the even one. -/
def roundHalfEven (y : ℚ) : ℤ :=
  if y - ⌊y⌋ < 1 / 2 then ⌊y⌋
  else if 1 / 2 < y - ⌊y⌋ then ⌊y⌋ + 1
  else if ⌊y⌋ % 2 = 0 then ⌊y⌋ else ⌊y⌋ + 1

/-- Exponent of the binade of `x` in binary64: `⌊log₂ |x|⌋`, but never below the
exponent `-1022` of the subnormal range. -/
def binade (x : ℚ) : ℤ := max (Int.log 2 |x|) (-1022)

/-- IEEE-754 binary64 rounding of a real value (round to nearest, ties to even): the
nearest multiple of the spacing `2 ^ (binade x - 52)` of the floats around `x`. -/
def f64Round (x : ℚ) : ℚ :=
  (roundHalfEven (x / 2 ^ (binade x - 52)) : ℚ) * 2 ^ (binade x - 52)

/-- Truncation toward zero: the integer part of a rational. -/
def truncQ (x : ℚ) : ℤ := if 0 ≤ x then ⌊x⌋ else ⌈x⌉

/-- Go conversion of a float64 to `int64` (also to `int` and `time.Duration`): the
fraction is discarded (truncation toward zero). For a value outside the range of
`int64` the language leaves the result to the implementation; the value taken here is
the one of amd64, `-2^63`. -/
def f64ToInt64 (x : ℚ) : ℤ :=
  if -(2 : ℤ) ^ 63 ≤ truncQ x ∧ truncQ x < 2 ^ 63 then truncQ x else -(2 : ℤ) ^ 63

/-! ## Durations (`time.Duration`, a count of nanoseconds) -/

/-- Two's-complement wrap-around of `int64` arithmetic. -/
def wrap64 (x : Int) : Int := (x + 2 ^ 63) % 2 ^ 64 - 2 ^ 63

/-- Go `time.Millisecond`. -/
def Millisecond : Int := 1000000

/-- Go `time.Second`. -/
def Second : Int := 1000000000

/-- Go `time.Minute`. -/
def Minute : Int := 60000000000

/-- Go `time.Hour`. -/
def Hour : Int := 3600000000000

/-- Go `Duration.Hours`: `float64(d / Hour) + float64(d % Hour) / (60*60*1e9)`. -/
def Hours (d : Int) : ℚ :=
  f64Round (f64Round (d.tdiv Hour) + f64Round (f64Round (d.tmod Hour) / 3600000000000))

/-- Go `Duration.Minutes`: `float64(d / Minute) + float64(d % Minute) / (60*1e9)`. -/
def Minutes (d : Int) : ℚ :=
  f64Round (f64Round (d.tdiv Minute) + f64Round (f64Round (d.tmod Minute) / 60000000000))

/-- Go `Duration.Seconds`: `float64(d / Second) + float64(d % Second) / 1e9`. -/
def Seconds (d : Int) : ℚ :=
  f64Round (f64Round (d.tdiv Second) + f64Round (f64Round (d.tmod Second) / 1000000000))

/-- Go `Duration.Milliseconds`: integer division by `1e6`. -/
def Milliseconds (d : Int) : Int := d.tdiv 1000000

/-! ## The `subtitle` package -/

/-- One cue (`type Entry struct`). -/
structure Entry where
  Index : Int
  StartTime : Int
  EndTime : Int
  Text : List Char
  deriving DecidableEq, Repr

/-- An ordered sequence of cues (`type Subtitle struct`). -/
structure Subtitle where
  Entries : List Entry
  deriving DecidableEq, Repr

/-- A Go `error` value; `none` is `nil`. -/
abbrev GoError := Option (List Char)

/-- The source's `formatTime`. -/
def formatTime (d : Int) : List Char :=
  fmtIntPad 2 (f64ToInt64 (Hours d)) ++ ':' ::
  fmtIntPad 2 ((f64ToInt64 (Minutes d)).tmod 60) ++ ':' ::
  fmtIntPad 2 ((f64ToInt64 (Seconds d)).tmod 60) ++ ',' ::
  fmtIntPad 3 ((Milliseconds d).tmod 1000)

/-- The source's `parseTime`; `none` stands for a returned error. -/
def parseTime (hours minutes seconds milliseconds : List Char) : Option Int :=
  match Atoi hours with
  | none => none
  | some h =>
    match Atoi minutes with
    | none => none
    | some m =>
      match Atoi seconds with
      | none => none
      | some s =>
        match Atoi milliseconds with
        | none => none
        | some ms => some (wrap64 (h * Hour + m * Minute + s * Second + ms * Millisecond))

/-- One position of the timing pattern: a decimal digit (the class written
backslash-d) or a literal character. -/
inductive Pat where
  | digit
  | lit (c : Char)
  deriving DecidableEq, Repr

/-- Does the character satisfy the pattern position? -/
def Pat.test : Pat → Char → Bool
  | Pat.digit, c => isDigit c
  | Pat.lit a, c => a == c

/-- The pattern of `srtTimeRegex`, position by position:
two digits, colon, two digits, colon, two digits, comma, three digits, the arrow
between two blanks, and the same timecode shape again. -/
def srtTimeRegex : List Pat :=
  [Pat.digit, Pat.digit, Pat.lit ':', Pat.digit, Pat.digit, Pat.lit ':', Pat.digit, Pat.digit,
   Pat.lit ',', Pat.digit, Pat.digit, Pat.digit,
   Pat.lit ' ', Pat.lit '-', Pat.lit '-', Pat.lit '>', Pat.lit ' ',
   Pat.digit, Pat.digit, Pat.lit ':', Pat.digit, Pat.digit, Pat.lit ':', Pat.digit, Pat.digit,
   Pat.lit ',', Pat.digit, Pat.digit, Pat.digit]

/-- Does a prefix of the text match the pattern? -/
def matchHere : List Pat → List Char → Bool
  | [], _ => true
  | _ :: _, [] => false
  | p :: ps, c :: cs => p.test c && matchHere ps cs

/-- The leftmost match of the (fixed-length, unanchored) pattern in the text. -/
def findLeftmost (ps : List Pat) : List Char → Option (List Char)
  | [] => if matchHere ps [] then some [] else none
  | c :: cs => if matchHere ps (c :: cs) then some ((c :: cs).take ps.length) else findLeftmost ps cs

/-- Go `srtTimeRegex.FindStringSubmatch(line)`: the empty slice when nothing matches,
otherwise the matched text followed by the eight captured groups. -/
def FindStringSubmatch (line : List Char) : List (List Char) :=
  match findLeftmost srtTimeRegex line with
  | none => []
  | some m =>
    [m, m.take 2, (m.drop 3).take 2, (m.drop 6).take 2, (m.drop 9).take 3,
     (m.drop 17).take 2, (m.drop 20).take 2, (m.drop 23).take 2, (m.drop 26).take 3]

/-- The body of the loop of `Parse` for one block: `none` is a `continue`. -/
def parseBlock (block : List Char) : Option Entry :=
  if TrimSpace block = [] then none
  else
    let lines := Split (TrimSpace block) ['\n']
    if lines.length < 3 then none
    else
      match Atoi (TrimSpace (lines.getD 0 [])) with
      | none => none
      | some index =>
        let found := FindStringSubmatch (lines.getD 1 [])
        if found.length ≠ 9 then none
        else
          match parseTime (found.getD 1 []) (found.getD 2 []) (found.getD 3 [])
              (found.getD 4 []) with
          | none => none
          | some startTime =>
            match parseTime (found.getD 5 []) (found.getD 6 []) (found.getD 7 [])
                (found.getD 8 []) with
            | none => none
            | some endTime =>
              some { Index := index, StartTime := startTime, EndTime := endTime,
                     Text := Join (lines.drop 2) ['\n'] }

/-- The source's `Parse`: the entries of the blocks that parse, and the error result,
which is always `nil`. -/
def Parse (content : List Char) : Subtitle × GoError :=
  ({ Entries := (Split (TrimSpace content) ['\n', '\n']).filterMap parseBlock }, none)

/-- The float64 product of `AdjustSpeed` for one timestamp:
`time.Duration(float64(d) * factor)`. -/
def scaleDuration (d : Int) (factor : ℚ) : Int :=
  f64ToInt64 (f64Round (f64Round d * factor))

/-- The source's `Subtitle.AdjustSpeed` for a finite `factor`. -/
def Subtitle.AdjustSpeed (s : Subtitle) (factor : ℚ) : Subtitle :=
  { Entries := s.Entries.map fun e =>
      { e with StartTime := scaleDuration e.StartTime factor,
               EndTime := scaleDuration e.EndTime factor } }

/-- The loop of `Subtitle.String`, from iteration `i` on. -/
def renderFrom : Nat → List Entry → List Char
  | _, [] => []
  | i, e :: es =>
    (if i > 0 then ['\n', '\n'] else []) ++
      (fmtInt e.Index ++ ['\n']) ++
      (formatTime e.StartTime ++ [' ', '-', '-', '>', ' '] ++ formatTime e.EndTime ++ ['\n']) ++
      e.Text ++ renderFrom (i + 1) es

/-- The source's `Subtitle.String`: the rendered text and the error result, which is
always `nil`. -/
def Subtitle.String (s : Subtitle) : List Char × GoError :=
  (renderFrom 0 s.Entries, none)

/-! ## Specification-side definitions: predicates and texts used by the statements -/

/-- The text of one cue as the file format lays it out: the index line, the timing
line, the caption text. -/
def cueBlock (e : Entry) : List Char :=
  fmtInt e.Index ++ ['\n'] ++
    (formatTime e.StartTime ++ [' ', '-', '-', '>', ' '] ++ formatTime e.EndTime) ++ ['\n'] ++
    e.Text

/-- The value is a finite binary64 number: an integer significand below `2^53` times
a power of two not below the smallest subnormal. -/
def IsF64 (x : ℚ) : Prop := ∃ m e : ℤ, |m| < 2 ^ 53 ∧ -1074 ≤ e ∧ x = m * 2 ^ e

/-- The timecode text of four fields: hours, minutes and seconds zero-padded to two
digits at least, milliseconds to three. -/
def timecode (h m s ms : Int) : List Char :=
  fmtIntPad 2 h ++ ':' :: fmtIntPad 2 m ++ ':' :: fmtIntPad 2 s ++ ',' :: fmtIntPad 3 ms

/-- The float64 product `float64(d) * factor` involves no rounding: the duration and
the product are binary64 values, and the product fits `int64`. -/
def ExactProduct (d : Int) (factor : ℚ) : Prop :=
  f64Round d = d ∧ f64Round (d * factor) = d * factor ∧ |(d : ℚ) * factor| < 2 ^ 63

instance (d : Int) (factor : ℚ) : Decidable (ExactProduct d factor) := by
  unfold ExactProduct; infer_instance

/-- What `AdjustSpeed` does to one timestamp `d`, giving `d'`: within the range of
`int64` the result is the exact product up to the truncation (less than one
nanosecond) and the float64 rounding (relative `2^-51`), and it is the truncated exact
product when the float64 product is exact. -/
def ScaledBy (factor : ℚ) (d d' : Int) : Prop :=
  (|f64Round (f64Round d * factor)| < 2 ^ 63 →
      |(d' : ℚ) - d * factor| < 1 + |(d : ℚ) * factor| / 2 ^ 51) ∧
  (ExactProduct d factor → d' = truncQ (d * factor))

/-- Does the text contain a blank line, that is two consecutive newlines? -/
def hasBlank : List Char → Bool
  | a :: b :: cs => (a == '\n' && b == '\n') || hasBlank (b :: cs)
  | _ => false

/-- The text is not empty and does not begin with white space. -/
def startsClean : List Char → Bool
  | [] => false
  | c :: _ => !isSpace c

/-- The text is not empty and does not end with white space. -/
def endsClean (s : List Char) : Bool := startsClean s.reverse

/-- A block as it stands between blank lines: not empty, no white space at either end,
no blank line inside. -/
def IsBlock (b : List Char) : Prop :=
  startsClean b = true ∧ endsClean b = true ∧ hasBlank b = false

instance (b : List Char) : Decidable (IsBlock b) := by
  unfold IsBlock; infer_instance

/-- Two decimal digits of a number below one hundred. -/
def pad2 (n : Nat) : List Char := [digitChar (n / 10), digitChar n]

/-- Three decimal digits of a number below one thousand. -/
def pad3 (n : Nat) : List Char := [digitChar (n / 100), digitChar (n / 10), digitChar n]

/-- The timing line of a cue, from the fields of its two timecodes. -/
def timingLine (h1 m1 s1 ms1 h2 m2 s2 ms2 : Nat) : List Char :=
  pad2 h1 ++ ':' :: pad2 m1 ++ ':' :: pad2 s1 ++ ',' :: pad3 ms1 ++
    ' ' :: '-' :: '-' :: '>' :: ' ' ::
    pad2 h2 ++ ':' :: pad2 m2 ++ ':' :: pad2 s2 ++ ',' :: pad3 ms2

/-- The duration denoted by the four fields of a timecode. -/
def fieldsDuration (h m s ms : Nat) : Int :=
  (h : ℤ) * Hour + (m : ℤ) * Minute + (s : ℤ) * Second + (ms : ℤ) * Millisecond

/-- A caption text that survives rendering and parsing: not empty, not beginning with a
newline, not ending with white space, without blank line. -/
def IsCaption (t : List Char) : Prop :=
  t.head? ≠ some '\n' ∧ endsClean t = true ∧ hasBlank t = false

instance (t : List Char) : Decidable (IsCaption t) := by
  unfold IsCaption; infer_instance

/-- The text of the cue with the given index, timecode fields and caption. -/
def cueOfFields (n : Int) (h1 m1 s1 ms1 h2 m2 s2 ms2 : Nat) (text : List Char) : List Char :=
  fmtInt n ++ '\n' :: (timingLine h1 m1 s1 ms1 h2 m2 s2 ms2 ++ '\n' :: text)

/-- A timestamp that a timecode can carry: a whole number of milliseconds, not negative
and below one hundred hours. -/
def IsStamp (d : Int) : Prop := 0 ≤ d ∧ d < 100 * Hour ∧ d % Millisecond = 0

instance (d : Int) : Decidable (IsStamp d) := by
  unfold IsStamp; infer_instance

/-- An entry that the file format can carry: an index in the range of `int`, two
timestamps that timecodes can carry, and a caption that survives parsing. -/
def IsCue (e : Entry) : Prop :=
  (-(2 : ℤ) ^ 63 ≤ e.Index ∧ e.Index < 2 ^ 63) ∧ IsStamp e.StartTime ∧ IsStamp e.EndTime ∧
    IsCaption e.Text

instance (e : Entry) : Decidable (IsCue e) := by
  unfold IsCue; infer_instance

/-- The timecode of a duration, computed with integer division. -/
def stamp (d : Int) : List Char :=
  timecode (d / Hour) (d / Minute % 60) (d / Second % 60) (d / Millisecond % 1000)

/-- The text of one cue, its timecodes computed with integer division. -/
def cueText (e : Entry) : List Char :=
  fmtInt e.Index ++ ['\n'] ++
    (stamp e.StartTime ++ [' ', '-', '-', '>', ' '] ++ stamp e.EndTime) ++ ['\n'] ++ e.Text

/-- A duration that is a whole number of milliseconds, not negative. -/
def IsWholeMs (d : Int) : Prop := 0 ≤ d ∧ d < 2 ^ 63 ∧ d % Millisecond = 0

instance (d : Int) : Decidable (IsWholeMs d) := by
  unfold IsWholeMs; infer_instance

/-- A block that `Parse` is to skip: fewer than three lines, or a first line that is
not an integer, or a second line in which the timing pattern does not occur. -/
def IsMalformed (b : List Char) : Prop :=
  (Split b ['\n']).length < 3 ∨
  Atoi (TrimSpace ((Split b ['\n']).getD 0 [])) = none ∨
  FindStringSubmatch ((Split b ['\n']).getD 1 []) = []

instance (b : List Char) : Decidable (IsMalformed b) := by
  unfold IsMalformed; infer_instance

/-- A text that begins and ends with a character that is not white space (so it is not
empty) and holds no blank line. -/
def IsPlainText (t : List Char) : Prop :=
  startsClean t = true ∧ endsClean t = true ∧ hasBlank t = false

instance (t : List Char) : Decidable (IsPlainText t) := by
  unfold IsPlainText; infer_instance

/-- The line holds a timing text: two timecodes of two-digit hours, minutes and seconds
and three-digit milliseconds around the arrow, whatever stands before and after. -/
def ContainsTiming (line : List Char) : Prop :=
  ∃ (pre post : List Char) (h1 m1 s1 ms1 h2 m2 s2 ms2 : Nat),
    (h1 < 100 ∧ m1 < 100 ∧ s1 < 100 ∧ ms1 < 1000) ∧
    (h2 < 100 ∧ m2 < 100 ∧ s2 < 100 ∧ ms2 < 1000) ∧
    line = pre ++ timingLine h1 m1 s1 ms1 h2 m2 s2 ms2 ++ post

/-- The lines of a block as `Parse` reads them: the block trimmed, then split at
newlines. -/
def blockLines (b : List Char) : List (List Char) := Split (TrimSpace b) ['\n']

/-- The part of a timecode behind its hour field: minutes, seconds, milliseconds. -/
def timecodeTail (m s ms : Nat) : List Char :=
  ':' :: (pad2 m ++ (':' :: (pad2 s ++ (',' :: pad3 ms))))

/-- A timing line whose two hour fields are the given texts, of any width. -/
def wideTimingLine (hours1 : List Char) (m1 s1 ms1 : Nat) (hours2 : List Char)
    (m2 s2 ms2 : Nat) : List Char :=
  hours1 ++ (timecodeTail m1 s1 ms1 ++
    (' ' :: '-' :: '-' :: '>' :: ' ' :: (hours2 ++ timecodeTail m2 s2 ms2)))

/-- The number that a run of decimal digits denotes. -/
def decimalValue (ds : List Char) : Nat :=
  ds.foldl (fun acc c => acc * 10 + digitVal c) 0

/-- The text writes the integer `n` in decimal: an optional sign `+` or `-`, then one or
more ASCII digits, the value within the range of the 64-bit `int`. -/
def IntText (s : List Char) (n : Int) : Prop :=
  (∃ ds : List Char, ds ≠ [] ∧ (∀ c ∈ ds, isDigit c = true) ∧
    (((s = ds ∨ s = '+' :: ds) ∧ n = (decimalValue ds : ℤ)) ∨
      (s = '-' :: ds ∧ n = -(decimalValue ds : ℤ)))) ∧
  -(2 : ℤ) ^ 63 ≤ n ∧ n < 2 ^ 63

/-- The leftmost timing text of a line: the line is `pre`, then the timing line of the
eight fields, then `post`, and no timing text begins further left in the line. -/
def LeftmostTiming (line pre post : List Char) (h1 m1 s1 ms1 h2 m2 s2 ms2 : Nat) : Prop :=
  (h1 < 100 ∧ m1 < 100 ∧ s1 < 100 ∧ ms1 < 1000) ∧
  (h2 < 100 ∧ m2 < 100 ∧ s2 < 100 ∧ ms2 < 1000) ∧
  line = pre ++ timingLine h1 m1 s1 ms1 h2 m2 s2 ms2 ++ post ∧
  ∀ (pre' post' : List Char) (a1 b1 c1 d1 a2 b2 c2 d2 : Nat),
    (a1 < 100 ∧ b1 < 100 ∧ c1 < 100 ∧ d1 < 1000) →
    (a2 < 100 ∧ b2 < 100 ∧ c2 < 100 ∧ d2 < 1000) →
    line = pre' ++ timingLine a1 b1 c1 d1 a2 b2 c2 d2 ++ post' → pre.length ≤ pre'.length

/-- The float64 product of a duration and a factor, as `AdjustSpeed` computes it, lies
within the range of `int64`. -/
def FitsInt64 (d : Int) (factor : ℚ) : Prop :=
  |f64Round (f64Round d * factor)| < 2 ^ 63

/-- The conditions under which two adjustments in a row and one adjustment by the
product are compared for the timestamp `t`: it is an `int64` value, and none of the three
float64 products involved leaves the range of `int64`. -/
def ComposeFits (t : Int) (a b : ℚ) : Prop :=
  (-(2 : ℤ) ^ 63 ≤ t ∧ t < 2 ^ 63) ∧ FitsInt64 t a ∧ FitsInt64 (scaleDuration t a) b ∧
    FitsInt64 t (f64Round (a * b))

/-- The tolerance of the composition for the timestamp `t`, in nanoseconds: `b + 2` for
the truncations, and the float64 roundings in proportion `2^-51` of the product. -/
def composeTolerance (t : Int) (a b : ℚ) : ℚ :=
  b + 2 + (1 + b + 4 * |(t : ℚ) * a * b|) / 2 ^ 51

/-- The setting of exact arithmetic for the timestamp `t`: no float64 product involved
in the two ways of adjusting is rounded. -/
def ComposeExact (t : Int) (a b : ℚ) : Prop :=
  f64Round (a * b) = a * b ∧ ExactProduct t a ∧ ExactProduct (scaleDuration t a) b ∧
    ExactProduct t (a * b)

/-! ## Trimming -/

theorem dropWhile_append_of_all {p : Char → Bool} (s t : List Char)
    (h : ∀ c ∈ s, p c = true) : (s ++ t).dropWhile p = t.dropWhile p := by
  induction s with
  | nil => rfl
  | cons a s ih =>
    have ha : p a = true := h a (List.mem_cons_self _ _)
    simp only [List.cons_append, List.dropWhile_cons, ha, if_true]
    exact ih (fun c hc => h c (List.mem_cons_of_mem _ hc))

theorem dropWhile_append_of_exists {p : Char → Bool} (s t : List Char)
    (h : ∃ c ∈ s, p c = false) : (s ++ t).dropWhile p = s.dropWhile p ++ t := by
  induction s with
  | nil => simp at h
  | cons a s ih =>
    by_cases ha : p a = true
    · simp only [List.cons_append, List.dropWhile_cons, ha, if_true]
      apply ih
      obtain ⟨c, hc, hpc⟩ := h
      rcases List.mem_cons.mp hc with rfl | hc
      · simp [ha] at hpc
      · exact ⟨c, hc, hpc⟩
    · simp [List.dropWhile_cons, ha]

theorem rdropWhile_append_of_all {p : Char → Bool} (s t : List Char)
    (h : ∀ c ∈ t, p c = true) : (s ++ t).rdropWhile p = s.rdropWhile p := by
  unfold List.rdropWhile
  rw [List.reverse_append, dropWhile_append_of_all]
  intro c hc
  exact h c (List.mem_reverse.mp hc)

theorem TrimSpace_of_all_space (s : List Char) (h : ∀ c ∈ s, isSpace c = true) :
    TrimSpace s = [] := by
  unfold TrimSpace
  have : s.dropWhile isSpace = [] := by
    rw [List.dropWhile_eq_nil_iff]; exact h
  rw [this]; rfl

theorem TrimSpace_pad (pre s post : List Char) (hpre : ∀ c ∈ pre, isSpace c = true)
    (hpost : ∀ c ∈ post, isSpace c = true) : TrimSpace (pre ++ s ++ post) = TrimSpace s := by
  unfold TrimSpace
  rw [List.append_assoc, dropWhile_append_of_all pre _ hpre]
  by_cases hs : ∀ c ∈ s, isSpace c = true
  · rw [dropWhile_append_of_all s _ hs]
    have h1 : post.dropWhile isSpace = [] := by
      rw [List.dropWhile_eq_nil_iff]; exact hpost
    have h2 : s.dropWhile isSpace = [] := by
      rw [List.dropWhile_eq_nil_iff]; exact hs
    rw [h1, h2]
  · push_neg at hs
    obtain ⟨c, hc, hpc⟩ := hs
    rw [dropWhile_append_of_exists s post ⟨c, hc, by simpa using hpc⟩]
    exact rdropWhile_append_of_all _ _ hpost

/-! ## Rendering -/

theorem renderFrom_succ (i : Nat) (es : List Entry) :
    renderFrom (i + 1) es =
      if es = [] then [] else ['\n', '\n'] ++ Join (es.map cueBlock) ['\n', '\n'] := by
  induction es generalizing i with
  | nil => rfl
  | cons e es ih =>
    rw [renderFrom, ih (i + 1)]
    cases es with
    | nil => simp [Join, cueBlock]
    | cons e2 es => simp [Join, cueBlock]

theorem renderFrom_zero (es : List Entry) :
    renderFrom 0 es = Join (es.map cueBlock) ['\n', '\n'] := by
  cases es with
  | nil => rfl
  | cons e es =>
    rw [renderFrom, renderFrom_succ]
    cases es with
    | nil => simp [Join, cueBlock]
    | cons e2 es => simp [Join, cueBlock]

/-! ## Claims on the shape of the results -/

/-- C5: for every input whatsoever, `Parse` returns a nil error. -/
theorem Parse_error_nil (content : List Char) : (Parse content).2 = none := rfl

/-- C6: for every subtitle, `String` returns a nil error and the cue blocks
(index line, timing line made of the two `formatTime` texts around the arrow, caption
text) of the entries in order, joined by exactly one blank line, nothing following
the last text; the empty subtitle renders to the empty string. -/
theorem String_eq_join_blocks (s : Subtitle) :
    s.String.2 = none ∧
    s.String.1 = Join (s.Entries.map cueBlock) ['\n', '\n'] ∧
    (∀ e : Entry, cueBlock e =
      fmtInt e.Index ++ ['\n'] ++ formatTime e.StartTime ++ " --> ".toList ++
        formatTime e.EndTime ++ ['\n'] ++ e.Text) ∧
    (Subtitle.mk []).String = ([], none) := by
  refine ⟨rfl, renderFrom_zero _, ?_, rfl⟩
  intro e
  simp [cueBlock]

/-- C9: `Parse` of the empty text, and of any text made only of white space (blank
lines included), is the empty sequence with a nil error; white space and blank lines
before and after the cues do not change the result. -/
theorem Parse_blank (pre content post : List Char)
    (hpre : ∀ c ∈ pre, isSpace c = true) (hpost : ∀ c ∈ post, isSpace c = true) :
    Parse [] = ({ Entries := [] }, none) ∧
    Parse pre = ({ Entries := [] }, none) ∧
    Parse (pre ++ content ++ post) = Parse content := by
  refine ⟨by decide, ?_, ?_⟩
  · unfold Parse
    rw [TrimSpace_of_all_space pre hpre]
    decide
  · unfold Parse
    rw [TrimSpace_pad pre content post hpre hpost]

/-- C9, at an input: blank lines alone parse to nothing, and blank lines around a cue
leave its entry as it is. -/
theorem Parse_blank_witness :
    ("\n \n\n".toList.all isSpace = true ∧ "\n\n".toList.all isSpace = true) ∧
    Parse "\n \n\n".toList = ({ Entries := [] }, none) ∧
    Parse ("\n \n\n".toList ++ "7\n00:00:01,000 --> 00:00:02,000\nHi".toList ++ "\n\n".toList) =
      ({ Entries := [{ Index := 7, StartTime := 1000000000, EndTime := 2000000000,
                       Text := "Hi".toList }] }, none) := by
  have h := Parse_blank "\n \n\n".toList "7\n00:00:01,000 --> 00:00:02,000\nHi".toList
    "\n\n".toList (by decide) (by decide)
  refine ⟨by decide, h.2.1, ?_⟩
  rw [h.2.2]
  decide

/-! ## float64 rounding -/

theorem roundHalfEven_intCast (n : ℤ) : roundHalfEven (n : ℚ) = n := by
  unfold roundHalfEven
  simp

theorem floor_le_roundHalfEven (y : ℚ) : ⌊y⌋ ≤ roundHalfEven y := by
  unfold roundHalfEven
  split_ifs <;> omega

theorem roundHalfEven_le_floor_add_one (y : ℚ) : roundHalfEven y ≤ ⌊y⌋ + 1 := by
  unfold roundHalfEven
  split_ifs <;> omega

theorem le_roundHalfEven {n : ℤ} {y : ℚ} (h : (n : ℚ) ≤ y) : n ≤ roundHalfEven y :=
  le_trans (Int.le_floor.mpr h) (floor_le_roundHalfEven y)

theorem roundHalfEven_le {n : ℤ} {y : ℚ} (h : y ≤ (n : ℚ)) : roundHalfEven y ≤ n := by
  by_cases hy : (⌊y⌋ : ℚ) = y
  · have : roundHalfEven y = ⌊y⌋ := by
      unfold roundHalfEven
      rw [hy]; simp
    rw [this]
    exact_mod_cast (hy ▸ h : ((⌊y⌋ : ℤ) : ℚ) ≤ n)
  · have h1 : (⌊y⌋ : ℚ) < y := lt_of_le_of_ne (Int.floor_le y) hy
    have h2 : (⌊y⌋ : ℚ) < n := lt_of_lt_of_le h1 h
    have h3 : ⌊y⌋ < n := by exact_mod_cast h2
    have := roundHalfEven_le_floor_add_one y
    omega

theorem abs_roundHalfEven_sub_le (y : ℚ) : |(roundHalfEven y : ℚ) - y| ≤ 1 / 2 := by
  have h1 := Int.floor_le y
  have h2 := Int.lt_floor_add_one y
  unfold roundHalfEven
  rw [abs_le]
  split_ifs with a b c
  · constructor <;> linarith
  · push_cast; constructor <;> linarith
  · constructor <;> linarith
  · push_cast; constructor <;> linarith

theorem two_zpow_pos (e : ℤ) : (0 : ℚ) < 2 ^ e := zpow_pos (by norm_num) e

theorem log_two_le (x : ℚ) (hx : 0 < x) : (2 : ℚ) ^ Int.log 2 x ≤ x := by
  have := Int.zpow_log_le_self (R := ℚ) (b := 2) (r := x) (by norm_num) hx
  simpa using this

theorem lt_log_two_succ (x : ℚ) : x < (2 : ℚ) ^ (Int.log 2 x + 1) := by
  have := Int.lt_zpow_succ_log_self (R := ℚ) (b := 2) (by norm_num) x
  simpa using this

theorem log_two_lt_of_lt {x : ℚ} {k : ℤ} (hx : 0 < x) (h : x < 2 ^ k) : Int.log 2 x < k := by
  have := (Int.lt_zpow_iff_log_lt (R := ℚ) (b := 2) (by norm_num) (x := k) (r := x) hx).mp
    (by simpa using h)
  exact this

theorem le_log_two_of_le {x : ℚ} {k : ℤ} (hx : 0 < x) (h : (2 : ℚ) ^ k ≤ x) : k ≤ Int.log 2 x := by
  have := (Int.zpow_le_iff_le_log (R := ℚ) (b := 2) (by norm_num) (x := k) (r := x) hx).mp
    (by simpa using h)
  exact this

theorem binade_ge (x : ℚ) : -1022 ≤ binade x := le_max_right _ _

theorem lt_two_zpow_binade_succ (x : ℚ) : |x| < 2 ^ (binade x + 1) := by
  refine lt_of_lt_of_le (lt_log_two_succ |x|) ?_
  apply zpow_le_zpow_right₀ (by norm_num)
  have : Int.log 2 |x| ≤ binade x := le_max_left _ _
  omega

theorem binade_mono {x y : ℚ} (hx : 0 < |x|) (h : |x| ≤ |y|) : binade x ≤ binade y := by
  unfold binade
  exact max_le_max (Int.log_mono_right hx h) le_rfl

theorem isF64_exists_mul_quantum {x : ℚ} (h : IsF64 x) :
    ∃ n : ℤ, x = n * 2 ^ (binade x - 52) := by
  obtain ⟨m, e, hm, he, rfl⟩ := h
  by_cases hm0 : m = 0
  · exact ⟨0, by simp [hm0]⟩
  have hpos : (0 : ℚ) < |(m : ℚ) * 2 ^ e| := by
    rw [abs_pos]
    exact mul_ne_zero (by exact_mod_cast hm0) (ne_of_gt (two_zpow_pos e))
  have hlt : |(m : ℚ) * 2 ^ e| < 2 ^ (53 + e) := by
    rw [abs_mul, abs_of_pos (two_zpow_pos e), zpow_add₀ (by norm_num : (2 : ℚ) ≠ 0)]
    apply mul_lt_mul_of_pos_right _ (two_zpow_pos e)
    have : ((|m| : ℤ) : ℚ) < ((2 ^ 53 : ℤ) : ℚ) := by exact_mod_cast hm
    push_cast at this
    exact lt_of_lt_of_eq this (by norm_num)
  have hlog := log_two_lt_of_lt hpos hlt
  have hb : binade ((m : ℚ) * 2 ^ e) ≤ e + 52 := by
    unfold binade
    apply max_le <;> omega
  obtain ⟨k, hk⟩ : ∃ k : ℕ, (k : ℤ) = e + 52 - binade ((m : ℚ) * 2 ^ e) :=
    ⟨(e + 52 - binade ((m : ℚ) * 2 ^ e)).toNat, Int.toNat_of_nonneg (by omega)⟩
  refine ⟨m * 2 ^ k, ?_⟩
  have he' : e = (k : ℤ) + (binade ((m : ℚ) * 2 ^ e) - 52) := by omega
  push_cast
  rw [mul_assoc, ← zpow_natCast, ← zpow_add₀ (by norm_num : (2 : ℚ) ≠ 0), ← he']

theorem f64Round_of_mul_quantum {x : ℚ} {n : ℤ} (h : x = n * 2 ^ (binade x - 52)) :
    f64Round x = x := by
  unfold f64Round
  have hq := two_zpow_pos (binade x - 52)
  have : x / 2 ^ (binade x - 52) = n := by
    rw [div_eq_iff (ne_of_gt hq)]; exact h
  rw [this, roundHalfEven_intCast]
  exact h.symm

theorem f64Round_of_isF64 {x : ℚ} (h : IsF64 x) : f64Round x = x := by
  obtain ⟨n, hn⟩ := isF64_exists_mul_quantum h
  exact f64Round_of_mul_quantum hn

theorem isF64_intCast (n : ℤ) (h : |n| < 2 ^ 53) : IsF64 (n : ℚ) :=
  ⟨n, 0, h, by norm_num, by simp⟩

theorem f64Round_intCast (n : ℤ) (h : |n| < 2 ^ 53) : f64Round (n : ℚ) = n :=
  f64Round_of_isF64 (isF64_intCast n h)

theorem two_zpow_split (b : ℤ) (k : ℕ) :
    (2 : ℚ) ^ b = (((2 : ℤ) ^ k : ℤ) : ℚ) * 2 ^ (b - k) := by
  rw [Int.cast_pow, Int.cast_ofNat, ← zpow_natCast, ← zpow_add₀ (by norm_num : (2 : ℚ) ≠ 0)]
  congr 1; omega

theorem binade_eq_log_of_gt {x : ℚ} (h : -1022 < binade x) : binade x = Int.log 2 |x| := by
  unfold binade at h ⊢
  rcases le_total (Int.log 2 |x|) (-1022) with h1 | h1
  · rw [max_eq_right h1] at h; omega
  · exact max_eq_left h1

theorem two_zpow_binade_le {x : ℚ} (hx : x ≠ 0) (h : -1022 < binade x) :
    (2 : ℚ) ^ binade x ≤ |x| := by
  rw [binade_eq_log_of_gt h]
  exact log_two_le |x| (abs_pos.mpr hx)

theorem f64Round_zero : f64Round 0 = 0 := by
  unfold f64Round
  simp [roundHalfEven]

theorem f64Round_nonneg {x : ℚ} (hx : 0 ≤ x) : 0 ≤ f64Round x := by
  unfold f64Round
  have hq := two_zpow_pos (binade x - 52)
  apply mul_nonneg _ hq.le
  have : (0 : ℤ) ≤ roundHalfEven (x / 2 ^ (binade x - 52)) :=
    le_roundHalfEven (by simpa using div_nonneg hx hq.le)
  exact_mod_cast this

theorem two_zpow_split52 (b : ℤ) : (2 : ℚ) ^ b = (((2 : ℤ) ^ 52 : ℤ) : ℚ) * 2 ^ (b - 52) :=
  two_zpow_split b 52

theorem two_zpow_split53 (b : ℤ) : (2 : ℚ) ^ b = (((2 : ℤ) ^ 53 : ℤ) : ℚ) * 2 ^ (b - 53) :=
  two_zpow_split b 53

/-- Rounding does not cross a binary64 value below: a float under a non-negative real
stays under its rounding. -/
theorem le_f64Round {a x : ℚ} (ha : IsF64 a) (hx : 0 ≤ x) (hax : a ≤ x) : a ≤ f64Round x := by
  rcases le_or_lt a 0 with ha0 | ha0
  · exact le_trans ha0 (f64Round_nonneg hx)
  have hxpos : 0 < x := lt_of_lt_of_le ha0 hax
  have hmono : binade a ≤ binade x :=
    binade_mono (abs_pos.mpr (ne_of_gt ha0)) (by rw [abs_of_pos ha0, abs_of_pos hxpos]; exact hax)
  have hq := two_zpow_pos (binade x - 52)
  obtain ⟨n, hn⟩ := isF64_exists_mul_quantum ha
  unfold f64Round
  rcases eq_or_lt_of_le hmono with heq | hlt
  · rw [heq] at hn
    have h1 : (n : ℚ) ≤ x / 2 ^ (binade x - 52) := by
      rw [le_div_iff₀ hq, ← hn]; exact hax
    have h2 : n ≤ roundHalfEven (x / 2 ^ (binade x - 52)) := le_roundHalfEven h1
    rw [hn]
    exact mul_le_mul_of_nonneg_right (by exact_mod_cast h2) hq.le
  · have hbx : -1022 < binade x := lt_of_le_of_lt (binade_ge a) hlt
    have h2x : (2 : ℚ) ^ binade x ≤ x := by
      have := two_zpow_binade_le (ne_of_gt hxpos) hbx
      rwa [abs_of_pos hxpos] at this
    have ha2 : a < 2 ^ binade x := by
      have := lt_two_zpow_binade_succ a
      rw [abs_of_pos ha0] at this
      exact lt_of_lt_of_le this (zpow_le_zpow_right₀ (by norm_num) (by omega))
    have h1 : (((2 : ℤ) ^ 52 : ℤ) : ℚ) ≤ x / 2 ^ (binade x - 52) := by
      rw [le_div_iff₀ hq, ← two_zpow_split52 (binade x)]
      exact h2x
    have h2 := le_roundHalfEven h1
    have h3 : (2 : ℚ) ^ binade x ≤ (roundHalfEven (x / 2 ^ (binade x - 52)) : ℚ) *
        2 ^ (binade x - 52) := by
      rw [two_zpow_split52 (binade x)]
      exact mul_le_mul_of_nonneg_right (by exact_mod_cast h2) hq.le
    exact le_trans ha2.le h3

/-- Rounding does not cross a binary64 value above: a float over a non-negative real
stays over its rounding. -/
theorem f64Round_le {b x : ℚ} (hb : IsF64 b) (hx : 0 ≤ x) (hxb : x ≤ b) : f64Round x ≤ b := by
  rcases eq_or_lt_of_le hx with hx0 | hxpos
  · rw [← hx0, f64Round_zero]; exact hx0 ▸ hxb
  have hbpos : 0 < b := lt_of_lt_of_le hxpos hxb
  have hmono : binade x ≤ binade b :=
    binade_mono (abs_pos.mpr (ne_of_gt hxpos)) (by rw [abs_of_pos hbpos, abs_of_pos hxpos]; exact hxb)
  have hq := two_zpow_pos (binade x - 52)
  obtain ⟨n, hn⟩ := isF64_exists_mul_quantum hb
  unfold f64Round
  rcases eq_or_lt_of_le hmono with heq | hlt
  · rw [← heq] at hn
    have h1 : x / 2 ^ (binade x - 52) ≤ (n : ℚ) := by
      rw [div_le_iff₀ hq, ← hn]; exact hxb
    have h2 : roundHalfEven (x / 2 ^ (binade x - 52)) ≤ n := roundHalfEven_le h1
    rw [hn]
    exact mul_le_mul_of_nonneg_right (by exact_mod_cast h2) hq.le
  · have hbb : -1022 < binade b := lt_of_le_of_lt (binade_ge x) hlt
    have h2b : (2 : ℚ) ^ binade b ≤ b := by
      have := two_zpow_binade_le (ne_of_gt hbpos) hbb
      rwa [abs_of_pos hbpos] at this
    have hx2 : x < 2 ^ (binade x + 1) := by
      have := lt_two_zpow_binade_succ x
      rwa [abs_of_pos hxpos] at this
    have e1 : (2 : ℚ) ^ (binade x + 1) = (((2 : ℤ) ^ 53 : ℤ) : ℚ) * 2 ^ (binade x - 52) := by
      rw [two_zpow_split53 (binade x + 1)]
      congr 2; omega
    have h1 : x / 2 ^ (binade x - 52) ≤ (((2 : ℤ) ^ 53 : ℤ) : ℚ) := by
      rw [div_le_iff₀ hq, ← e1]; exact hx2.le
    have h2 := roundHalfEven_le h1
    have h3 : (roundHalfEven (x / 2 ^ (binade x - 52)) : ℚ) * 2 ^ (binade x - 52) ≤
        2 ^ (binade x + 1) := by
      rw [e1]
      exact mul_le_mul_of_nonneg_right (by exact_mod_cast h2) hq.le
    refine le_trans h3 (le_trans ?_ h2b)
    exact zpow_le_zpow_right₀ (by norm_num) (by omega)

/-- The rounding error is at most half the spacing of the floats around the value. -/
theorem abs_f64Round_sub_le (x : ℚ) : |f64Round x - x| ≤ 2 ^ (binade x - 53) := by
  have hq := two_zpow_pos (binade x - 52)
  have h := abs_roundHalfEven_sub_le (x / 2 ^ (binade x - 52))
  have e : f64Round x - x =
      ((roundHalfEven (x / 2 ^ (binade x - 52)) : ℚ) - x / 2 ^ (binade x - 52)) *
        2 ^ (binade x - 52) := by
    unfold f64Round
    rw [sub_mul, div_mul_cancel₀ _ (ne_of_gt hq)]
  rw [e, abs_mul, abs_of_pos hq]
  have e2 : (2 : ℚ) ^ (binade x - 53) = 1 / 2 * 2 ^ (binade x - 52) := by
    have : binade x - 53 = -1 + (binade x - 52) := by omega
    rw [this, zpow_add₀ (by norm_num : (2 : ℚ) ≠ 0)]
    norm_num
  rw [e2]
  exact mul_le_mul_of_nonneg_right h hq.le

/-! ## Conversion to integers, and the float64 accessors of `time.Duration` -/

theorem f64ToInt64_of_mem_Ico {x : ℚ} {q : ℤ} (hq0 : 0 ≤ q) (hq : q < 2 ^ 63)
    (h1 : (q : ℚ) ≤ x) (h2 : x < q + 1) : f64ToInt64 x = q := by
  have hx : 0 ≤ x := le_trans (by exact_mod_cast hq0) h1
  have hf : ⌊x⌋ = q := by
    rw [Int.floor_eq_iff]; exact ⟨h1, h2⟩
  unfold f64ToInt64 truncQ
  simp only [hx, if_true, hf]
  rw [if_pos]
  constructor
  · have : -(2 : ℤ) ^ 63 ≤ 0 := by norm_num
    omega
  · exact hq

theorem isF64_one_sub (q : ℤ) (j : ℕ) (hq0 : 0 ≤ q) (hqj : (q + 1) * 2 ^ j ≤ 2 ^ 53) :
    IsF64 ((q : ℚ) + 1 - 1 / 2 ^ j) := by
  have hj : j ≤ 53 := by
    by_contra hcon
    push_neg at hcon
    have h1 : (2 : ℤ) ^ 53 < 2 ^ j := pow_lt_pow_right₀ (by norm_num) hcon
    have h2 : (2 : ℤ) ^ j ≤ (q + 1) * 2 ^ j := by nlinarith [pow_pos (by norm_num : (0 : ℤ) < 2) j]
    omega
  refine ⟨(q + 1) * 2 ^ j - 1, -(j : ℤ), ?_, by omega, ?_⟩
  · have hp : (0 : ℤ) < 2 ^ j := pow_pos (by norm_num) j
    rw [abs_lt]
    constructor
    · nlinarith
    · omega
  · have hp : (0 : ℚ) < 2 ^ j := pow_pos (by norm_num) j
    rw [zpow_neg, zpow_natCast]
    push_cast
    field_simp

/-- The float64 quotient `float64(d / U) + float64(d % U) / U` of a non-negative
duration truncates to the whole quotient, when the duration is a multiple of `g` and
the floats near the quotient are spaced finely enough (`U ≤ g * 2^j` and
`(d / U + 1) * 2^j ≤ 2^53`). -/
theorem trunc_unit_quotient (d U g : ℤ) (j : ℕ) (hd : 0 ≤ d) (hU : 0 < U) (hU53 : U < 2 ^ 53)
    (hg : 0 < g) (hgU : g ∣ U) (hgd : g ∣ d) (hj : U ≤ g * 2 ^ j)
    (hq : (d / U + 1) * 2 ^ j ≤ 2 ^ 53) :
    f64ToInt64 (f64Round (f64Round ((d.tdiv U : ℤ) : ℚ) +
      f64Round (f64Round ((d.tmod U : ℤ) : ℚ) / (U : ℚ)))) = d / U := by
  rw [Int.tdiv_eq_ediv hd hU.le, Int.tmod_eq_emod hd hU.le]
  have hq0 : 0 ≤ d / U := Int.ediv_nonneg hd hU.le
  have hr0 : 0 ≤ d % U := Int.emod_nonneg d (ne_of_gt hU)
  have hrU : d % U < U := Int.emod_lt_of_pos d hU
  have hp : (0 : ℤ) < 2 ^ j := pow_pos (by norm_num) j
  have hpq : (0 : ℚ) < 2 ^ j := pow_pos (by norm_num) j
  have hUq : (0 : ℚ) < (U : ℚ) := by exact_mod_cast hU
  -- the two conversions of integers are exact
  have hq53 : |d / U| < 2 ^ 53 := by
    rw [abs_of_nonneg hq0]; nlinarith
  have hr53 : |d % U| < 2 ^ 53 := by
    rw [abs_of_nonneg hr0]; omega
  rw [f64Round_intCast _ hq53, f64Round_intCast _ hr53]
  -- the remainder is at most U - g
  have hgr : g ∣ d % U := by
    rw [Int.emod_def]
    exact Int.dvd_sub hgd (Dvd.dvd.mul_right hgU _)
  have hrg : d % U ≤ U - g := by
    obtain ⟨a, ha⟩ := hgU
    obtain ⟨b, hb⟩ := hgr
    rw [hb] at hrU ⊢
    rw [ha] at hrU ⊢
    have hab : b < a := lt_of_mul_lt_mul_left hrU hg.le
    nlinarith
  have hfrac_le : ((d % U : ℤ) : ℚ) / (U : ℚ) ≤ 1 - 1 / 2 ^ j := by
    rw [div_le_iff₀ hUq]
    have h1 : ((d % U : ℤ) : ℚ) ≤ (U : ℚ) - (g : ℚ) := by exact_mod_cast hrg
    have h2 : (U : ℚ) ≤ (g : ℚ) * 2 ^ j := by exact_mod_cast hj
    have h3 : (1 - 1 / 2 ^ j) * (U : ℚ) = (U : ℚ) - (U : ℚ) / 2 ^ j := by ring
    have h4 : (U : ℚ) / 2 ^ j ≤ (g : ℚ) := by
      rw [div_le_iff₀ hpq]; exact h2
    linarith
  have hfrac_nonneg : (0 : ℚ) ≤ ((d % U : ℤ) : ℚ) / (U : ℚ) :=
    div_nonneg (by exact_mod_cast hr0) hUq.le
  have h1j : (0 + 1) * (2 : ℤ) ^ j ≤ 2 ^ 53 := by nlinarith
  have hone : IsF64 (1 - 1 / 2 ^ j : ℚ) := by
    have := isF64_one_sub 0 j le_rfl h1j
    simpa using this
  have hf0 := f64Round_nonneg hfrac_nonneg
  have hf1 := f64Round_le hone hfrac_nonneg hfrac_le
  -- the sum stays between the quotient and the last float below the next integer
  have hs0 : (0 : ℚ) ≤ ((d / U : ℤ) : ℚ) + f64Round (((d % U : ℤ) : ℚ) / (U : ℚ)) :=
    add_nonneg (by exact_mod_cast hq0) hf0
  have hlow := le_f64Round (isF64_intCast _ hq53) hs0 (by linarith)
  have hhigh := f64Round_le (isF64_one_sub (d / U) j hq0 hq) hs0 (by linarith)
  have hlt : (1 : ℚ) / 2 ^ j > 0 := by positivity
  apply f64ToInt64_of_mem_Ico hq0 _ hlow (by linarith)
  have : (2 : ℤ) ^ 53 < 2 ^ 63 := by norm_num
  nlinarith

theorem trunc_Hours (d : ℤ) (hd : 0 ≤ d) (hd63 : d < 2 ^ 63)
    (h : d < 2048 * Hour ∨ Millisecond ∣ d) : f64ToInt64 (Hours d) = d / Hour := by
  have e : (3600000000000 : ℚ) = ((Hour : ℤ) : ℚ) := by norm_num [Hour]
  unfold Hours
  rw [e]
  have hq : d / Hour < 2562048 := by
    unfold Hour; norm_num at hd63; omega
  rcases h with h | h
  · have hq2 : d / Hour < 2048 := by
      unfold Hour at h ⊢; omega
    apply trunc_unit_quotient d Hour 1 42 hd (by decide) (by decide) (by decide)
      (one_dvd _) (one_dvd _) (by decide)
    norm_num; omega
  · apply trunc_unit_quotient d Hour Millisecond 22 hd (by decide) (by decide) (by decide)
      (by decide) h (by decide)
    norm_num; omega

theorem trunc_Minutes (d : ℤ) (hd : 0 ≤ d) (hd63 : d < 2 ^ 63)
    (h : d < 2048 * Hour ∨ Millisecond ∣ d) : f64ToInt64 (Minutes d) = d / Minute := by
  have e : (60000000000 : ℚ) = ((Minute : ℤ) : ℚ) := by norm_num [Minute]
  unfold Minutes
  rw [e]
  have hq : d / Minute < 153722868 := by
    unfold Minute; norm_num at hd63; omega
  rcases h with h | h
  · have hq2 : d / Minute < 122880 := by
      unfold Hour at h; unfold Minute; omega
    apply trunc_unit_quotient d Minute 1 36 hd (by decide) (by decide) (by decide)
      (one_dvd _) (one_dvd _) (by decide)
    norm_num; omega
  · apply trunc_unit_quotient d Minute Millisecond 16 hd (by decide) (by decide) (by decide)
      (by decide) h (by decide)
    norm_num; omega

theorem trunc_Seconds (d : ℤ) (hd : 0 ≤ d) (hd63 : d < 2 ^ 63)
    (h : d < 2048 * Hour ∨ Millisecond ∣ d) : f64ToInt64 (Seconds d) = d / Second := by
  have e : (1000000000 : ℚ) = ((Second : ℤ) : ℚ) := by norm_num [Second]
  unfold Seconds
  rw [e]
  have hq : d / Second < 9223372037 := by
    unfold Second; norm_num at hd63; omega
  rcases h with h | h
  · have hq2 : d / Second < 7372800 := by
      unfold Hour at h; unfold Second; omega
    apply trunc_unit_quotient d Second 1 30 hd (by decide) (by decide) (by decide)
      (one_dvd _) (one_dvd _) (by decide)
    norm_num; omega
  · apply trunc_unit_quotient d Second Millisecond 10 hd (by decide) (by decide) (by decide)
      (by decide) h (by decide)
    norm_num; omega

/-- On a non-negative duration that is a whole number of milliseconds, or is shorter
than 2048 hours, the float64 accessors lose nothing and `formatTime` prints the whole
hours, the minutes and seconds modulo 60 and the milliseconds modulo 1000. -/
theorem formatTime_eq_timecode (d : ℤ) (hd : 0 ≤ d) (hd63 : d < 2 ^ 63)
    (h : d < 2048 * Hour ∨ Millisecond ∣ d) :
    formatTime d =
      timecode (d / Hour) (d / Minute % 60) (d / Second % 60) (d / Millisecond % 1000) := by
  unfold formatTime timecode
  rw [trunc_Hours d hd hd63 h, trunc_Minutes d hd hd63 h, trunc_Seconds d hd hd63 h]
  have hm : 0 ≤ d / Minute := Int.ediv_nonneg hd (by decide)
  have hs : 0 ≤ d / Second := Int.ediv_nonneg hd (by decide)
  have hms : 0 ≤ d / Millisecond := Int.ediv_nonneg hd (by decide)
  rw [Int.tmod_eq_emod hm (by decide), Int.tmod_eq_emod hs (by decide)]
  unfold Milliseconds
  rw [Int.tdiv_eq_ediv hd (by decide)]
  have e : (1000000 : ℤ) = Millisecond := rfl
  rw [e, Int.tmod_eq_emod hms (by decide)]

/-! ## Evaluating a rounding at a given value -/

theorem roundHalfEven_eq_of_abs_lt {y : ℚ} {n : ℤ} (h : |y - n| < 1 / 2) :
    roundHalfEven y = n := by
  rw [abs_lt] at h
  obtain ⟨h1, h2⟩ := h
  have hf1 : n - 1 ≤ ⌊y⌋ := Int.le_floor.mpr (by push_cast; linarith)
  have hf2 : ⌊y⌋ ≤ n := by
    have : ⌊y⌋ < n + 1 := Int.floor_lt.mpr (by push_cast; linarith)
    omega
  have hfl := Int.floor_le y
  have hfl2 := Int.lt_floor_add_one y
  unfold roundHalfEven
  rcases eq_or_lt_of_le hf2 with heq | hlt
  · rw [heq, if_pos (by linarith)]
  · have heq : ⌊y⌋ = n - 1 := by omega
    have hc : ((⌊y⌋ : ℤ) : ℚ) = (n : ℚ) - 1 := by rw [heq]; push_cast; ring
    rw [if_neg (by rw [hc]; linarith), if_pos (by rw [hc]; linarith), heq]
    ring

theorem roundHalfEven_tie_even {y : ℚ} {n : ℤ} (h : y = n + 1 / 2) (hn : n % 2 = 0) :
    roundHalfEven y = n := by
  have hf : ⌊y⌋ = n := by
    rw [Int.floor_eq_iff, h]; constructor <;> linarith
  unfold roundHalfEven
  rw [hf, h]
  norm_num [hn]

theorem binade_eq {x : ℚ} {e : ℤ} (he : -1022 ≤ e) (h1 : (2 : ℚ) ^ e ≤ |x|)
    (h2 : |x| < 2 ^ (e + 1)) : binade x = e := by
  have hpos : 0 < |x| := lt_of_lt_of_le (two_zpow_pos e) h1
  have ha := le_log_two_of_le hpos h1
  have hb := log_two_lt_of_lt hpos h2
  unfold binade
  rw [max_eq_left (by omega)]
  omega

/-- The rounding of a value whose binade is known: the nearest multiple of the
spacing of that binade. -/
theorem f64Round_eq {x : ℚ} {e n : ℤ} (he : -1022 ≤ e) (h1 : (2 : ℚ) ^ e ≤ |x|)
    (h2 : |x| < 2 ^ (e + 1)) (hn : roundHalfEven (x / 2 ^ (e - 52)) = n) :
    f64Round x = n * 2 ^ (e - 52) := by
  unfold f64Round
  rw [binade_eq he h1 h2, hn]

/-! ## `formatTime` at 4096 h 59 min 59.999999999 s -/

theorem Hours_far : f64ToInt64 (Hours 14749199999999999) = 4097 := by
  have e1 : Int.tdiv 14749199999999999 Hour = 4096 := by decide
  have e2 : Int.tmod 14749199999999999 Hour = 3599999999999 := by decide
  have r1 : f64Round ((4096 : ℤ) : ℚ) = 4096 := by
    rw [f64Round_intCast _ (by norm_num)]; norm_num
  have r2 : f64Round ((3599999999999 : ℤ) : ℚ) = 3599999999999 := by
    rw [f64Round_intCast _ (by norm_num)]; norm_num
  have r3 : f64Round ((3599999999999 : ℚ) / 3600000000000) = 9007199254738490 / 2 ^ 53 := by
    rw [f64Round_eq (e := -1) (n := 9007199254738490) (by norm_num)
      (by rw [abs_of_pos (by norm_num)]; norm_num)
      (by rw [abs_of_pos (by norm_num)]; norm_num)
      (roundHalfEven_eq_of_abs_lt (by rw [abs_lt]; constructor <;> norm_num))]
    norm_num
  have r4 : f64Round ((4096 : ℚ) + 9007199254738490 / 2 ^ 53) = 4097 := by
    rw [f64Round_eq (e := 12) (n := 4097 * 2 ^ 40) (by norm_num)
      (by rw [abs_of_pos (by norm_num)]; norm_num)
      (by rw [abs_of_pos (by norm_num)]; norm_num)
      (roundHalfEven_eq_of_abs_lt (by rw [abs_lt]; constructor <;> norm_num))]
    norm_num
  unfold Hours
  rw [e1, e2, r1, r2, r3, r4]
  exact f64ToInt64_of_mem_Ico (by norm_num) (by norm_num) (by norm_num) (by norm_num)

theorem Minutes_far : f64ToInt64 (Minutes 14749199999999999) = 245819 := by
  have e1 : Int.tdiv 14749199999999999 Minute = 245819 := by decide
  have e2 : Int.tmod 14749199999999999 Minute = 59999999999 := by decide
  have r1 : f64Round ((245819 : ℤ) : ℚ) = 245819 := by
    rw [f64Round_intCast _ (by norm_num)]; norm_num
  have r2 : f64Round ((59999999999 : ℤ) : ℚ) = 59999999999 := by
    rw [f64Round_intCast _ (by norm_num)]; norm_num
  have r3 : f64Round ((59999999999 : ℚ) / 60000000000) = 9007199254590872 / 2 ^ 53 := by
    rw [f64Round_eq (e := -1) (n := 9007199254590872) (by norm_num)
      (by rw [abs_of_pos (by norm_num)]; norm_num)
      (by rw [abs_of_pos (by norm_num)]; norm_num)
      (roundHalfEven_eq_of_abs_lt (by rw [abs_lt]; constructor <;> norm_num))]
    norm_num
  have r4 : f64Round ((245819 : ℚ) + 9007199254590872 / 2 ^ 53) =
      (245820 * 2 ^ 35 - 1) / 2 ^ 35 := by
    rw [f64Round_eq (e := 17) (n := 245820 * 2 ^ 35 - 1) (by norm_num)
      (by rw [abs_of_pos (by norm_num)]; norm_num)
      (by rw [abs_of_pos (by norm_num)]; norm_num)
      (roundHalfEven_eq_of_abs_lt (by rw [abs_lt]; constructor <;> norm_num))]
    norm_num
  unfold Minutes
  rw [e1, e2, r1, r2, r3, r4]
  exact f64ToInt64_of_mem_Ico (by norm_num) (by norm_num) (by norm_num) (by norm_num)

theorem Seconds_far : f64ToInt64 (Seconds 14749199999999999) = 14749199 := by
  have e1 : Int.tdiv 14749199999999999 Second = 14749199 := by decide
  have e2 : Int.tmod 14749199999999999 Second = 999999999 := by decide
  have r1 : f64Round ((14749199 : ℤ) : ℚ) = 14749199 := by
    rw [f64Round_intCast _ (by norm_num)]; norm_num
  have r2 : f64Round ((999999999 : ℤ) : ℚ) = 999999999 := by
    rw [f64Round_intCast _ (by norm_num)]; norm_num
  have r3 : f64Round ((999999999 : ℚ) / 1000000000) = 9007199245733793 / 2 ^ 53 := by
    rw [f64Round_eq (e := -1) (n := 9007199245733793) (by norm_num)
      (by rw [abs_of_pos (by norm_num)]; norm_num)
      (by rw [abs_of_pos (by norm_num)]; norm_num)
      (roundHalfEven_eq_of_abs_lt (by rw [abs_lt]; constructor <;> norm_num))]
    norm_num
  have r4 : f64Round ((14749199 : ℚ) + 9007199245733793 / 2 ^ 53) =
      (14749200 * 2 ^ 29 - 1) / 2 ^ 29 := by
    rw [f64Round_eq (e := 23) (n := 14749200 * 2 ^ 29 - 1) (by norm_num)
      (by rw [abs_of_pos (by norm_num)]; norm_num)
      (by rw [abs_of_pos (by norm_num)]; norm_num)
      (roundHalfEven_eq_of_abs_lt (by rw [abs_lt]; constructor <;> norm_num))]
    norm_num
  unfold Seconds
  rw [e1, e2, r1, r2, r3, r4]
  exact f64ToInt64_of_mem_Ico (by norm_num) (by norm_num) (by norm_num) (by norm_num)

/-- C7, at 4096 h 59 min 59.999999999 s (14749199999999999 ns): the float64 sum inside
`Duration.Hours` rounds up to 4097, so `formatTime` prints one hour too many, while the
whole hours of the duration are 4096. The example of the claim, 3661.25 s, is printed as
the claim says. -/
theorem formatTime_far_hours :
    formatTime 14749199999999999 = "4097:59:59,999".toList ∧
    (14749199999999999 : ℤ) / Hour = 4096 ∧
    formatTime 3661250000000 = "01:01:01,250".toList := by
  refine ⟨?_, by decide, ?_⟩
  · unfold formatTime
    rw [Hours_far, Minutes_far, Seconds_far]
    decide
  · rw [formatTime_eq_timecode _ (by decide) (by decide) (Or.inl (by decide))]
    decide

/-! ## The float64 product of `AdjustSpeed` -/

theorem abs_truncQ_sub_lt (y : ℚ) : |(truncQ y : ℚ) - y| < 1 := by
  unfold truncQ
  rw [abs_lt]
  split_ifs with h
  · have h1 := Int.floor_le y
    have h2 := Int.lt_floor_add_one y
    constructor <;> linarith
  · have h1 := Int.le_ceil y
    have h2 := Int.ceil_lt_add_one y
    constructor <;> linarith

theorem truncQ_eq_zero {y : ℚ} (h : |y| < 1) : truncQ y = 0 := by
  rw [abs_lt] at h
  unfold truncQ
  split_ifs with h0
  · rw [Int.floor_eq_iff]; constructor
    · simpa using h0
    · simpa using h.2
  · rw [Int.ceil_eq_iff]; constructor
    · simpa using h.1
    · push_neg at h0; simpa using h0.le

theorem truncQ_intCast (n : ℤ) : truncQ (n : ℚ) = n := by
  unfold truncQ
  split_ifs <;> simp

theorem f64ToInt64_eq_truncQ {y : ℚ} (h : |y| < 2 ^ 63) : f64ToInt64 y = truncQ y := by
  have ht := abs_truncQ_sub_lt y
  rw [abs_lt] at h ht
  unfold f64ToInt64
  rw [if_pos]
  constructor
  · have : (-(2 : ℚ) ^ 63 - 1) < (truncQ y : ℚ) := by linarith
    have : ((-(2 : ℤ) ^ 63 - 1 : ℤ) : ℚ) < (truncQ y : ℚ) := by push_cast; linarith
    have := Int.cast_lt.mp this
    omega
  · have : (truncQ y : ℚ) < 2 ^ 63 + 1 := by linarith
    have h2 : (truncQ y : ℚ) < (((2 : ℤ) ^ 63 + 1 : ℤ) : ℚ) := by push_cast; linarith
    have h3 := Int.cast_lt.mp h2
    by_contra hcon
    push_neg at hcon
    have h4 : truncQ y = 2 ^ 63 := by omega
    -- the truncation never exceeds the magnitude of the value
    have h5 : (0 : ℚ) ≤ y := by
      by_contra hneg
      push_neg at hneg
      have : truncQ y ≤ 0 := by
        unfold truncQ
        rw [if_neg (not_le.mpr hneg)]
        exact Int.ceil_le.mpr (by simpa using hneg.le)
      rw [h4] at this
      norm_num at this
    have h6 : (truncQ y : ℚ) ≤ y := by
      unfold truncQ
      rw [if_pos h5]
      exact Int.floor_le y
    rw [h4] at h6
    push_cast at h6
    linarith [h.2]

/-- The error of one rounding: relative `2^-53`, or absolute `2^-1075` for a value in
the subnormal range. -/
theorem f64Round_error (z : ℚ) :
    |f64Round z - z| ≤ |z| / 2 ^ 53 ∨
      (|f64Round z - z| ≤ 1 / 2 ^ 1075 ∧ |z| < 1 / 2 ^ 1021) := by
  by_cases hz : z = 0
  · left; rw [hz, f64Round_zero]; simp
  have herr := abs_f64Round_sub_le z
  by_cases hb : -1022 < binade z
  · left
    have h1 := two_zpow_binade_le hz hb
    have e : (2 : ℚ) ^ (binade z - 53) = 2 ^ binade z / 2 ^ 53 := by
      rw [zpow_sub₀ (by norm_num : (2 : ℚ) ≠ 0)]
      norm_num
    rw [e] at herr
    refine le_trans herr ?_
    exact div_le_div_of_nonneg_right h1 (by positivity)
  · right
    have hb2 : binade z = -1022 := le_antisymm (not_lt.mp hb) (binade_ge z)
    have h2 := lt_two_zpow_binade_succ z
    rw [hb2] at herr h2
    constructor
    · refine le_trans herr (le_of_eq ?_)
      rw [show (-1022 : ℤ) - 53 = -((1075 : ℕ) : ℤ) by norm_num, zpow_neg, zpow_natCast]
      simp
    · refine lt_of_lt_of_eq h2 ?_
      rw [show (-1022 : ℤ) + 1 = -((1021 : ℕ) : ℤ) by norm_num, zpow_neg, zpow_natCast]
      simp

theorem abs_f64Round_intCast_sub_le (d : ℤ) : |f64Round (d : ℚ) - d| ≤ |(d : ℚ)| / 2 ^ 53 := by
  rcases f64Round_error (d : ℚ) with h | ⟨_, h⟩
  · exact h
  · have hd : d = 0 := by
      by_contra hne
      have h1 : (1 : ℤ) ≤ |d| := Int.one_le_abs hne
      have h2 : (1 : ℚ) ≤ |(d : ℚ)| := by exact_mod_cast h1
      have h3 : (1 : ℚ) / 2 ^ 1021 ≤ 1 := by
        rw [div_le_one (by positivity)]
        exact one_le_pow₀ (by norm_num)
      linarith
    rw [hd]; simp [f64Round_zero]

/-- The float64 product of `AdjustSpeed` is the exact product up to one nanosecond of
truncation and a relative error of `2^-51`, as long as it fits `int64`. -/
theorem scaleDuration_error (d : ℤ) (f : ℚ) (hr : |f64Round (f64Round d * f)| < 2 ^ 63) :
    |(scaleDuration d f : ℚ) - d * f| < 1 + |(d : ℚ) * f| / 2 ^ 51 := by
  unfold scaleDuration
  rw [f64ToInt64_eq_truncQ hr]
  have hx := abs_f64Round_intCast_sub_le d
  have ht := abs_truncQ_sub_lt (f64Round (f64Round d * f))
  have hdf : |f64Round (d : ℚ) * f - d * f| ≤ |(d : ℚ) * f| / 2 ^ 53 := by
    rw [← sub_mul, abs_mul, abs_mul]
    calc |f64Round (d : ℚ) - d| * |f| ≤ |(d : ℚ)| / 2 ^ 53 * |f| :=
          mul_le_mul_of_nonneg_right hx (abs_nonneg f)
      _ = |(d : ℚ)| * |f| / 2 ^ 53 := by ring
  have hnn : 0 ≤ |(d : ℚ) * f| := abs_nonneg _
  have hxf : |f64Round (d : ℚ) * f| ≤ 2 * |(d : ℚ) * f| := by
    have h1 : |f64Round (d : ℚ) * f| ≤ |f64Round (d : ℚ) * f - d * f| + |(d : ℚ) * f| := by
      have := abs_add (f64Round (d : ℚ) * f - d * f) ((d : ℚ) * f)
      simpa using this
    have h2 : |(d : ℚ) * f| / 2 ^ 53 ≤ |(d : ℚ) * f| :=
      div_le_self hnn (one_le_pow₀ (by norm_num))
    linarith
  have hdfl : |(d : ℚ) * f| ≤ 2 * |f64Round (d : ℚ) * f| := by
    have h1 : |(d : ℚ) * f| ≤ |f64Round (d : ℚ) * f - d * f| + |f64Round (d : ℚ) * f| := by
      have := abs_sub_abs_le_abs_sub ((d : ℚ) * f) (f64Round (d : ℚ) * f)
      rw [abs_sub_comm] at this
      linarith
    have h2 : |(d : ℚ) * f| / 2 ^ 53 ≤ |(d : ℚ) * f| / 2 := by
      apply div_le_div_of_nonneg_left hnn (by norm_num) (by norm_num)
    linarith
  rcases f64Round_error (f64Round (d : ℚ) * f) with h | ⟨h, hs⟩
  · have tri : |(truncQ (f64Round (f64Round (d : ℚ) * f)) : ℚ) - d * f| ≤
        |(truncQ (f64Round (f64Round (d : ℚ) * f)) : ℚ) - f64Round (f64Round (d : ℚ) * f)| +
        |f64Round (f64Round (d : ℚ) * f) - f64Round (d : ℚ) * f| +
        |f64Round (d : ℚ) * f - d * f| := by
      have := abs_add_three
        ((truncQ (f64Round (f64Round (d : ℚ) * f)) : ℚ) - f64Round (f64Round (d : ℚ) * f))
        (f64Round (f64Round (d : ℚ) * f) - f64Round (d : ℚ) * f)
        (f64Round (d : ℚ) * f - d * f)
      simpa using this
    have h3 : |f64Round (d : ℚ) * f| / 2 ^ 53 ≤ 2 * |(d : ℚ) * f| / 2 ^ 53 :=
      div_le_div_of_nonneg_right hxf (by positivity)
    have h4 : 2 * |(d : ℚ) * f| / 2 ^ 53 + |(d : ℚ) * f| / 2 ^ 53 ≤ |(d : ℚ) * f| / 2 ^ 51 := by
      have : |(d : ℚ) * f| / 2 ^ 51 = 4 * |(d : ℚ) * f| / 2 ^ 53 := by ring
      rw [this, ← add_div]
      apply div_le_div_of_nonneg_right _ (by positivity)
      linarith
    linarith
  · have hsmall : (1 : ℚ) / 2 ^ 1021 ≤ 1 / 4 := by
      apply div_le_div_of_nonneg_left (by norm_num) (by norm_num)
      calc (4 : ℚ) = 2 ^ 2 := by norm_num
        _ ≤ 2 ^ 1021 := pow_le_pow_right₀ (by norm_num) (by norm_num)
    have hsmall2 : (1 : ℚ) / 2 ^ 1075 ≤ 1 / 4 := by
      apply div_le_div_of_nonneg_left (by norm_num) (by norm_num)
      calc (4 : ℚ) = 2 ^ 2 := by norm_num
        _ ≤ 2 ^ 1075 := pow_le_pow_right₀ (by norm_num) (by norm_num)
    have hy : |f64Round (f64Round (d : ℚ) * f)| < 1 := by
      have := abs_sub_abs_le_abs_sub (f64Round (f64Round (d : ℚ) * f)) (f64Round (d : ℚ) * f)
      linarith
    rw [truncQ_eq_zero hy]
    simp only [Int.cast_zero, zero_sub, abs_neg]
    have h5 : 0 ≤ |(d : ℚ) * f| / 2 ^ 51 := by positivity
    linarith

theorem scaleDuration_exact {d : ℤ} {f : ℚ} (h : ExactProduct d f) :
    scaleDuration d f = truncQ (d * f) := by
  obtain ⟨h1, h2, h3⟩ := h
  unfold scaleDuration
  rw [h1, h2, f64ToInt64_eq_truncQ h3]

theorem scaleDuration_scaledBy (d : ℤ) (f : ℚ) : ScaledBy f d (scaleDuration d f) :=
  ⟨scaleDuration_error d f, scaleDuration_exact⟩

theorem truncQ_neg (y : ℚ) : truncQ (-y) = -truncQ y := by
  unfold truncQ
  rcases lt_trichotomy y 0 with h | h | h
  · rw [if_pos (by linarith), if_neg (by linarith), Int.floor_neg]
  · subst h; simp
  · rw [if_neg (by linarith), if_pos (by linarith), Int.ceil_neg]

theorem truncQ_compose_nonneg (y b : ℚ) (hy : 0 ≤ y) (hb : 0 < b) :
    |((truncQ (truncQ y * b) : ℤ) : ℚ) - truncQ (y * b)| < b + 1 := by
  have hyb : 0 ≤ y * b := mul_nonneg hy hb.le
  have ht : truncQ y = ⌊y⌋ := by unfold truncQ; rw [if_pos hy]
  have hfy0 : (0 : ℚ) ≤ (⌊y⌋ : ℚ) := by exact_mod_cast Int.floor_nonneg.mpr hy
  have hfb : 0 ≤ (⌊y⌋ : ℚ) * b := mul_nonneg hfy0 hb.le
  rw [ht]
  have e1 : truncQ ((⌊y⌋ : ℚ) * b) = ⌊(⌊y⌋ : ℚ) * b⌋ := by unfold truncQ; rw [if_pos hfb]
  have e2 : truncQ (y * b) = ⌊y * b⌋ := by unfold truncQ; rw [if_pos hyb]
  rw [e1, e2]
  have h1 := Int.floor_le y
  have h2 := Int.lt_floor_add_one y
  have h3 := Int.floor_le ((⌊y⌋ : ℚ) * b)
  have h4 := Int.lt_floor_add_one ((⌊y⌋ : ℚ) * b)
  have h5 := Int.floor_le (y * b)
  have h6 := Int.lt_floor_add_one (y * b)
  have hmono : (⌊(⌊y⌋ : ℚ) * b⌋ : ℚ) ≤ (⌊y * b⌋ : ℚ) := by
    exact_mod_cast Int.floor_le_floor (mul_le_mul_of_nonneg_right h1 hb.le)
  have hub : y * b < ((⌊y⌋ : ℚ) + 1) * b := mul_lt_mul_of_pos_right h2 hb
  rw [abs_lt]
  constructor <;> nlinarith

theorem truncQ_compose (y b : ℚ) (hb : 0 < b) :
    |((truncQ (truncQ y * b) : ℤ) : ℚ) - truncQ (y * b)| < b + 1 := by
  rcases le_or_lt 0 y with hy | hy
  · exact truncQ_compose_nonneg y b hy hb
  · have h := truncQ_compose_nonneg (-y) b (by linarith) hb
    rw [truncQ_neg y, neg_mul, truncQ_neg (y * b)] at h
    have e : ((-truncQ y : ℤ) : ℚ) * b = -((truncQ y : ℚ) * b) := by push_cast; ring
    rw [e, truncQ_neg] at h
    push_cast at h
    rw [← abs_neg]
    convert h using 2
    ring

/-- C3, as amended: after `AdjustSpeed(factor)` the entries are as many as before and,
for each of them, `StartTime` and `EndTime` are the old values times `factor` in the
sense of `ScaledBy`: within `int64` the exact product up to truncation and a relative
float64 error of `2^-51`, and exactly the truncated product when the float64 product
is exact. -/
theorem AdjustSpeed_scales (s : Subtitle) (factor : ℚ) (_hf : 0 < factor) :
    List.Forall₂
      (fun e e' => ScaledBy factor e.StartTime e'.StartTime ∧
        ScaledBy factor e.EndTime e'.EndTime)
      s.Entries (s.AdjustSpeed factor).Entries := by
  unfold Subtitle.AdjustSpeed
  simp only
  rw [List.forall₂_map_right_iff, List.forall₂_same]
  intro e _
  exact ⟨scaleDuration_scaledBy _ _, scaleDuration_scaledBy _ _⟩

/-- C3, at an input: factor 2 turns 1.5 s into 3 s (and 2 s into 4 s). -/
theorem AdjustSpeed_scales_witness :
    (0 : ℚ) < 2 ∧
    (Subtitle.AdjustSpeed ⟨[⟨1, 1500000000, 2000000000, ['a']⟩]⟩ 2).Entries =
      [⟨1, 3000000000, 4000000000, ['a']⟩] := by
  refine ⟨by norm_num, ?_⟩
  have h := AdjustSpeed_scales ⟨[⟨1, 1500000000, 2000000000, ['a']⟩]⟩ 2 (by norm_num)
  have hx : ∀ n : ℤ, |n| < 2 ^ 52 → ExactProduct n 2 := by
    intro n hn
    have h1 : |n| < 2 ^ 53 := lt_trans hn (by norm_num)
    have h2 : |n * 2| < 2 ^ 53 := by
      rw [abs_mul]; norm_num at hn ⊢; omega
    refine ⟨f64Round_intCast n h1, ?_, ?_⟩
    · have := f64Round_intCast (n * 2) h2
      push_cast at this; exact this
    · have : ((|n * 2| : ℤ) : ℚ) < ((2 ^ 53 : ℤ) : ℚ) := Int.cast_lt.mpr h2
      push_cast at this
      refine lt_trans this (by norm_num)
  simp only [Subtitle.AdjustSpeed, List.map_cons, List.map_nil, List.forall₂_cons,
    List.Forall₂.nil, and_true] at h ⊢
  obtain ⟨⟨-, h1⟩, ⟨-, h2⟩⟩ := h
  have e1 := h1 (hx 1500000000 (by norm_num))
  have e2 := h2 (hx 2000000000 (by norm_num))
  have t1 : truncQ (((1500000000 : ℤ) : ℚ) * 2) = 3000000000 := by
    have := truncQ_intCast 3000000000
    norm_num at this ⊢; exact this
  have t2 : truncQ (((2000000000 : ℤ) : ℚ) * 2) = 4000000000 := by
    have := truncQ_intCast 4000000000
    norm_num at this ⊢; exact this
  rw [e1, e2, t1, t2]

theorem scaleDuration_third : scaleDuration 3000000 (6004799503160661 / 18014398509481984) =
    1000000 := by
  have r1 : f64Round ((3000000 : ℤ) : ℚ) = 3000000 := by
    rw [f64Round_intCast _ (by norm_num)]; norm_num
  have r2 : f64Round ((3000000 : ℚ) * (6004799503160661 / 18014398509481984)) = 1000000 := by
    rw [f64Round_eq (e := 19) (n := 1000000 * 2 ^ 33) (by norm_num)
      (by rw [abs_of_pos (by norm_num)]; norm_num)
      (by rw [abs_of_pos (by norm_num)]; norm_num)
      (roundHalfEven_eq_of_abs_lt (by rw [abs_lt]; constructor <;> norm_num))]
    norm_num
  unfold scaleDuration
  rw [r1, r2]
  exact f64ToInt64_of_mem_Ico (by norm_num) (by norm_num) (by norm_num) (by norm_num)

/-- C3, as stated, fails: the float64 nearest to one third is a positive factor, and
`AdjustSpeed` with it turns 3 ms into exactly 1 ms, because the float64 product is
rounded to the nearest float before it is truncated; the exact product truncated to
whole nanoseconds is 999999 ns. -/
theorem AdjustSpeed_rounds_product :
    (0 : ℚ) < 6004799503160661 / 18014398509481984 ∧
    f64Round (6004799503160661 / 18014398509481984) = 6004799503160661 / 18014398509481984 ∧
    (Subtitle.AdjustSpeed ⟨[⟨1, 3000000, 3000000, ['a']⟩]⟩
        (6004799503160661 / 18014398509481984)).Entries = [⟨1, 1000000, 1000000, ['a']⟩] ∧
    truncQ (((3000000 : ℤ) : ℚ) * (6004799503160661 / 18014398509481984)) = 999999 := by
  refine ⟨by norm_num, ?_, ?_, ?_⟩
  · apply f64Round_of_isF64
    exact ⟨6004799503160661, -54, by norm_num, by norm_num, by norm_num⟩
  · simp only [Subtitle.AdjustSpeed, List.map_cons, List.map_nil, scaleDuration_third]
  · unfold truncQ
    rw [if_pos (by norm_num), Int.floor_eq_iff]
    constructor <;> norm_num

theorem exactProduct_of (d : ℤ) (f : ℚ) (m e : ℤ) (hd : |d| < 2 ^ 53) (hm : |m| < 2 ^ 53)
    (he : -1074 ≤ e) (h : (d : ℚ) * f = m * 2 ^ e) (hr : |(d : ℚ) * f| < 2 ^ 63) :
    ExactProduct d f :=
  ⟨f64Round_intCast d hd, f64Round_of_isF64 ⟨m, e, hm, he, h⟩, hr⟩

theorem truncQ_eq_of_mem_Ico {x : ℚ} {q : ℤ} (h0 : 0 ≤ x) (h1 : (q : ℚ) ≤ x)
    (h2 : x < q + 1) : truncQ x = q := by
  unfold truncQ
  rw [if_pos h0, Int.floor_eq_iff]
  exact ⟨h1, h2⟩

theorem exactProduct_three_half : ExactProduct 3 (1 / 2) :=
  exactProduct_of 3 (1 / 2) 3 (-1) (by norm_num) (by norm_num) (by norm_num) (by norm_num)
    (by rw [abs_of_pos (by norm_num)]; norm_num)

theorem exactProduct_five_half : ExactProduct 5 (1 / 2) :=
  exactProduct_of 5 (1 / 2) 5 (-1) (by norm_num) (by norm_num) (by norm_num) (by norm_num)
    (by rw [abs_of_pos (by norm_num)]; norm_num)

theorem exactProduct_one_three : ExactProduct 1 3 :=
  exactProduct_of 1 3 3 0 (by norm_num) (by norm_num) (by norm_num) (by norm_num)
    (by rw [abs_of_pos (by norm_num)]; norm_num)

theorem exactProduct_two_three : ExactProduct 2 3 :=
  exactProduct_of 2 3 6 0 (by norm_num) (by norm_num) (by norm_num) (by norm_num)
    (by rw [abs_of_pos (by norm_num)]; norm_num)

theorem exactProduct_three_threeHalves : ExactProduct 3 (1 / 2 * 3) :=
  exactProduct_of 3 (1 / 2 * 3) 9 (-1) (by norm_num) (by norm_num) (by norm_num) (by norm_num)
    (by rw [abs_of_pos (by norm_num)]; norm_num)

theorem exactProduct_five_threeHalves : ExactProduct 5 (1 / 2 * 3) :=
  exactProduct_of 5 (1 / 2 * 3) 15 (-1) (by norm_num) (by norm_num) (by norm_num)
    (by norm_num) (by rw [abs_of_pos (by norm_num)]; norm_num)

theorem scaleDuration_three_half : scaleDuration 3 (1 / 2) = 1 := by
  rw [scaleDuration_exact exactProduct_three_half]
  exact truncQ_eq_of_mem_Ico (by norm_num) (by norm_num) (by norm_num)

theorem scaleDuration_five_half : scaleDuration 5 (1 / 2) = 2 := by
  rw [scaleDuration_exact exactProduct_five_half]
  exact truncQ_eq_of_mem_Ico (by norm_num) (by norm_num) (by norm_num)

theorem scaleDuration_one_three : scaleDuration 1 3 = 3 := by
  rw [scaleDuration_exact exactProduct_one_three]
  exact truncQ_eq_of_mem_Ico (by norm_num) (by norm_num) (by norm_num)

theorem scaleDuration_two_three : scaleDuration 2 3 = 6 := by
  rw [scaleDuration_exact exactProduct_two_three]
  exact truncQ_eq_of_mem_Ico (by norm_num) (by norm_num) (by norm_num)

theorem scaleDuration_three_threeHalves : scaleDuration 3 (1 / 2 * 3) = 4 := by
  rw [scaleDuration_exact exactProduct_three_threeHalves]
  exact truncQ_eq_of_mem_Ico (by norm_num) (by norm_num) (by norm_num)

theorem scaleDuration_five_threeHalves : scaleDuration 5 (1 / 2 * 3) = 7 := by
  rw [scaleDuration_exact exactProduct_five_threeHalves]
  exact truncQ_eq_of_mem_Ico (by norm_num) (by norm_num) (by norm_num)

theorem f64Round_threeHalves : f64Round (1 / 2 * 3) = 1 / 2 * 3 :=
  f64Round_of_isF64 ⟨3, -1, by norm_num, by norm_num, by norm_num⟩

/-! ## Blocks and lines: `Split`, `Join`, `TrimSpace` -/

theorem isSpace_newline : isSpace '\n' = true := by decide

theorem splitGo_ne_nil (sep : List Char) (k : Nat) (s : List Char) : splitGo sep k s ≠ [] := by
  induction s generalizing k with
  | nil => simp [splitGo]
  | cons c cs ih =>
    cases k with
    | succ k => rw [splitGo]; exact ih k
    | zero =>
      rw [splitGo]
      split_ifs
      · simp
      · split <;> simp

theorem hasBlank_cons_cons (a b : Char) (cs : List Char) :
    hasBlank (a :: b :: cs) = ((a == '\n' && b == '\n') || hasBlank (b :: cs)) := rfl

theorem hasBlank_tail {c : Char} {cs : List Char} (h : hasBlank (c :: cs) = false) :
    hasBlank cs = false := by
  cases cs with
  | nil => rfl
  | cons b cs =>
    rw [hasBlank_cons_cons] at h
    simp only [Bool.or_eq_false_iff] at h
    exact h.2

theorem endsClean_tail {c d : Char} {cs : List Char} (h : endsClean (c :: d :: cs) = true) :
    endsClean (d :: cs) = true := by
  unfold endsClean at h ⊢
  rw [List.reverse_cons] at h
  have hne : (d :: cs).reverse ≠ [] := by simp
  cases hr : (d :: cs).reverse with
  | nil => exact absurd hr hne
  | cons x xs => rw [hr] at h; simpa [startsClean] using h

theorem endsClean_singleton {c : Char} (h : endsClean [c] = true) : isSpace c = false := by
  simpa [endsClean, startsClean] using h

/-- Splitting on a blank line cuts off a block that has no blank line inside and does
not end with a newline. -/
theorem splitGo_blank_cut (b rest : List Char) (hb : hasBlank b = false)
    (he : b = [] ∨ endsClean b = true) :
    splitGo ['\n', '\n'] 0 (b ++ '\n' :: '\n' :: rest) = b :: splitGo ['\n', '\n'] 0 rest := by
  induction b with
  | nil => simp [splitGo, List.isPrefixOf]
  | cons c cs ih =>
    have hne : (c :: cs) ≠ [] := by simp
    have he' : endsClean (c :: cs) = true := he.resolve_left hne
    have hnp : List.isPrefixOf ['\n', '\n'] (c :: cs ++ '\n' :: '\n' :: rest) = false := by
      cases cs with
      | nil =>
        have := endsClean_singleton he'
        have hc : c ≠ '\n' := by
          intro hc; rw [hc, isSpace_newline] at this; exact absurd this (by simp)
        simp [List.isPrefixOf, hc, Ne.symm hc]
      | cons d ds =>
        rw [hasBlank_cons_cons] at hb
        simp only [Bool.or_eq_false_iff, Bool.and_eq_false_iff, beq_eq_false_iff_ne] at hb
        simp only [List.cons_append, List.isPrefixOf, Bool.and_true,
          Bool.and_eq_false_iff, beq_eq_false_iff_ne]
        rcases hb.1 with h | h
        · left; exact Ne.symm h
        · right; exact Ne.symm h
    have ih' := ih (hasBlank_tail hb) (by
      cases cs with
      | nil => left; rfl
      | cons d ds => right; exact endsClean_tail he')
    rw [List.cons_append] at hnp
    rw [List.cons_append, splitGo, hnp]
    simp only [Bool.false_eq_true, if_false]
    rw [ih']

/-- Splitting on a blank line leaves a text without blank line in one piece. -/
theorem splitGo_blank_whole (b : List Char) (hb : hasBlank b = false) :
    splitGo ['\n', '\n'] 0 b = [b] := by
  induction b with
  | nil => rfl
  | cons c cs ih =>
    have hnp : List.isPrefixOf ['\n', '\n'] (c :: cs) = false := by
      cases cs with
      | nil => simp [List.isPrefixOf]
      | cons d ds =>
        rw [hasBlank_cons_cons] at hb
        simp only [Bool.or_eq_false_iff, Bool.and_eq_false_iff, beq_eq_false_iff_ne] at hb
        simp only [List.isPrefixOf, Bool.and_true, Bool.and_eq_false_iff, beq_eq_false_iff_ne]
        rcases hb.1 with h | h
        · left; exact Ne.symm h
        · right; exact Ne.symm h
    rw [splitGo, hnp]
    simp only [Bool.false_eq_true, if_false]
    rw [ih (hasBlank_tail hb)]

theorem Split_Join_blocks (bs : List (List Char)) (hne : bs ≠ [])
    (h : ∀ b ∈ bs, IsBlock b) : Split (Join bs ['\n', '\n']) ['\n', '\n'] = bs := by
  unfold Split
  induction bs with
  | nil => exact absurd rfl hne
  | cons a rest ih =>
    have ha := h a (List.mem_cons_self _ _)
    cases rest with
    | nil => exact splitGo_blank_whole a ha.2.2
    | cons b rest =>
      rw [Join]
      have : a ++ ['\n', '\n'] ++ Join (b :: rest) ['\n', '\n'] =
          a ++ '\n' :: '\n' :: Join (b :: rest) ['\n', '\n'] := by simp
      rw [this, splitGo_blank_cut a _ ha.2.2 (Or.inr ha.2.1)]
      rw [ih (by simp) (fun x hx => h x (List.mem_cons_of_mem _ hx))]

theorem TrimSpace_of_clean (s : List Char) (h1 : startsClean s = true)
    (h2 : endsClean s = true) : TrimSpace s = s := by
  unfold TrimSpace
  have hd : s.dropWhile isSpace = s := by
    cases s with
    | nil => rfl
    | cons c cs =>
      have : isSpace c = false := by simpa [startsClean] using h1
      simp [List.dropWhile_cons, this]
  rw [hd]
  unfold List.rdropWhile
  unfold endsClean at h2
  cases hr : s.reverse with
  | nil => rw [hr] at h2; simp [startsClean] at h2
  | cons c cs =>
    rw [hr] at h2
    have : isSpace c = false := by simpa [startsClean] using h2
    simp only [List.dropWhile_cons, this, Bool.false_eq_true, if_false]
    rw [← hr, List.reverse_reverse]

theorem startsClean_ne_nil {s : List Char} (h : startsClean s = true) : s ≠ [] := by
  intro hs; rw [hs] at h; simp [startsClean] at h

theorem startsClean_append (s t : List Char) (h : startsClean s = true) :
    startsClean (s ++ t) = true := by
  cases s with
  | nil => simp [startsClean] at h
  | cons c cs => simpa [startsClean] using h

theorem endsClean_append (s t : List Char) (h : endsClean t = true) :
    endsClean (s ++ t) = true := by
  unfold endsClean at h ⊢
  rw [List.reverse_append]
  exact startsClean_append _ _ h

theorem startsClean_Join (bs : List (List Char)) (sep : List Char) (hne : bs ≠ [])
    (h : ∀ b ∈ bs, startsClean b = true) : startsClean (Join bs sep) = true := by
  cases bs with
  | nil => exact absurd rfl hne
  | cons a rest =>
    have ha := h a (List.mem_cons_self _ _)
    cases rest with
    | nil => exact ha
    | cons b rest =>
      rw [Join, List.append_assoc]
      exact startsClean_append _ _ ha

theorem endsClean_Join (bs : List (List Char)) (sep : List Char) (hne : bs ≠ [])
    (h : ∀ b ∈ bs, endsClean b = true) : endsClean (Join bs sep) = true := by
  induction bs with
  | nil => exact absurd rfl hne
  | cons a rest ih =>
    cases rest with
    | nil => exact h a (List.mem_cons_self _ _)
    | cons b rest =>
      rw [Join]
      exact endsClean_append _ _ (ih (by simp) (fun x hx => h x (List.mem_cons_of_mem _ hx)))

/-- On blocks joined by blank lines, `Parse` treats each block by itself: the result
is made of the entries of the blocks that parse, in order. -/
theorem Parse_Join_blocks (bs : List (List Char)) (h : ∀ b ∈ bs, IsBlock b) :
    Parse (Join bs ['\n', '\n']) = ({ Entries := bs.filterMap parseBlock }, none) := by
  cases bs with
  | nil => decide
  | cons a rest =>
    unfold Parse
    rw [TrimSpace_of_clean _
      (startsClean_Join _ _ (by simp) (fun b hb => (h b hb).1))
      (endsClean_Join _ _ (by simp) (fun b hb => (h b hb).2.1)),
      Split_Join_blocks _ (by simp) h]

/-! ## Lines -/

theorem splitGo_newline_cons (c : Char) (cs : List Char) :
    splitGo ['\n'] 0 (c :: cs) =
      if c = '\n' then [] :: splitGo ['\n'] 0 cs
      else
        match splitGo ['\n'] 0 cs with
        | [] => [[c]]
        | p :: ps => (c :: p) :: ps := by
  rw [splitGo]
  by_cases hc : c = '\n'
  · subst hc; simp [List.isPrefixOf]
  · have : List.isPrefixOf ['\n'] (c :: cs) = false := by
      simp [List.isPrefixOf, Ne.symm hc]
    rw [this]; simp [hc]

/-- Splitting into lines cuts off a first line that holds no newline. -/
theorem splitGo_line_cut (l rest : List Char) (hl : ∀ c ∈ l, c ≠ '\n') :
    splitGo ['\n'] 0 (l ++ '\n' :: rest) = l :: splitGo ['\n'] 0 rest := by
  induction l with
  | nil => rw [List.nil_append, splitGo_newline_cons]; simp
  | cons c cs ih =>
    have hc : c ≠ '\n' := hl c (List.mem_cons_self _ _)
    rw [List.cons_append, splitGo_newline_cons, if_neg hc,
      ih (fun x hx => hl x (List.mem_cons_of_mem _ hx))]

theorem Join_cons_cons (c : Char) (p : List Char) (ps : List (List Char)) (sep : List Char) :
    Join ((c :: p) :: ps) sep = c :: Join (p :: ps) sep := by
  cases ps with
  | nil => rfl
  | cons q qs => simp [Join]

/-- Joining the lines of a text with newlines gives the text back. -/
theorem Join_Split_lines (s : List Char) : Join (Split s ['\n']) ['\n'] = s := by
  unfold Split
  induction s with
  | nil => rfl
  | cons c cs ih =>
    rw [splitGo_newline_cons]
    by_cases hc : c = '\n'
    · rw [if_pos hc]
      cases hs : splitGo ['\n'] 0 cs with
      | nil => exact absurd hs (splitGo_ne_nil _ _ _)
      | cons p ps =>
        rw [hs] at ih
        rw [Join, ih, hc]; rfl
    · rw [if_neg hc]
      cases hs : splitGo ['\n'] 0 cs with
      | nil => exact absurd hs (splitGo_ne_nil _ _ _)
      | cons p ps =>
        rw [hs] at ih
        simp only
        rw [Join_cons_cons, ih]

/-! ## Decimal digits -/

theorem digitChar_toNat (n : Nat) : (digitChar n).toNat = 48 + n % 10 := by
  have h : n % 10 < 10 := Nat.mod_lt _ (by norm_num)
  unfold digitChar
  generalize n % 10 = k at h
  interval_cases k <;> rfl

theorem isDigit_digitChar (n : Nat) : isDigit (digitChar n) = true := by
  unfold isDigit
  rw [digitChar_toNat]
  have h : n % 10 < 10 := Nat.mod_lt _ (by norm_num)
  simp only [Bool.and_eq_true, decide_eq_true_eq]
  omega

theorem digitVal_digitChar (n : Nat) : digitVal (digitChar n) = n % 10 := by
  unfold digitVal
  rw [digitChar_toNat]
  omega

theorem isSpace_of_isDigit {c : Char} (h : isDigit c = true) : isSpace c = false := by
  unfold isDigit at h
  simp only [Bool.and_eq_true, decide_eq_true_eq] at h
  unfold isSpace
  simp only [Bool.or_eq_false_iff, Bool.and_eq_false_iff, decide_eq_false_iff_not,
    beq_eq_false_iff_ne, ne_eq]
  omega

theorem ne_newline_of_isDigit {c : Char} (h : isDigit c = true) : c ≠ '\n' := by
  intro hc
  rw [hc] at h
  exact absurd h (by decide)

theorem fmtNatAux_acc (fuel n : Nat) (acc : List Char) :
    fmtNatAux fuel n acc = fmtNatAux fuel n [] ++ acc := by
  induction fuel generalizing n acc with
  | zero => rfl
  | succ f ih =>
    rw [fmtNatAux, fmtNatAux]
    split_ifs
    · rfl
    · rw [ih (n / 10) (digitChar (n % 10) :: acc), ih (n / 10) [digitChar (n % 10)]]
      simp

theorem fmtNatAux_fuel (f1 f2 n : Nat) (h1 : n < f1) (h2 : n < f2) :
    fmtNatAux f1 n [] = fmtNatAux f2 n [] := by
  induction f1 generalizing f2 n with
  | zero => omega
  | succ f1 ih =>
    cases f2 with
    | zero => omega
    | succ f2 =>
      rw [fmtNatAux, fmtNatAux]
      split_ifs with hn
      · rfl
      · rw [fmtNatAux_acc f1, fmtNatAux_acc f2, ih f2 (n / 10) (by omega) (by omega)]

/-- The decimal text of a number: one digit below ten, otherwise the text of the tens
followed by the last digit. -/
theorem fmtNat_eq (n : Nat) :
    fmtNat n = if n < 10 then [digitChar n] else fmtNat (n / 10) ++ [digitChar (n % 10)] := by
  unfold fmtNat
  rw [fmtNatAux]
  split_ifs with hn
  · rfl
  · rw [fmtNatAux_acc, fmtNatAux_fuel n (n / 10 + 1) (n / 10) (by omega) (by omega)]

theorem fmtNat_digits (n : Nat) : ∀ c ∈ fmtNat n, isDigit c = true := by
  induction n using Nat.strong_induction_on with
  | _ n ih =>
    rw [fmtNat_eq]
    split_ifs with hn
    · intro c hc
      rw [List.mem_singleton] at hc
      rw [hc]; exact isDigit_digitChar n
    · intro c hc
      rcases List.mem_append.mp hc with h | h
      · exact ih (n / 10) (by omega) c h
      · rw [List.mem_singleton] at h
        rw [h]; exact isDigit_digitChar _

theorem fmtNat_ne_nil (n : Nat) : fmtNat n ≠ [] := by
  rw [fmtNat_eq]
  split_ifs <;> simp

theorem parseUint_fmtNat (n acc : Nat) (rest : List Char) :
    parseUint acc (fmtNat n ++ rest) = parseUint (acc * 10 ^ (fmtNat n).length + n) rest := by
  induction n using Nat.strong_induction_on generalizing acc rest with
  | _ n ih =>
    rw [fmtNat_eq]
    split_ifs with hn
    · simp only [List.singleton_append, List.length_singleton, pow_one]
      rw [parseUint, if_pos (isDigit_digitChar n), digitVal_digitChar, Nat.mod_eq_of_lt hn]
    · rw [List.append_assoc, ih (n / 10) (by omega)]
      simp only [List.singleton_append, List.length_append, List.length_singleton]
      rw [parseUint, if_pos (isDigit_digitChar _), digitVal_digitChar, Nat.mod_mod]
      congr 1
      rw [pow_succ]
      have := Nat.div_add_mod n 10
      nlinarith

theorem parseUint_fmtNat_nil (n : Nat) : parseUint 0 (fmtNat n) = some n := by
  have := parseUint_fmtNat n 0 []
  simpa [parseUint] using this

theorem fmtNat_head_isDigit (n : Nat) : ∃ c cs, fmtNat n = c :: cs ∧ isDigit c = true := by
  cases h : fmtNat n with
  | nil => exact absurd h (fmtNat_ne_nil n)
  | cons c cs =>
    exact ⟨c, cs, rfl, fmtNat_digits n c (by rw [h]; exact List.mem_cons_self _ _)⟩

/-- Reading back a printed integer: `Atoi` after `Sprintf` with the verb d. -/
theorem Atoi_fmtInt (n : ℤ) (h1 : -(2 : ℤ) ^ 63 ≤ n) (h2 : n < 2 ^ 63) :
    Atoi (fmtInt n) = some n := by
  unfold fmtInt
  split_ifs with hn
  · have hne := fmtNat_ne_nil n.natAbs
    have hle : n.natAbs ≤ 2 ^ 63 := by
      have : (n.natAbs : ℤ) ≤ 2 ^ 63 := by rw [Int.natCast_natAbs, abs_of_neg hn]; omega
      exact_mod_cast this
    have hcast : -((n.natAbs : ℕ) : ℤ) = n := by
      rw [Int.natCast_natAbs, abs_of_neg hn]; ring
    simp only [Atoi, beq_self_eq_true, Bool.true_or, if_true, List.isEmpty_eq_true, hne,
      if_false, parseUint_fmtNat_nil, hle, hcast]
  · push_neg at hn
    obtain ⟨c, cs, hc, hd⟩ := fmtNat_head_isDigit n.natAbs
    have hp := parseUint_fmtNat_nil n.natAbs
    rw [hc] at hp ⊢
    have hm : (c == '-') = false := by
      rw [beq_eq_false_iff_ne]; intro h; rw [h] at hd; exact absurd hd (by decide)
    have hpl : (c == '+') = false := by
      rw [beq_eq_false_iff_ne]; intro h; rw [h] at hd; exact absurd hd (by decide)
    have hlt : n.natAbs < 2 ^ 63 := by
      have : (n.natAbs : ℤ) < 2 ^ 63 := by rw [Int.natCast_natAbs, abs_of_nonneg hn]; exact h2
      exact_mod_cast this
    have hcast : ((n.natAbs : ℕ) : ℤ) = n := by
      rw [Int.natCast_natAbs, abs_of_nonneg hn]
    simp only [Atoi, hm, hpl, Bool.or_self, Bool.false_eq_true, if_false, List.isEmpty_cons,
      hp, hlt, if_true, hcast]

theorem fmtInt_chars (n : ℤ) : ∀ c ∈ fmtInt n, isDigit c = true ∨ c = '-' := by
  intro c hc
  unfold fmtInt at hc
  split_ifs at hc
  · rcases List.mem_cons.mp hc with h | h
    · right; exact h
    · left; exact fmtNat_digits _ c h
  · left; exact fmtNat_digits _ c hc

theorem fmtInt_no_newline (n : ℤ) : ∀ c ∈ fmtInt n, c ≠ '\n' := by
  intro c hc
  rcases fmtInt_chars n c hc with h | h
  · exact ne_newline_of_isDigit h
  · rw [h]; decide

theorem fmtInt_no_space (n : ℤ) : ∀ c ∈ fmtInt n, isSpace c = false := by
  intro c hc
  rcases fmtInt_chars n c hc with h | h
  · exact isSpace_of_isDigit h
  · rw [h]; decide

theorem fmtInt_ne_nil (n : ℤ) : fmtInt n ≠ [] := by
  unfold fmtInt
  split_ifs
  · simp
  · exact fmtNat_ne_nil _

theorem startsClean_of_no_space (s : List Char) (hne : s ≠ [])
    (h : ∀ c ∈ s, isSpace c = false) : startsClean s = true := by
  cases s with
  | nil => exact absurd rfl hne
  | cons c cs => simp [startsClean, h c (List.mem_cons_self _ _)]

theorem endsClean_of_no_space (s : List Char) (hne : s ≠ [])
    (h : ∀ c ∈ s, isSpace c = false) : endsClean s = true := by
  unfold endsClean
  exact startsClean_of_no_space _ (by simpa using hne) (fun c hc => h c (List.mem_reverse.mp hc))

theorem TrimSpace_fmtInt (n : ℤ) : TrimSpace (fmtInt n) = fmtInt n :=
  TrimSpace_of_clean _ (startsClean_of_no_space _ (fmtInt_ne_nil n) (fmtInt_no_space n))
    (endsClean_of_no_space _ (fmtInt_ne_nil n) (fmtInt_no_space n))

/-! ## Timecodes -/

theorem digitChar_mod (n : Nat) : digitChar (n % 10) = digitChar n := by
  unfold digitChar; rw [Nat.mod_mod]

theorem fmtNat_lt_ten (n : Nat) (h : n < 10) : fmtNat n = [digitChar n] := by
  rw [fmtNat_eq, if_pos h]

theorem fmtNat_lt_hundred (n : Nat) (h1 : 10 ≤ n) (h2 : n < 100) :
    fmtNat n = [digitChar (n / 10), digitChar n] := by
  rw [fmtNat_eq, if_neg (by omega), fmtNat_lt_ten (n / 10) (by omega), digitChar_mod]
  rfl

theorem fmtNat_lt_thousand (n : Nat) (h1 : 100 ≤ n) (h2 : n < 1000) :
    fmtNat n = [digitChar (n / 100), digitChar (n / 10), digitChar n] := by
  rw [fmtNat_eq, if_neg (by omega), fmtNat_lt_hundred (n / 10) (by omega) (by omega),
    digitChar_mod, Nat.div_div_eq_div_mul]
  rfl

theorem digitChar_zero_of_lt {n k : Nat} (h : n < k) : digitChar (n / k) = '0' := by
  rw [Nat.div_eq_of_lt h]; rfl

theorem fmtIntPad_two (n : Nat) (h : n < 100) : fmtIntPad 2 (n : ℤ) = pad2 n := by
  unfold fmtIntPad pad2
  rw [if_neg (by omega), Int.natAbs_ofNat]
  by_cases h10 : n < 10
  · rw [fmtNat_lt_ten n h10, digitChar_zero_of_lt h10]; rfl
  · rw [fmtNat_lt_hundred n (by omega) h]; rfl

theorem fmtIntPad_three (n : Nat) (h : n < 1000) : fmtIntPad 3 (n : ℤ) = pad3 n := by
  unfold fmtIntPad pad3
  rw [if_neg (by omega), Int.natAbs_ofNat]
  by_cases h10 : n < 10
  · rw [fmtNat_lt_ten n h10, digitChar_zero_of_lt h10,
      digitChar_zero_of_lt (show n < 100 by omega)]; rfl
  · by_cases h100 : n < 100
    · rw [fmtNat_lt_hundred n (by omega) h100, digitChar_zero_of_lt h100]; rfl
    · rw [fmtNat_lt_thousand n (by omega) h]; rfl

theorem FindStringSubmatch_timingLine (h1 m1 s1 ms1 h2 m2 s2 ms2 : Nat) :
    FindStringSubmatch (timingLine h1 m1 s1 ms1 h2 m2 s2 ms2) =
      [timingLine h1 m1 s1 ms1 h2 m2 s2 ms2, pad2 h1, pad2 m1, pad2 s1, pad3 ms1,
        pad2 h2, pad2 m2, pad2 s2, pad3 ms2] := by
  simp [FindStringSubmatch, findLeftmost, matchHere, srtTimeRegex, Pat.test,
    isDigit_digitChar, timingLine, pad2, pad3]

theorem timingLine_chars (h1 m1 s1 ms1 h2 m2 s2 ms2 : Nat) :
    ∀ c ∈ timingLine h1 m1 s1 ms1 h2 m2 s2 ms2, c ≠ '\n' := by
  intro c hc
  simp only [timingLine, pad2, pad3, List.cons_append, List.nil_append, List.mem_cons,
    List.mem_singleton, List.not_mem_nil, or_false] at hc
  have hd : ∀ n, digitChar n ≠ '\n' := fun n => ne_newline_of_isDigit (isDigit_digitChar n)
  rcases hc with h | h | h | h | h | h | h | h | h | h | h | h | h | h | h | h | h | h | h | h |
    h | h | h | h | h | h | h | h | h <;> rw [h] <;> first | exact hd _ | decide

theorem Atoi_pad2 (n : Nat) (h : n < 100) : Atoi (pad2 n) = some (n : ℤ) := by
  have hm : ∀ k, (digitChar k == '-') = false := fun k => by
    rw [beq_eq_false_iff_ne]; intro hk
    have := isDigit_digitChar k; rw [hk] at this; exact absurd this (by decide)
  have hp : ∀ k, (digitChar k == '+') = false := fun k => by
    rw [beq_eq_false_iff_ne]; intro hk
    have := isDigit_digitChar k; rw [hk] at this; exact absurd this (by decide)
  have hv : n / 10 % 10 * 10 + n % 10 = n := by omega
  have hlt : n < 2 ^ 63 := lt_trans h (by norm_num)
  simp only [Atoi, pad2, hm, hp, Bool.or_self, Bool.false_eq_true, if_false, List.isEmpty_cons,
    parseUint, isDigit_digitChar, if_true, digitVal_digitChar, Nat.zero_mul, Nat.zero_add, hv,
    hlt]

theorem Atoi_pad3 (n : Nat) (h : n < 1000) : Atoi (pad3 n) = some (n : ℤ) := by
  have hm : ∀ k, (digitChar k == '-') = false := fun k => by
    rw [beq_eq_false_iff_ne]; intro hk
    have := isDigit_digitChar k; rw [hk] at this; exact absurd this (by decide)
  have hp : ∀ k, (digitChar k == '+') = false := fun k => by
    rw [beq_eq_false_iff_ne]; intro hk
    have := isDigit_digitChar k; rw [hk] at this; exact absurd this (by decide)
  have hv : (n / 100 % 10 * 10 + n / 10 % 10) * 10 + n % 10 = n := by omega
  have hlt : n < 2 ^ 63 := lt_trans h (by norm_num)
  simp only [Atoi, pad3, hm, hp, Bool.or_self, Bool.false_eq_true, if_false, List.isEmpty_cons,
    parseUint, isDigit_digitChar, if_true, digitVal_digitChar, Nat.zero_mul, Nat.zero_add, hv,
    hlt]

theorem wrap64_of_range (x : ℤ) (h0 : 0 ≤ x) (h1 : x < 2 ^ 63) : wrap64 x = x := by
  unfold wrap64
  rw [Int.emod_eq_of_lt (by omega) (by omega)]
  ring

theorem parseTime_pads (h m s ms : Nat) (hh : h < 100) (hm : m < 100) (hs : s < 100)
    (hms : ms < 1000) :
    parseTime (pad2 h) (pad2 m) (pad2 s) (pad3 ms) = some (fieldsDuration h m s ms) := by
  unfold parseTime
  rw [Atoi_pad2 h hh, Atoi_pad2 m hm, Atoi_pad2 s hs, Atoi_pad3 ms hms]
  simp only
  rw [wrap64_of_range]
  · rfl
  · unfold Hour Minute Second Millisecond; omega
  · unfold Hour Minute Second Millisecond; norm_num; omega

theorem formatTime_fields (h m s ms : Nat) (hh : h < 100) (hm : m < 60) (hs : s < 60)
    (hms : ms < 1000) :
    formatTime (fieldsDuration h m s ms) =
      pad2 h ++ ':' :: pad2 m ++ ':' :: pad2 s ++ ',' :: pad3 ms := by
  have hd0 : 0 ≤ fieldsDuration h m s ms := by
    unfold fieldsDuration Hour Minute Second Millisecond; omega
  have hd1 : fieldsDuration h m s ms < 2 ^ 63 := by
    unfold fieldsDuration Hour Minute Second Millisecond; norm_num; omega
  have hdvd : Millisecond ∣ fieldsDuration h m s ms := by
    refine ⟨(h : ℤ) * 3600000 + (m : ℤ) * 60000 + (s : ℤ) * 1000 + ms, ?_⟩
    unfold fieldsDuration Hour Minute Second Millisecond; ring
  rw [formatTime_eq_timecode _ hd0 hd1 (Or.inr hdvd)]
  have e1 : fieldsDuration h m s ms / Hour = (h : ℤ) := by
    unfold fieldsDuration Hour Minute Second Millisecond; omega
  have e2 : fieldsDuration h m s ms / Minute % 60 = (m : ℤ) := by
    unfold fieldsDuration Hour Minute Second Millisecond; omega
  have e3 : fieldsDuration h m s ms / Second % 60 = (s : ℤ) := by
    unfold fieldsDuration Hour Minute Second Millisecond; omega
  have e4 : fieldsDuration h m s ms / Millisecond % 1000 = (ms : ℤ) := by
    unfold fieldsDuration Hour Minute Second Millisecond; omega
  rw [e1, e2, e3, e4]
  unfold timecode
  rw [fmtIntPad_two h hh, fmtIntPad_two m (by omega), fmtIntPad_two s (by omega),
    fmtIntPad_three ms hms]

/-! ## Well-formed cues -/

theorem hasBlank_line_cons (a b : List Char) (ha : ∀ c ∈ a, c ≠ '\n')
    (hb : b.head? ≠ some '\n') (hbb : hasBlank b = false) :
    hasBlank (a ++ '\n' :: b) = false := by
  induction a with
  | nil =>
    cases b with
    | nil => rfl
    | cons x xs =>
      have hx : x ≠ '\n' := by
        intro h; apply hb; rw [h]; rfl
      rw [List.nil_append, hasBlank_cons_cons, hbb]
      simp [hx]
  | cons c cs ih =>
    have hc : c ≠ '\n' := ha c (List.mem_cons_self _ _)
    have ih' := ih (fun x hx => ha x (List.mem_cons_of_mem _ hx))
    cases cs with
    | nil =>
      rw [List.singleton_append, hasBlank_cons_cons]
      rw [List.nil_append] at ih'
      rw [ih']; simp [hc]
    | cons d ds =>
      rw [List.cons_append, List.cons_append, hasBlank_cons_cons]
      rw [List.cons_append] at ih'
      rw [ih']; simp [hc]

theorem timingLine_head (h1 m1 s1 ms1 h2 m2 s2 ms2 : Nat) (rest : List Char) :
    (timingLine h1 m1 s1 ms1 h2 m2 s2 ms2 ++ rest).head? ≠ some '\n' := by
  simp only [timingLine, pad2, List.cons_append, List.head?_cons, ne_eq, Option.some.injEq]
  exact ne_newline_of_isDigit (isDigit_digitChar _)

theorem isBlock_cueOfFields (n : Int) (h1 m1 s1 ms1 h2 m2 s2 ms2 : Nat) (text : List Char)
    (ht : IsCaption text) : IsBlock (cueOfFields n h1 m1 s1 ms1 h2 m2 s2 ms2 text) := by
  obtain ⟨t1, t2, t3⟩ := ht
  refine ⟨?_, ?_, ?_⟩
  · exact startsClean_append _ _
      (startsClean_of_no_space _ (fmtInt_ne_nil n) (fmtInt_no_space n))
  · unfold cueOfFields
    have : fmtInt n ++ '\n' :: (timingLine h1 m1 s1 ms1 h2 m2 s2 ms2 ++ '\n' :: text) =
        (fmtInt n ++ '\n' :: (timingLine h1 m1 s1 ms1 h2 m2 s2 ms2 ++ ['\n'])) ++ text := by
      simp
    rw [this]
    exact endsClean_append _ _ t2
  · unfold cueOfFields
    apply hasBlank_line_cons _ _ (fmtInt_no_newline n) (timingLine_head _ _ _ _ _ _ _ _ _)
    exact hasBlank_line_cons _ _ (timingLine_chars _ _ _ _ _ _ _ _) t1 t3

/-- The loop body of `Parse` on a well-formed cue returns its entry. -/
theorem parseBlock_cueOfFields (n : Int) (h1 m1 s1 ms1 h2 m2 s2 ms2 : Nat) (text : List Char)
    (hn1 : -(2 : ℤ) ^ 63 ≤ n) (hn2 : n < 2 ^ 63)
    (hh1 : h1 < 100) (hm1 : m1 < 100) (hs1 : s1 < 100) (hms1 : ms1 < 1000)
    (hh2 : h2 < 100) (hm2 : m2 < 100) (hs2 : s2 < 100) (hms2 : ms2 < 1000)
    (ht : IsCaption text) :
    parseBlock (cueOfFields n h1 m1 s1 ms1 h2 m2 s2 ms2 text) =
      some { Index := n, StartTime := fieldsDuration h1 m1 s1 ms1,
             EndTime := fieldsDuration h2 m2 s2 ms2, Text := text } := by
  have hblock := isBlock_cueOfFields n h1 m1 s1 ms1 h2 m2 s2 ms2 text ht
  have htrim := TrimSpace_of_clean _ hblock.1 hblock.2.1
  have hne : cueOfFields n h1 m1 s1 ms1 h2 m2 s2 ms2 text ≠ [] := startsClean_ne_nil hblock.1
  have hlines : Split (cueOfFields n h1 m1 s1 ms1 h2 m2 s2 ms2 text) ['\n'] =
      fmtInt n :: timingLine h1 m1 s1 ms1 h2 m2 s2 ms2 :: Split text ['\n'] := by
    unfold Split cueOfFields
    rw [splitGo_line_cut _ _ (fmtInt_no_newline n),
      splitGo_line_cut _ _ (timingLine_chars _ _ _ _ _ _ _ _)]
  have hlen : ¬ (fmtInt n :: timingLine h1 m1 s1 ms1 h2 m2 s2 ms2 :: Split text ['\n']).length
      < 3 := by
    have : Split text ['\n'] ≠ [] := splitGo_ne_nil _ _ _
    have := List.length_pos.mpr this
    simp only [List.length_cons]; omega
  unfold parseBlock
  rw [htrim, if_neg hne]
  simp only [hlines, if_neg hlen, List.getD_cons_zero, List.getD_cons_succ, TrimSpace_fmtInt,
    Atoi_fmtInt n hn1 hn2, FindStringSubmatch_timingLine, List.length_cons, List.length_nil,
    parseTime_pads h1 m1 s1 ms1 hh1 hm1 hs1 hms1, parseTime_pads h2 m2 s2 ms2 hh2 hm2 hs2 hms2,
    List.drop_succ_cons, List.drop_zero, Join_Split_lines]
  simp
  exact Nat.succ_le_of_lt (List.length_pos.mpr (splitGo_ne_nil ['\n'] 0 text))

theorem isStamp_exists_fields {d : Int} (hd : IsStamp d) :
    ∃ h m s ms : Nat, h < 100 ∧ m < 60 ∧ s < 60 ∧ ms < 1000 ∧ fieldsDuration h m s ms = d := by
  obtain ⟨h0, h1, h2⟩ := hd
  unfold Hour at h1
  unfold Millisecond at h2
  refine ⟨(d / Hour).toNat, (d / Minute % 60).toNat, (d / Second % 60).toNat,
    (d / Millisecond % 1000).toNat, ?_, ?_, ?_, ?_, ?_⟩
  · unfold Hour; omega
  · unfold Minute; omega
  · unfold Second; omega
  · unfold Millisecond; omega
  · unfold fieldsDuration
    rw [Int.toNat_of_nonneg (by unfold Hour; omega),
      Int.toNat_of_nonneg (by unfold Minute; omega),
      Int.toNat_of_nonneg (by unfold Second; omega),
      Int.toNat_of_nonneg (by unfold Millisecond; omega)]
    unfold Hour Minute Second Millisecond
    omega

theorem isCue_exists_fields {e : Entry} (he : IsCue e) :
    ∃ h1 m1 s1 ms1 h2 m2 s2 ms2 : Nat,
      (h1 < 100 ∧ m1 < 60 ∧ s1 < 60 ∧ ms1 < 1000) ∧ (h2 < 100 ∧ m2 < 60 ∧ s2 < 60 ∧ ms2 < 1000) ∧
      e.StartTime = fieldsDuration h1 m1 s1 ms1 ∧ e.EndTime = fieldsDuration h2 m2 s2 ms2 ∧
      cueBlock e = cueOfFields e.Index h1 m1 s1 ms1 h2 m2 s2 ms2 e.Text := by
  obtain ⟨_, hs, hen, _⟩ := he
  obtain ⟨h1, m1, s1, ms1, a1, a2, a3, a4, a5⟩ := isStamp_exists_fields hs
  obtain ⟨h2, m2, s2, ms2, b1, b2, b3, b4, b5⟩ := isStamp_exists_fields hen
  refine ⟨h1, m1, s1, ms1, h2, m2, s2, ms2, ⟨a1, a2, a3, a4⟩, ⟨b1, b2, b3, b4⟩, a5.symm, b5.symm,
    ?_⟩
  unfold cueBlock cueOfFields timingLine
  rw [← a5, ← b5, formatTime_fields h1 m1 s1 ms1 a1 a2 a3 a4,
    formatTime_fields h2 m2 s2 ms2 b1 b2 b3 b4]
  simp

theorem isBlock_cueBlock {e : Entry} (he : IsCue e) : IsBlock (cueBlock e) := by
  obtain ⟨h1, m1, s1, ms1, h2, m2, s2, ms2, _, _, _, _, hb⟩ := isCue_exists_fields he
  rw [hb]
  exact isBlock_cueOfFields _ _ _ _ _ _ _ _ _ _ he.2.2.2

theorem parseBlock_cueBlock {e : Entry} (he : IsCue e) : parseBlock (cueBlock e) = some e := by
  obtain ⟨h1, m1, s1, ms1, h2, m2, s2, ms2, ⟨a1, a2, a3, a4⟩, ⟨b1, b2, b3, b4⟩, hs, hen, hb⟩ :=
    isCue_exists_fields he
  rw [hb, parseBlock_cueOfFields e.Index h1 m1 s1 ms1 h2 m2 s2 ms2 e.Text he.1.1 he.1.2
    a1 (by omega) (by omega) a4 b1 (by omega) (by omega) b4 he.2.2.2, ← hs, ← hen]

theorem filterMap_parseBlock_cues (es : List Entry) (h : ∀ e ∈ es, IsCue e) :
    (es.map cueBlock).filterMap parseBlock = es := by
  induction es with
  | nil => rfl
  | cons e es ih =>
    rw [List.map_cons, List.filterMap_cons, parseBlock_cueBlock (h e (List.mem_cons_self _ _))]
    simp only
    rw [ih (fun x hx => h x (List.mem_cons_of_mem _ hx))]

/-- `Parse` undoes `String` on entries that the file format can carry. -/
theorem Parse_String_cues (es : List Entry) (h : ∀ e ∈ es, IsCue e) :
    Parse (Subtitle.String { Entries := es }).1 = ({ Entries := es }, none) := by
  unfold Subtitle.String
  simp only
  rw [renderFrom_zero, Parse_Join_blocks, filterMap_parseBlock_cues es h]
  intro b hb
  obtain ⟨e, he, rfl⟩ := List.mem_map.mp hb
  exact isBlock_cueBlock (h e he)

/-! ## Rendering with integer arithmetic -/

theorem formatTime_eq_stamp {d : Int} (h : IsWholeMs d) : formatTime d = stamp d :=
  formatTime_eq_timecode d h.1 h.2.1 (Or.inr (Int.dvd_of_emod_eq_zero h.2.2))

theorem cueBlock_eq_cueText {e : Entry} (hs : IsWholeMs e.StartTime) (he : IsWholeMs e.EndTime) :
    cueBlock e = cueText e := by
  unfold cueBlock cueText
  rw [formatTime_eq_stamp hs, formatTime_eq_stamp he]

theorem String_eq_cueText (es : List Entry)
    (h : ∀ e ∈ es, IsWholeMs e.StartTime ∧ IsWholeMs e.EndTime) :
    Subtitle.String { Entries := es } = (Join (es.map cueText) ['\n', '\n'], none) := by
  unfold Subtitle.String
  simp only
  rw [renderFrom_zero]
  have : es.map cueBlock = es.map cueText :=
    List.map_congr_left (fun e he => cueBlock_eq_cueText (h e he).1 (h e he).2)
  rw [this]

/-! ## C1: rendering, parsing and rendering again -/

theorem String_Parse_String_eval (e : Entry) (es : List Entry) (x y : List Char)
    (hs : IsWholeMs e.StartTime) (he : IsWholeMs e.EndTime) (hx : cueText e = x)
    (hp : Parse x = ({ Entries := es }, none))
    (hes : ∀ e' ∈ es, IsWholeMs e'.StartTime ∧ IsWholeMs e'.EndTime)
    (hy : Join (es.map cueText) ['\n', '\n'] = y) :
    (Subtitle.String { Entries := [e] }).1 = x ∧
      ((Parse (Subtitle.String { Entries := [e] }).1).1.String).1 = y := by
  have h1 := String_eq_cueText [e] (by
    intro e' he'; rw [List.mem_singleton] at he'; rw [he']; exact ⟨hs, he⟩)
  simp only [List.map_cons, List.map_nil, Join, hx] at h1
  rw [h1]
  simp only [hp]
  rw [String_eq_cueText es hes, hy]
  exact ⟨trivial, rfl⟩

/-- C1, as stated, fails in four ways, each on one entry with whole-millisecond times
and a text without blank line: an empty text, times of one hundred hours, a text that
ends with a blank, a text that begins with a newline. In each case the first rendering
is the text shown, parsing it loses or alters the entry, and the second rendering is
another text. -/
theorem render_parse_render_differs :
    ((Subtitle.String ⟨[⟨1, 0, 1000000000, []⟩]⟩).1 =
        "1\n00:00:00,000 --> 00:00:01,000\n".toList ∧
      ((Parse (Subtitle.String ⟨[⟨1, 0, 1000000000, []⟩]⟩).1).1.String).1 = []) ∧
    ((Subtitle.String ⟨[⟨1, 360000000000000, 360001000000000, "Hi".toList⟩]⟩).1 =
        "1\n100:00:00,000 --> 100:00:01,000\nHi".toList ∧
      ((Parse (Subtitle.String
        ⟨[⟨1, 360000000000000, 360001000000000, "Hi".toList⟩]⟩).1).1.String).1 = []) ∧
    ((Subtitle.String ⟨[⟨1, 0, 1000000000, "Hi ".toList⟩]⟩).1 =
        "1\n00:00:00,000 --> 00:00:01,000\nHi ".toList ∧
      ((Parse (Subtitle.String ⟨[⟨1, 0, 1000000000, "Hi ".toList⟩]⟩).1).1.String).1 =
        "1\n00:00:00,000 --> 00:00:01,000\nHi".toList) ∧
    ((Subtitle.String ⟨[⟨1, 0, 1000000000, "\nHi".toList⟩]⟩).1 =
        "1\n00:00:00,000 --> 00:00:01,000\n\nHi".toList ∧
      ((Parse (Subtitle.String ⟨[⟨1, 0, 1000000000, "\nHi".toList⟩]⟩).1).1.String).1 = []) ∧
    (hasBlank [] = false ∧ hasBlank "Hi".toList = false ∧ hasBlank "Hi ".toList = false ∧
      hasBlank "\nHi".toList = false) := by
  refine ⟨?_, ?_, ?_, ?_, by decide⟩
  · exact String_Parse_String_eval _ [] _ _ (by decide) (by decide) (by decide) (by decide)
      (by decide) (by decide)
  · exact String_Parse_String_eval _ [] _ _ (by decide) (by decide) (by decide) (by decide)
      (by decide) (by decide)
  · exact String_Parse_String_eval _ [⟨1, 0, 1000000000, "Hi".toList⟩] _ _ (by decide)
      (by decide) (by decide) (by decide) (by decide) (by decide)
  · exact String_Parse_String_eval _ [] _ _ (by decide) (by decide) (by decide) (by decide)
      (by decide) (by decide)

/-- C1, as amended: for entries that the file format can carry (`IsCue`: an index in
the range of `int`, times that are whole milliseconds from zero to below one hundred
hours, a text without blank line that is not empty, does not begin with a newline and
does not end with white space), rendering, parsing and rendering again gives the text
of the first rendering. -/
theorem render_parse_render (es : List Entry) (h : ∀ e ∈ es, IsCue e) :
    (Parse (Subtitle.String { Entries := es }).1).1.String =
      Subtitle.String { Entries := es } := by
  rw [Parse_String_cues es h]

/-- C1 as amended, at an input of two entries, the second with a caption of two
lines. -/
theorem render_parse_render_witness :
    (IsCue ⟨1, 1000000000, 2500000000, "Hello world".toList⟩ ∧
      IsCue ⟨2, 3000000000, 4000000000, "Second\nline".toList⟩) ∧
    (Parse (Subtitle.String { Entries :=
        [⟨1, 1000000000, 2500000000, "Hello world".toList⟩,
         ⟨2, 3000000000, 4000000000, "Second\nline".toList⟩] }).1).1.String =
      Subtitle.String { Entries :=
        [⟨1, 1000000000, 2500000000, "Hello world".toList⟩,
         ⟨2, 3000000000, 4000000000, "Second\nline".toList⟩] } :=
  ⟨by decide, render_parse_render _ (by decide)⟩

/-! ## C2: parse, adjust, render -/

theorem scaleDuration_of_int (d k : ℤ) (f : ℚ) (hd : |d| < 2 ^ 53) (hk : |k| < 2 ^ 53)
    (h : (d : ℚ) * f = k) : scaleDuration d f = k := by
  have hr : |(d : ℚ) * f| < 2 ^ 63 := by
    rw [h]
    have : ((|k| : ℤ) : ℚ) < ((2 ^ 53 : ℤ) : ℚ) := Int.cast_lt.mpr hk
    push_cast at this
    exact lt_trans this (by norm_num)
  rw [scaleDuration_exact (exactProduct_of d f k 0 hd hk (by norm_num) (by simpa using h) hr),
    h, truncQ_intCast]

/-! ## C4: one malformed block among well-formed ones -/

theorem parseBlock_malformed (b : List Char) (hb : IsBlock b) (hm : IsMalformed b) :
    parseBlock b = none := by
  have htrim := TrimSpace_of_clean b hb.1 hb.2.1
  unfold parseBlock
  rw [htrim, if_neg (startsClean_ne_nil hb.1)]
  simp only
  rcases hm with h | h | h
  · rw [if_pos h]
  · by_cases hl : (Split b ['\n']).length < 3
    · rw [if_pos hl]
    · rw [if_neg hl, h]
  · by_cases hl : (Split b ['\n']).length < 3
    · rw [if_pos hl]
    · rw [if_neg hl]
      cases Atoi (TrimSpace ((Split b ['\n']).getD 0 [])) with
      | none => rfl
      | some idx =>
        simp only
        rw [if_pos (by rw [h]; decide)]

/-- C4: a malformed block placed anywhere among the blocks of well-formed cues, all
separated by blank lines, is dropped without error, and `Parse` returns exactly the
entries of the well-formed cues, in their order. -/
theorem Parse_skips_malformed (pre post : List Entry) (bad : List Char)
    (hpre : ∀ e ∈ pre, IsCue e) (hpost : ∀ e ∈ post, IsCue e)
    (hblock : IsBlock bad) (hbad : IsMalformed bad) :
    Parse (Join (pre.map cueBlock ++ bad :: post.map cueBlock) ['\n', '\n']) =
      ({ Entries := pre ++ post }, none) := by
  rw [Parse_Join_blocks]
  · rw [List.filterMap_append, List.filterMap_cons, parseBlock_malformed bad hblock hbad,
      filterMap_parseBlock_cues pre hpre, filterMap_parseBlock_cues post hpost]
  · intro b hb
    rcases List.mem_append.mp hb with h | h
    · obtain ⟨e, he, rfl⟩ := List.mem_map.mp h
      exact isBlock_cueBlock (hpre e he)
    · rcases List.mem_cons.mp h with h | h
      · rw [h]; exact hblock
      · obtain ⟨e, he, rfl⟩ := List.mem_map.mp h
        exact isBlock_cueBlock (hpost e he)

/-- C4, at an input: a block without timing line between two well-formed cues. -/
theorem Parse_skips_malformed_witness :
    (IsCue ⟨1, 1000000000, 2500000000, "Hello world".toList⟩ ∧
      IsCue ⟨3, 3000000000, 4000000000, "Second line".toList⟩) ∧
    (IsBlock "2\nno timing here".toList ∧ IsMalformed "2\nno timing here".toList) ∧
    Parse ("1\n00:00:01,000 --> 00:00:02,500\nHello world\n\n" ++
        "2\nno timing here\n\n" ++
        "3\n00:00:03,000 --> 00:00:04,000\nSecond line").toList =
      ({ Entries := [⟨1, 1000000000, 2500000000, "Hello world".toList⟩,
                     ⟨3, 3000000000, 4000000000, "Second line".toList⟩] }, none) := by
  refine ⟨by decide, by decide, ?_⟩
  have h := Parse_skips_malformed [⟨1, 1000000000, 2500000000, "Hello world".toList⟩]
    [⟨3, 3000000000, 4000000000, "Second line".toList⟩] "2\nno timing here".toList
    (by decide) (by decide) (by decide) (by decide)
  have e1 : cueBlock ⟨1, 1000000000, 2500000000, "Hello world".toList⟩ =
      "1\n00:00:01,000 --> 00:00:02,500\nHello world".toList := by
    rw [cueBlock_eq_cueText (by decide) (by decide)]; decide
  have e2 : cueBlock ⟨3, 3000000000, 4000000000, "Second line".toList⟩ =
      "3\n00:00:03,000 --> 00:00:04,000\nSecond line".toList := by
    rw [cueBlock_eq_cueText (by decide) (by decide)]; decide
  simp only [List.map_cons, List.map_nil, e1, e2] at h
  exact h

/-! ## C8: timecodes through `parseTime` and `formatTime` -/

/-- C19: `AdjustSpeed` changes nothing but the two time fields: the entries are as many
as before, in the same order, each with the `Index` and the `Text` it had. -/
theorem AdjustSpeed_frame (s : Subtitle) (factor : ℚ) :
    (s.AdjustSpeed factor).Entries.length = s.Entries.length ∧
    (s.AdjustSpeed factor).Entries.map Entry.Index = s.Entries.map Entry.Index ∧
    (s.AdjustSpeed factor).Entries.map Entry.Text = s.Entries.map Entry.Text ∧
    List.Forall₂ (fun e e' => e'.Index = e.Index ∧ e'.Text = e.Text)
      s.Entries (s.AdjustSpeed factor).Entries := by
  unfold Subtitle.AdjustSpeed
  refine ⟨by simp, by simp [List.map_map, Function.comp_def],
    by simp [List.map_map, Function.comp_def], ?_⟩
  simp only
  rw [List.forall₂_map_right_iff, List.forall₂_same]
  intro e _
  exact ⟨rfl, rfl⟩

/-- C11, at factor 2 on an entry from 1.5 s to 2 s: the body of `AdjustSpeed` multiplies,
the times become 3 s and 4 s; dividing, as the doc comment says, would give 0.75 s and
1 s. -/
theorem AdjustSpeed_multiplies :
    (Subtitle.AdjustSpeed ⟨[⟨1, 1500000000, 2000000000, ['a']⟩]⟩ 2).Entries =
      [⟨1, 3000000000, 4000000000, ['a']⟩] ∧
    truncQ (((1500000000 : ℤ) : ℚ) / 2) = 750000000 ∧
    truncQ (((2000000000 : ℤ) : ℚ) / 2) = 1000000000 := by
  have s1 : scaleDuration 1500000000 2 = 3000000000 :=
    scaleDuration_of_int _ _ _ (by norm_num) (by norm_num) (by norm_num)
  have s2 : scaleDuration 2000000000 2 = 4000000000 :=
    scaleDuration_of_int _ _ _ (by norm_num) (by norm_num) (by norm_num)
  refine ⟨?_, ?_, ?_⟩
  · simp only [Subtitle.AdjustSpeed, List.map_cons, List.map_nil, s1, s2]
  · exact truncQ_eq_of_mem_Ico (by norm_num) (by norm_num) (by norm_num)
  · exact truncQ_eq_of_mem_Ico (by norm_num) (by norm_num) (by norm_num)

/-- C17: `Parse` undoes `String`. For entries whose index is in the range of `int`,
whose two times are whole milliseconds from zero to below one hundred hours, and whose
text is not empty, holds no two consecutive newlines and neither begins nor ends with
white space, `Parse` of the rendered text returns a nil error and the same entries in
the same order. -/
theorem Parse_String_inverse (es : List Entry)
    (hidx : ∀ e ∈ es, -(2 : ℤ) ^ 63 ≤ e.Index ∧ e.Index < 2 ^ 63)
    (htime : ∀ e ∈ es, IsStamp e.StartTime ∧ IsStamp e.EndTime)
    (htext : ∀ e ∈ es, IsPlainText e.Text) :
    Parse (Subtitle.String { Entries := es }).1 = ({ Entries := es }, none) := by
  apply Parse_String_cues
  intro e he
  obtain ⟨t1, t2, t3⟩ := htext e he
  refine ⟨hidx e he, (htime e he).1, (htime e he).2, ?_, t2, t3⟩
  cases hT : e.Text with
  | nil => rw [hT] at t1; simp [startsClean] at t1
  | cons c cs =>
    rw [hT] at t1
    simp only [List.head?_cons, ne_eq, Option.some.injEq]
    intro hc
    rw [hc] at t1
    simp [startsClean, isSpace_newline] at t1

/-- C17, at an input of two entries, one with a negative index and a caption of two
lines. -/
theorem Parse_String_inverse_witness :
    (IsStamp 1000000000 ∧ IsStamp 2500000000 ∧ IsStamp 3000000000 ∧
      IsStamp 359999999000000) ∧
    (IsPlainText "Hello world".toList ∧ IsPlainText "Second\n line".toList) ∧
    Parse (Subtitle.String { Entries :=
        [⟨1, 1000000000, 2500000000, "Hello world".toList⟩,
         ⟨-2, 3000000000, 359999999000000, "Second\n line".toList⟩] }).1 =
      ({ Entries :=
        [⟨1, 1000000000, 2500000000, "Hello world".toList⟩,
         ⟨-2, 3000000000, 359999999000000, "Second\n line".toList⟩] }, none) :=
  ⟨by decide, by decide, Parse_String_inverse _ (by decide) (by decide) (by decide)⟩

/-! ## The match of the timing pattern, read backwards -/

theorem matchHere_take (ps : List Pat) (l : List Char) (h : matchHere ps l = true) :
    matchHere ps (l.take ps.length) = true ∧ (l.take ps.length).length = ps.length := by
  induction ps generalizing l with
  | nil => simp [matchHere]
  | cons p ps ih =>
    cases l with
    | nil => simp [matchHere] at h
    | cons c cs =>
      simp only [matchHere, Bool.and_eq_true] at h
      obtain ⟨h1, h2⟩ := ih cs h.2
      simp only [List.length_cons, List.take_succ_cons, matchHere, Bool.and_eq_true]
      exact ⟨⟨h.1, h1⟩, by rw [h2]⟩

theorem matchHere_append (ps : List Pat) (m post : List Char) (h : matchHere ps m = true) :
    matchHere ps (m ++ post) = true := by
  induction ps generalizing m with
  | nil => simp [matchHere]
  | cons p ps ih =>
    cases m with
    | nil => simp [matchHere] at h
    | cons c cs =>
      simp only [matchHere, Bool.and_eq_true] at h
      simp only [List.cons_append, matchHere, Bool.and_eq_true]
      exact ⟨h.1, ih cs h.2⟩

/-- A match found by the search is a piece of the line that matches the whole pattern. -/
theorem findLeftmost_some (ps : List Pat) (line m : List Char)
    (h : findLeftmost ps line = some m) :
    ∃ pre post, line = pre ++ m ++ post ∧ matchHere ps m = true ∧ m.length = ps.length := by
  induction line with
  | nil =>
    simp only [findLeftmost] at h
    split_ifs at h with hm
    cases ps with
    | nil =>
      simp only [Option.some.injEq] at h
      exact ⟨[], [], by simp [← h], by simp [matchHere], by simp [← h]⟩
    | cons p ps => simp [matchHere] at hm
  | cons c cs ih =>
    simp only [findLeftmost] at h
    split_ifs at h with hm
    · simp only [Option.some.injEq] at h
      obtain ⟨h1, h2⟩ := matchHere_take ps (c :: cs) hm
      rw [h] at h1 h2
      refine ⟨[], (c :: cs).drop ps.length, ?_, h1, h2⟩
      rw [← h]; simp
    · obtain ⟨pre, post, h1, h2, h3⟩ := ih h
      exact ⟨c :: pre, post, by rw [h1]; simp, h2, h3⟩

/-- A line that holds a piece matching the whole pattern has a match. -/
theorem findLeftmost_isSome (ps : List Pat) (pre m post : List Char)
    (h : matchHere ps m = true) : (findLeftmost ps (pre ++ m ++ post)).isSome = true := by
  induction pre with
  | nil =>
    have hm := matchHere_append ps m post h
    cases hl : m ++ post with
    | nil =>
      rw [hl] at hm
      simp [findLeftmost, hl, hm]
    | cons c cs =>
      rw [hl] at hm
      simp [findLeftmost, hl, hm]
  | cons c cs ih =>
    simp only [List.cons_append, findLeftmost]
    split_ifs
    · rfl
    · simpa using ih

theorem digitChar_digitVal (c : Char) (h : isDigit c = true) : digitChar (digitVal c) = c := by
  unfold isDigit at h
  simp only [Bool.and_eq_true, decide_eq_true_eq] at h
  unfold digitChar digitVal
  have e : 48 + (c.toNat - 48) % 10 = c.toNat := by omega
  rw [e]
  exact Char.ofNat_toNat c

theorem pad2_of_digits (a b : Char) (ha : isDigit a = true) (hb : isDigit b = true) :
    pad2 (digitVal a * 10 + digitVal b) = [a, b] ∧ digitVal a * 10 + digitVal b < 100 := by
  have ha' := ha
  have hb' := hb
  unfold isDigit at ha' hb'
  simp only [Bool.and_eq_true, decide_eq_true_eq] at ha' hb'
  have va : digitVal a < 10 := by unfold digitVal; omega
  have vb : digitVal b < 10 := by unfold digitVal; omega
  refine ⟨?_, by omega⟩
  unfold pad2
  have e1 : (digitVal a * 10 + digitVal b) / 10 = digitVal a := by omega
  rw [e1, digitChar_digitVal a ha, ← digitChar_mod]
  have e2 : (digitVal a * 10 + digitVal b) % 10 = digitVal b := by omega
  rw [e2, digitChar_digitVal b hb]

theorem pad3_of_digits (a b c : Char) (ha : isDigit a = true) (hb : isDigit b = true)
    (hc : isDigit c = true) :
    pad3 (digitVal a * 100 + digitVal b * 10 + digitVal c) = [a, b, c] ∧
      digitVal a * 100 + digitVal b * 10 + digitVal c < 1000 := by
  have ha' := ha
  have hb' := hb
  have hc' := hc
  unfold isDigit at ha' hb' hc'
  simp only [Bool.and_eq_true, decide_eq_true_eq] at ha' hb' hc'
  have va : digitVal a < 10 := by unfold digitVal; omega
  have vb : digitVal b < 10 := by unfold digitVal; omega
  have vc : digitVal c < 10 := by unfold digitVal; omega
  refine ⟨?_, by omega⟩
  unfold pad3
  have e1 : (digitVal a * 100 + digitVal b * 10 + digitVal c) / 100 = digitVal a := by omega
  have e2 : (digitVal a * 100 + digitVal b * 10 + digitVal c) / 10 =
      digitVal a * 10 + digitVal b := by omega
  have e3 : (digitVal a * 10 + digitVal b) % 10 = digitVal b := by omega
  have e4 : (digitVal a * 100 + digitVal b * 10 + digitVal c) % 10 = digitVal c := by omega
  rw [e1, e2, digitChar_digitVal a ha]
  rw [← digitChar_mod (digitVal a * 10 + digitVal b), e3, digitChar_digitVal b hb]
  rw [← digitChar_mod (digitVal a * 100 + digitVal b * 10 + digitVal c), e4,
    digitChar_digitVal c hc]

theorem uncons_of_length {l : List Char} {n : Nat} (h : l.length = n + 1) :
    ∃ c cs, l = c :: cs ∧ cs.length = n := by
  cases l with
  | nil => simp at h
  | cons c cs => exact ⟨c, cs, rfl, by simpa using h⟩

/-- A text of 29 characters that matches the timing pattern is the timing line of
eight fields, each within the range of its digits. -/
theorem timingLine_of_match (m : List Char) (h : matchHere srtTimeRegex m = true)
    (hl : m.length = 29) :
    ∃ h1 m1 s1 ms1 h2 m2 s2 ms2 : Nat,
      (h1 < 100 ∧ m1 < 100 ∧ s1 < 100 ∧ ms1 < 1000) ∧
      (h2 < 100 ∧ m2 < 100 ∧ s2 < 100 ∧ ms2 < 1000) ∧
      m = timingLine h1 m1 s1 ms1 h2 m2 s2 ms2 := by
  obtain ⟨c0, r0, e0, l0⟩ := uncons_of_length (l := m) (n := 28) hl
  subst e0
  obtain ⟨c1, r1, e1, l1⟩ := uncons_of_length (l := r0) (n := 27) l0
  subst e1
  obtain ⟨c2, r2, e2, l2⟩ := uncons_of_length (l := r1) (n := 26) l1
  subst e2
  obtain ⟨c3, r3, e3, l3⟩ := uncons_of_length (l := r2) (n := 25) l2
  subst e3
  obtain ⟨c4, r4, e4, l4⟩ := uncons_of_length (l := r3) (n := 24) l3
  subst e4
  obtain ⟨c5, r5, e5, l5⟩ := uncons_of_length (l := r4) (n := 23) l4
  subst e5
  obtain ⟨c6, r6, e6, l6⟩ := uncons_of_length (l := r5) (n := 22) l5
  subst e6
  obtain ⟨c7, r7, e7, l7⟩ := uncons_of_length (l := r6) (n := 21) l6
  subst e7
  obtain ⟨c8, r8, e8, l8⟩ := uncons_of_length (l := r7) (n := 20) l7
  subst e8
  obtain ⟨c9, r9, e9, l9⟩ := uncons_of_length (l := r8) (n := 19) l8
  subst e9
  obtain ⟨c10, r10, e10, l10⟩ := uncons_of_length (l := r9) (n := 18) l9
  subst e10
  obtain ⟨c11, r11, e11, l11⟩ := uncons_of_length (l := r10) (n := 17) l10
  subst e11
  obtain ⟨c12, r12, e12, l12⟩ := uncons_of_length (l := r11) (n := 16) l11
  subst e12
  obtain ⟨c13, r13, e13, l13⟩ := uncons_of_length (l := r12) (n := 15) l12
  subst e13
  obtain ⟨c14, r14, e14, l14⟩ := uncons_of_length (l := r13) (n := 14) l13
  subst e14
  obtain ⟨c15, r15, e15, l15⟩ := uncons_of_length (l := r14) (n := 13) l14
  subst e15
  obtain ⟨c16, r16, e16, l16⟩ := uncons_of_length (l := r15) (n := 12) l15
  subst e16
  obtain ⟨c17, r17, e17, l17⟩ := uncons_of_length (l := r16) (n := 11) l16
  subst e17
  obtain ⟨c18, r18, e18, l18⟩ := uncons_of_length (l := r17) (n := 10) l17
  subst e18
  obtain ⟨c19, r19, e19, l19⟩ := uncons_of_length (l := r18) (n := 9) l18
  subst e19
  obtain ⟨c20, r20, e20, l20⟩ := uncons_of_length (l := r19) (n := 8) l19
  subst e20
  obtain ⟨c21, r21, e21, l21⟩ := uncons_of_length (l := r20) (n := 7) l20
  subst e21
  obtain ⟨c22, r22, e22, l22⟩ := uncons_of_length (l := r21) (n := 6) l21
  subst e22
  obtain ⟨c23, r23, e23, l23⟩ := uncons_of_length (l := r22) (n := 5) l22
  subst e23
  obtain ⟨c24, r24, e24, l24⟩ := uncons_of_length (l := r23) (n := 4) l23
  subst e24
  obtain ⟨c25, r25, e25, l25⟩ := uncons_of_length (l := r24) (n := 3) l24
  subst e25
  obtain ⟨c26, r26, e26, l26⟩ := uncons_of_length (l := r25) (n := 2) l25
  subst e26
  obtain ⟨c27, r27, e27, l27⟩ := uncons_of_length (l := r26) (n := 1) l26
  subst e27
  obtain ⟨c28, r28, e28, l28⟩ := uncons_of_length (l := r27) (n := 0) l27
  subst e28
  have hnil : r28 = [] := List.length_eq_zero.mp l28
  subst hnil
  simp only [matchHere, srtTimeRegex, Pat.test, Bool.and_eq_true, beq_iff_eq, Bool.and_true] at h
  obtain ⟨d0, d1, q2, d3, d4, q5, d6, d7, q8, d9, d10, d11, q12, q13, q14, q15, q16, d17, d18, q19, d20, d21, q22, d23, d24, q25, d26, d27, d28⟩ := h
  subst q2
  subst q5
  subst q8
  subst q12
  subst q13
  subst q14
  subst q15
  subst q16
  subst q19
  subst q22
  subst q25
  obtain ⟨a1, b1⟩ := pad2_of_digits c0 c1 d0 d1
  obtain ⟨a2, b2⟩ := pad2_of_digits c3 c4 d3 d4
  obtain ⟨a3, b3⟩ := pad2_of_digits c6 c7 d6 d7
  obtain ⟨a4, b4⟩ := pad3_of_digits c9 c10 c11 d9 d10 d11
  obtain ⟨a5, b5⟩ := pad2_of_digits c17 c18 d17 d18
  obtain ⟨a6, b6⟩ := pad2_of_digits c20 c21 d20 d21
  obtain ⟨a7, b7⟩ := pad2_of_digits c23 c24 d23 d24
  obtain ⟨a8, b8⟩ := pad3_of_digits c26 c27 c28 d26 d27 d28
  refine ⟨_, _, _, _, _, _, _, _, ⟨b1, b2, b3, b4⟩, ⟨b5, b6, b7, b8⟩, ?_⟩
  unfold timingLine
  rw [a1, a2, a3, a4, a5, a6, a7, a8]
  rfl

theorem matchHere_timingLine (h1 m1 s1 ms1 h2 m2 s2 ms2 : Nat) :
    matchHere srtTimeRegex (timingLine h1 m1 s1 ms1 h2 m2 s2 ms2) = true := by
  simp [matchHere, srtTimeRegex, Pat.test, isDigit_digitChar, timingLine, pad2, pad3]

/-- The search for the timing pattern succeeds exactly on the lines that hold a timing
text. -/
theorem FindStringSubmatch_length_iff (line : List Char) :
    (FindStringSubmatch line).length = 9 ↔ ContainsTiming line := by
  constructor
  · intro h
    unfold FindStringSubmatch at h
    cases hf : findLeftmost srtTimeRegex line with
    | none => rw [hf] at h; simp at h
    | some m =>
      obtain ⟨pre, post, e, hm, hl⟩ := findLeftmost_some _ _ _ hf
      obtain ⟨h1, m1, s1, ms1, h2, m2, s2, ms2, b1, b2, em⟩ := timingLine_of_match m hm hl
      exact ⟨pre, post, h1, m1, s1, ms1, h2, m2, s2, ms2, b1, b2, by rw [e, em]⟩
  · rintro ⟨pre, post, h1, m1, s1, ms1, h2, m2, s2, ms2, -, -, e⟩
    have hs := findLeftmost_isSome srtTimeRegex pre _ post
      (matchHere_timingLine h1 m1 s1 ms1 h2 m2 s2 ms2)
    rw [← e] at hs
    unfold FindStringSubmatch
    cases hf : findLeftmost srtTimeRegex line with
    | none => rw [hf] at hs; simp at hs
    | some m => simp

/-- What a successful search returns: the leftmost timing text and its eight fields. -/
theorem FindStringSubmatch_groups (line : List Char)
    (h : (FindStringSubmatch line).length = 9) :
    ∃ (pre post : List Char) (h1 m1 s1 ms1 h2 m2 s2 ms2 : Nat),
      (h1 < 100 ∧ m1 < 100 ∧ s1 < 100 ∧ ms1 < 1000) ∧
      (h2 < 100 ∧ m2 < 100 ∧ s2 < 100 ∧ ms2 < 1000) ∧
      line = pre ++ timingLine h1 m1 s1 ms1 h2 m2 s2 ms2 ++ post ∧
      FindStringSubmatch line =
        [timingLine h1 m1 s1 ms1 h2 m2 s2 ms2, pad2 h1, pad2 m1, pad2 s1, pad3 ms1,
          pad2 h2, pad2 m2, pad2 s2, pad3 ms2] := by
  unfold FindStringSubmatch at h ⊢
  cases hf : findLeftmost srtTimeRegex line with
  | none => rw [hf] at h; simp at h
  | some m =>
    obtain ⟨pre, post, e, hm, hl⟩ := findLeftmost_some _ _ _ hf
    obtain ⟨h1, m1, s1, ms1, h2, m2, s2, ms2, b1, b2, em⟩ := timingLine_of_match m hm hl
    refine ⟨pre, post, h1, m1, s1, ms1, h2, m2, s2, ms2, b1, b2, by rw [e, em], ?_⟩
    simp only
    rw [em]
    simp [timingLine, pad2, pad3]

theorem splitGo_newline_pieces (s : List Char) : ∀ p ∈ splitGo ['\n'] 0 s, '\n' ∉ p := by
  induction s with
  | nil => simp [splitGo]
  | cons c cs ih =>
    rw [splitGo_newline_cons]
    by_cases hc : c = '\n'
    · rw [if_pos hc]
      intro p hp
      rcases List.mem_cons.mp hp with h | h
      · rw [h]; simp
      · exact ih p h
    · rw [if_neg hc]
      cases hs : splitGo ['\n'] 0 cs with
      | nil => exact absurd hs (splitGo_ne_nil _ _ _)
      | cons q qs =>
        rw [hs] at ih
        intro p hp
        simp only at hp
        rcases List.mem_cons.mp hp with h | h
        · rw [h]
          intro hmem
          rcases List.mem_cons.mp hmem with h1 | h1
          · exact hc h1.symm
          · exact ih q (List.mem_cons_self _ _) h1
        · exact ih p (List.mem_cons_of_mem _ h)

/-- What the loop body of `Parse` has read when it returns an entry: at least three
lines in the trimmed block, an integer on the first, a timing text in the second, whose
fields give the two times, and the remaining lines as the text. -/
theorem parseBlock_some (b : List Char) (e : Entry) (h : parseBlock b = some e) :
    ∃ (l0 l1 l2 : List Char) (rest : List (List Char)) (pre post : List Char)
      (h1 m1 s1 ms1 h2 m2 s2 ms2 : Nat),
      blockLines b = l0 :: l1 :: l2 :: rest ∧
      Atoi (TrimSpace l0) = some e.Index ∧
      (h1 < 100 ∧ m1 < 100 ∧ s1 < 100 ∧ ms1 < 1000) ∧
      (h2 < 100 ∧ m2 < 100 ∧ s2 < 100 ∧ ms2 < 1000) ∧
      l1 = pre ++ timingLine h1 m1 s1 ms1 h2 m2 s2 ms2 ++ post ∧
      e.StartTime = fieldsDuration h1 m1 s1 ms1 ∧
      e.EndTime = fieldsDuration h2 m2 s2 ms2 ∧
      e.Text = Join (l2 :: rest) ['\n'] := by
  unfold parseBlock at h
  by_cases hnil : TrimSpace b = []
  · rw [if_pos hnil] at h; exact absurd h (by simp)
  rw [if_neg hnil] at h
  simp only at h
  by_cases hlen : (Split (TrimSpace b) ['\n']).length < 3
  · rw [if_pos hlen] at h; exact absurd h (by simp)
  rw [if_neg hlen] at h
  cases hl : Split (TrimSpace b) ['\n'] with
  | nil => rw [hl] at hlen; simp at hlen
  | cons l0 t0 =>
    cases t0 with
    | nil => rw [hl] at hlen; simp at hlen
    | cons l1 t1 =>
      cases t1 with
      | nil => rw [hl] at hlen; simp at hlen
      | cons l2 rest =>
        rw [hl] at h
        simp only [List.getD_cons_zero, List.getD_cons_succ, List.drop_succ_cons,
          List.drop_zero] at h
        cases ha : Atoi (TrimSpace l0) with
        | none => rw [ha] at h; simp at h
        | some idx =>
          rw [ha] at h
          simp only at h
          by_cases h9 : (FindStringSubmatch l1).length = 9
          · obtain ⟨pre, post, h1, m1, s1, ms1, h2, m2, s2, ms2, b1, b2, el, eg⟩ :=
              FindStringSubmatch_groups l1 h9
            rw [if_neg (by simpa using h9)] at h
            rw [eg] at h
            simp only [List.getD_cons_zero, List.getD_cons_succ] at h
            rw [parseTime_pads h1 m1 s1 ms1 b1.1 b1.2.1 b1.2.2.1 b1.2.2.2,
              parseTime_pads h2 m2 s2 ms2 b2.1 b2.2.1 b2.2.2.1 b2.2.2.2] at h
            simp only [Option.some.injEq] at h
            refine ⟨l0, l1, l2, rest, pre, post, h1, m1, s1, ms1, h2, m2, s2, ms2, hl, ?_, b1,
              b2, el, ?_, ?_, ?_⟩
            · rw [← h]; exact ha
            · rw [← h]
            · rw [← h]
            · rw [← h]
          · rw [if_pos (by simpa using h9)] at h
            exact absurd h (by simp)

/-! ## C12: the second line of a block -/

/-- C12, as stated, fails: the timing pattern is searched anywhere in the second line.
A second line with characters before and after the two timecodes, and one with an hour
field of three digits and a millisecond field of four, both give an entry, timed by the
leftmost text of the timing form. -/
theorem Parse_accepts_padded_timing :
    Parse "1\nabc 00:00:01,000 --> 00:00:02,000 xyz\nHi".toList =
      ({ Entries := [⟨1, 1000000000, 2000000000, "Hi".toList⟩] }, none) ∧
    Parse "2\n100:00:01,000 --> 00:00:02,0005\nHi".toList =
      ({ Entries := [⟨2, 1000000000, 2000000000, "Hi".toList⟩] }, none) := by
  constructor <;> decide

theorem mem_Parse_iff (content : List Char) (e : Entry) :
    e ∈ (Parse content).1.Entries ↔
      ∃ b ∈ Split (TrimSpace content) ['\n', '\n'], parseBlock b = some e := by
  unfold Parse
  simp only [List.mem_filterMap]

/-! ## C13: hour fields of three or more digits -/

theorem lit_ne_of_isDigit {l c : Char} (hl : isDigit l = false) (hc : isDigit c = true) :
    (l == c) = false := by
  rw [beq_eq_false_iff_ne]
  intro h
  rw [h, hc] at hl
  exact absurd hl (by simp)

theorem matchHere_third_digit (a b c : Char) (rest : List Char) (hc : isDigit c = true) :
    matchHere srtTimeRegex (a :: b :: c :: rest) = false := by
  have h : (':' == c) = false := lit_ne_of_isDigit (by decide) hc
  simp [matchHere, srtTimeRegex, Pat.test, h]

theorem matchHere_second_colon (a : Char) (rest : List Char) :
    matchHere srtTimeRegex (a :: ':' :: rest) = false := by
  have h : isDigit ':' = false := by decide
  simp [matchHere, srtTimeRegex, Pat.test, h]

theorem matchHere_first_not_digit (a : Char) (rest : List Char) (ha : isDigit a = false) :
    matchHere srtTimeRegex (a :: rest) = false := by
  simp [matchHere, srtTimeRegex, Pat.test, ha]

theorem matchHere_short (l : List Char) (h : l.length < 29) :
    matchHere srtTimeRegex l = false := by
  by_contra hc
  have hm : matchHere srtTimeRegex l = true := by simpa using hc
  have := (matchHere_take srtTimeRegex l hm).2
  have hlen : (l.take srtTimeRegex.length).length ≤ l.length := by
    rw [List.length_take]; exact Nat.min_le_right _ _
  have h29 : srtTimeRegex.length = 29 := rfl
  omega

/-- No match in the tail of a timecode behind digits: the text is too short once the
digits are passed, and three digits in a row never start a match. -/
theorem findLeftmost_digits_tail (D : List Char) (hD : ∀ c ∈ D, isDigit c = true)
    (p1 p2 q1 q2 r1 r2 r3 : Char) :
    findLeftmost srtTimeRegex (D ++ [':', p1, p2, ':', q1, q2, ',', r1, r2, r3]) = none := by
  have hshort : ∀ l : List Char, l.length < 29 → findLeftmost srtTimeRegex l = none := by
    intro l
    induction l with
    | nil => intro _; simp [findLeftmost, matchHere, srtTimeRegex]
    | cons c cs ih =>
      intro hl
      rw [findLeftmost, matchHere_short _ hl]
      simp only [Bool.false_eq_true, if_false]
      exact ih (by simp only [List.length_cons] at hl; omega)
  induction D with
  | nil => exact hshort _ (by simp)
  | cons d D' ih =>
    have ih' := ih (fun c hc => hD c (List.mem_cons_of_mem _ hc))
    have hm : matchHere srtTimeRegex (d :: D' ++ [':', p1, p2, ':', q1, q2, ',', r1, r2, r3]) =
        false := by
      cases D' with
      | nil => exact matchHere_second_colon _ _
      | cons e D'' =>
        cases D'' with
        | nil => exact matchHere_short _ (by simp)
        | cons f D3 =>
          exact matchHere_third_digit _ _ _ _
            (hD f (by simp))
    rw [List.cons_append] at hm
    rw [List.cons_append, findLeftmost, hm]
    simp only [Bool.false_eq_true, if_false]
    exact ih'

theorem findLeftmost_skip (cs pre rest : List Char)
    (h : ∀ t, t ≠ [] → t <:+ pre → matchHere srtTimeRegex (t ++ rest) = false)
    (hc : cs = pre ++ rest) :
    findLeftmost srtTimeRegex cs = findLeftmost srtTimeRegex rest := by
  induction pre generalizing cs with
  | nil => rw [hc]; rfl
  | cons c pre' ih =>
    rw [hc, List.cons_append, findLeftmost]
    have h1 := h (c :: pre') (by simp) (List.suffix_refl _)
    rw [List.cons_append] at h1
    rw [h1]
    simp only [Bool.false_eq_true, if_false]
    exact ih (pre' ++ rest)
      (fun t ht hs => h t ht (hs.trans (List.suffix_cons c pre'))) rfl

theorem findLeftmost_tail_arrow (p1 p2 q1 q2 r1 r2 r3 : Char) (hr3 : isDigit r3 = true)
    (X : List Char) :
    findLeftmost srtTimeRegex
      (':' :: p1 :: p2 :: ':' :: q1 :: q2 :: ',' :: r1 :: r2 :: r3 ::
        ' ' :: '-' :: '-' :: '>' :: ' ' :: X) = findLeftmost srtTimeRegex X := by
  have c1 : isDigit ':' = false := by decide
  have c2 : isDigit ',' = false := by decide
  have c3 : isDigit ' ' = false := by decide
  have c4 : isDigit '-' = false := by decide
  have c5 : isDigit '>' = false := by decide
  have e1 : (':' == ',') = false := by decide
  have e2 : (':' == ' ') = false := by decide
  have e3 : (':' == r3) = false := lit_ne_of_isDigit c1 hr3
  rw [findLeftmost, matchHere_first_not_digit _ _ c1]
  simp only [Bool.false_eq_true, if_false]
  rw [findLeftmost]
  have m1 : matchHere srtTimeRegex (p1 :: p2 :: ':' :: q1 :: q2 :: ',' :: r1 :: r2 :: r3 ::
      ' ' :: '-' :: '-' :: '>' :: ' ' :: X) = false := by
    simp [matchHere, srtTimeRegex, Pat.test, e1]
  rw [m1]
  simp only [Bool.false_eq_true, if_false]
  rw [findLeftmost, matchHere_second_colon]
  simp only [Bool.false_eq_true, if_false]
  rw [findLeftmost, matchHere_first_not_digit _ _ c1]
  simp only [Bool.false_eq_true, if_false]
  rw [findLeftmost]
  have m2 : matchHere srtTimeRegex (q1 :: q2 :: ',' :: r1 :: r2 :: r3 ::
      ' ' :: '-' :: '-' :: '>' :: ' ' :: X) = false := by
    simp [matchHere, srtTimeRegex, Pat.test, e1]
  rw [m2]
  simp only [Bool.false_eq_true, if_false]
  rw [findLeftmost]
  have m3 : matchHere srtTimeRegex (q2 :: ',' :: r1 :: r2 :: r3 ::
      ' ' :: '-' :: '-' :: '>' :: ' ' :: X) = false := by
    simp [matchHere, srtTimeRegex, Pat.test, c2]
  rw [m3]
  simp only [Bool.false_eq_true, if_false]
  rw [findLeftmost, matchHere_first_not_digit _ _ c2]
  simp only [Bool.false_eq_true, if_false]
  rw [findLeftmost, matchHere_third_digit _ _ _ _ hr3]
  simp only [Bool.false_eq_true, if_false]
  rw [findLeftmost]
  have m4 : matchHere srtTimeRegex (r2 :: r3 :: ' ' :: '-' :: '-' :: '>' :: ' ' :: X) =
      false := by
    simp [matchHere, srtTimeRegex, Pat.test, e2]
  rw [m4]
  simp only [Bool.false_eq_true, if_false]
  rw [findLeftmost]
  have m5 : matchHere srtTimeRegex (r3 :: ' ' :: '-' :: '-' :: '>' :: ' ' :: X) = false := by
    simp [matchHere, srtTimeRegex, Pat.test, c3]
  rw [m5]
  simp only [Bool.false_eq_true, if_false]
  rw [findLeftmost, matchHere_first_not_digit _ _ c3]
  simp only [Bool.false_eq_true, if_false]
  rw [findLeftmost, matchHere_first_not_digit _ _ c4]
  simp only [Bool.false_eq_true, if_false]
  rw [findLeftmost, matchHere_first_not_digit _ _ c4]
  simp only [Bool.false_eq_true, if_false]
  rw [findLeftmost, matchHere_first_not_digit _ _ c5]
  simp only [Bool.false_eq_true, if_false]
  rw [findLeftmost, matchHere_first_not_digit _ _ c3]
  simp only [Bool.false_eq_true, if_false]

/-- The search finds nothing in a timing line whose second hour field has three or
more digits, whatever the width of the first. -/
theorem findLeftmost_wideTimingLine (hours1 hours2 : List Char) (m1 s1 ms1 m2 s2 ms2 : Nat)
    (hd1 : ∀ c ∈ hours1, isDigit c = true) (hd2 : ∀ c ∈ hours2, isDigit c = true)
    (hlen : 3 ≤ hours2.length) :
    findLeftmost srtTimeRegex (wideTimingLine hours1 m1 s1 ms1 hours2 m2 s2 ms2) = none := by
  obtain ⟨u, t1, rfl⟩ : ∃ u t, hours2 = u :: t := by
    cases hours2 with
    | nil => simp at hlen
    | cons u t => exact ⟨u, t, rfl⟩
  obtain ⟨v, t2, rfl⟩ : ∃ v t, t1 = v :: t := by
    cases t1 with
    | nil => simp at hlen
    | cons v t => exact ⟨v, t, rfl⟩
  obtain ⟨w, B, rfl⟩ : ∃ w t, t2 = w :: t := by
    cases t2 with
    | nil => simp at hlen
    | cons w t => exact ⟨w, t, rfl⟩
  have hu : isDigit u = true := hd2 u (by simp)
  have hv : isDigit v = true := hd2 v (by simp)
  have hw : isDigit w = true := hd2 w (by simp)
  have hcw : (':' == w) = false := lit_ne_of_isDigit (by decide) hw
  have hX : findLeftmost srtTimeRegex (u :: v :: w :: B ++ timecodeTail m2 s2 ms2) = none := by
    have := findLeftmost_digits_tail (u :: v :: w :: B) hd2 (digitChar (m2 / 10)) (digitChar m2)
      (digitChar (s2 / 10)) (digitChar s2) (digitChar (ms2 / 100)) (digitChar (ms2 / 10))
      (digitChar ms2)
    simpa [timecodeTail, pad2, pad3] using this
  have hF : findLeftmost srtTimeRegex (timecodeTail m1 s1 ms1 ++
      (' ' :: '-' :: '-' :: '>' :: ' ' :: (u :: v :: w :: B ++ timecodeTail m2 s2 ms2))) =
      none := by
    have := findLeftmost_tail_arrow (digitChar (m1 / 10)) (digitChar m1)
      (digitChar (s1 / 10)) (digitChar s1) (digitChar (ms1 / 100)) (digitChar (ms1 / 10))
      (digitChar ms1) (isDigit_digitChar _) (u :: v :: w :: B ++ timecodeTail m2 s2 ms2)
    rw [hX] at this
    simpa [timecodeTail, pad2, pad3] using this
  unfold wideTimingLine
  rw [findLeftmost_skip _ hours1 _ _ rfl, hF]
  intro t hne hsuf
  have hdt : ∀ c ∈ t, isDigit c = true := fun c hc => hd1 c (hsuf.subset hc)
  cases t with
  | nil => exact absurd rfl hne
  | cons a t' =>
    cases t' with
    | nil =>
      simp only [timecodeTail, List.singleton_append, List.cons_append]
      exact matchHere_second_colon _ _
    | cons b t'' =>
      cases t'' with
      | nil =>
        have ha : isDigit a = true := hdt a (by simp)
        have hb : isDigit b = true := hdt b (by simp)
        simp [matchHere, srtTimeRegex, Pat.test, timecodeTail, pad2, pad3, isDigit_digitChar,
          ha, hb, hu, hv, hcw]
      | cons c t3 =>
        exact matchHere_third_digit _ _ _ _ (hdt c (by simp))

theorem Atoi_fmtNat (h : Nat) (hh : h < 2 ^ 63) : Atoi (fmtNat h) = some (h : ℤ) := by
  have h1 := Atoi_fmtInt (h : ℤ) (by have := Int.natCast_nonneg h; omega) (by exact_mod_cast hh)
  unfold fmtInt at h1
  rw [if_neg (by omega), Int.natAbs_ofNat] at h1
  exact h1

/-- The function `parseTime` reads an hour field of any width. -/
theorem parseTime_wide_hours (h m s ms : Nat) (hm : m < 100) (hs : s < 100) (hms : ms < 1000)
    (hfit : fieldsDuration h m s ms < 2 ^ 63) :
    parseTime (fmtNat h) (pad2 m) (pad2 s) (pad3 ms) = some (fieldsDuration h m s ms) := by
  have hh : h < 2 ^ 63 := by
    unfold fieldsDuration Hour Minute Second Millisecond at hfit
    omega
  unfold parseTime
  rw [Atoi_fmtNat h hh, Atoi_pad2 m hm, Atoi_pad2 s hs, Atoi_pad3 ms hms]
  simp only
  rw [wrap64_of_range]
  · rfl
  · unfold Hour Minute Second Millisecond; positivity
  · exact hfit

theorem parseBlock_no_timing (b : List Char)
    (h : findLeftmost srtTimeRegex ((blockLines b).getD 1 []) = none) : parseBlock b = none := by
  unfold blockLines at h
  unfold parseBlock
  simp only
  by_cases hnil : TrimSpace b = []
  · rw [if_pos hnil]
  rw [if_neg hnil]
  by_cases hl : (Split (TrimSpace b) ['\n']).length < 3
  · rw [if_pos hl]
  rw [if_neg hl]
  cases ha : Atoi (TrimSpace ((Split (TrimSpace b) ['\n']).getD 0 [])) with
  | none => rfl
  | some idx =>
    simp only
    have hf : FindStringSubmatch ((Split (TrimSpace b) ['\n']).getD 1 []) = [] := by
      unfold FindStringSubmatch
      rw [h]
    rw [hf]
    simp

/-- C13, refuted as stated: the text that `formatTime` emits at one hundred hours has a
three-digit hour field, and `Parse` returns no entry for a cue whose timing line carries
such fields. -/
theorem Parse_drops_hundred_hours :
    formatTime 360000000000000 = "100:00:00,000".toList ∧
    formatTime 360001000000000 = "100:00:01,000".toList ∧
    Parse "1\n100:00:00,000 --> 100:00:01,000\nHi".toList = ({ Entries := [] }, none) := by
  refine ⟨?_, ?_, by decide⟩
  · rw [formatTime_eq_timecode _ (by decide) (by decide) (Or.inl (by decide))]
    decide
  · rw [formatTime_eq_timecode _ (by decide) (by decide) (Or.inl (by decide))]
    decide

/-- C13, as amended: the timing pattern admits hour fields of exactly two digits. A block
whose timing line has an end hour field of three or more digits, the start hour field
being of any width, is skipped: it yields no entry, so every entry that `Parse` returns
comes from another block. The bound lies in the pattern only: `parseTime` reads an hour
field of any width whose duration fits the 64-bit range. -/
theorem Parse_skips_wide_hours (content b hours1 hours2 : List Char)
    (m1 s1 ms1 m2 s2 ms2 : Nat)
    (hd1 : ∀ c ∈ hours1, isDigit c = true) (hd2 : ∀ c ∈ hours2, isDigit c = true)
    (hlen : 3 ≤ hours2.length)
    (hline : (blockLines b).getD 1 [] = wideTimingLine hours1 m1 s1 ms1 hours2 m2 s2 ms2) :
    parseBlock b = none ∧
    (∀ e ∈ (Parse content).1.Entries,
      ∃ b' ∈ Split (TrimSpace content) ['\n', '\n'], b' ≠ b ∧ parseBlock b' = some e) ∧
    (∀ h m s ms : Nat, m < 100 → s < 100 → ms < 1000 → fieldsDuration h m s ms < 2 ^ 63 →
      parseTime (fmtNat h) (pad2 m) (pad2 s) (pad3 ms) = some (fieldsDuration h m s ms)) := by
  have hnone : parseBlock b = none := by
    apply parseBlock_no_timing
    rw [hline]
    exact findLeftmost_wideTimingLine hours1 hours2 m1 s1 ms1 m2 s2 ms2 hd1 hd2 hlen
  refine ⟨hnone, ?_, fun h m s ms hm hs hms hfit => parseTime_wide_hours h m s ms hm hs hms hfit⟩
  intro e he
  obtain ⟨b', hb', hp⟩ := (mem_Parse_iff content e).mp he
  refine ⟨b', hb', ?_, hp⟩
  intro hbb
  rw [hbb, hnone] at hp
  exact absurd hp (by simp)

theorem Parse_skips_wide_hours_witness :
    (∀ c ∈ "100".toList, isDigit c = true) ∧ (∀ c ∈ "100".toList, isDigit c = true) ∧
    3 ≤ "100".toList.length ∧
    (blockLines "7\n100:00:00,000 --> 100:00:01,000\nHi".toList).getD 1 [] =
      wideTimingLine "100".toList 0 0 0 "100".toList 0 1 0 ∧
    (parseBlock "7\n100:00:00,000 --> 100:00:01,000\nHi".toList = none ∧
    (∀ e ∈ (Parse
        "6\n00:00:00,000 --> 00:00:01,000\nLo\n\n7\n100:00:00,000 --> 100:00:01,000\nHi".toList).1.Entries,
      ∃ b' ∈ Split (TrimSpace
        "6\n00:00:00,000 --> 00:00:01,000\nLo\n\n7\n100:00:00,000 --> 100:00:01,000\nHi".toList)
          ['\n', '\n'],
        b' ≠ "7\n100:00:00,000 --> 100:00:01,000\nHi".toList ∧ parseBlock b' = some e) ∧
    (∀ h m s ms : Nat, m < 100 → s < 100 → ms < 1000 → fieldsDuration h m s ms < 2 ^ 63 →
      parseTime (fmtNat h) (pad2 m) (pad2 s) (pad3 ms) = some (fieldsDuration h m s ms))) :=
  ⟨by decide, by decide, by decide, by decide,
    Parse_skips_wide_hours _ _ "100".toList "100".toList 0 0 0 0 1 0
      (by decide) (by decide) (by decide) (by decide)⟩

/-! ## C14: the caption text -/

theorem parseBlock_text (b : List Char) (e : Entry) (h : parseBlock b = some e) :
    e.Text = Join ((blockLines b).drop 2) ['\n'] ∧ 3 ≤ (blockLines b).length ∧
    TrimSpace b =
      (blockLines b).getD 0 [] ++ '\n' :: ((blockLines b).getD 1 [] ++ '\n' :: e.Text) := by
  obtain ⟨l0, l1, l2, rest, pre, post, h1, m1, s1, ms1, h2, m2, s2, ms2, hl, -, -, -, -, -, -,
    ht⟩ := parseBlock_some b e h
  have hj := Join_Split_lines (TrimSpace b)
  unfold blockLines at hl
  unfold blockLines
  rw [hl] at hj ⊢
  refine ⟨by simpa using ht, by simp, ?_⟩
  rw [← hj, ht]
  simp [Join]

/-- C14: for every block that `Parse` accepts, the Text of its entry is the lines of the
(trimmed) block from the third one on, joined with newlines, character for character:
the trimmed block is its first line, a newline, its second line, a newline, and the Text,
where no line holds a newline; so all line breaks of a caption of several lines are kept.
Every entry that `Parse` returns comes from such a block. -/
theorem Parse_text_lines (content b : List Char) (e : Entry)
    (hb : b ∈ Split (TrimSpace content) ['\n', '\n']) (h : parseBlock b = some e) :
    e ∈ (Parse content).1.Entries ∧
    e.Text = Join ((blockLines b).drop 2) ['\n'] ∧
    3 ≤ (blockLines b).length ∧
    (∀ l ∈ blockLines b, '\n' ∉ l) ∧
    TrimSpace b =
      (blockLines b).getD 0 [] ++ '\n' :: ((blockLines b).getD 1 [] ++ '\n' :: e.Text) ∧
    (∀ e' ∈ (Parse content).1.Entries, ∃ b' ∈ Split (TrimSpace content) ['\n', '\n'],
      parseBlock b' = some e' ∧ e'.Text = Join ((blockLines b').drop 2) ['\n']) := by
  obtain ⟨t1, t2, t3⟩ := parseBlock_text b e h
  refine ⟨(mem_Parse_iff content e).mpr ⟨b, hb, h⟩, t1, t2, ?_, t3, ?_⟩
  · intro l hl
    exact splitGo_newline_pieces (TrimSpace b) l hl
  · intro e' he'
    obtain ⟨b', hb', hp⟩ := (mem_Parse_iff content e').mp he'
    exact ⟨b', hb', hp, (parseBlock_text b' e' hp).1⟩

theorem Parse_text_lines_witness :
    "2\n00:00:03,000 --> 00:00:04,500\nfirst line\n  second, indented \nthird".toList ∈
      Split (TrimSpace ("1\n00:00:01,000 --> 00:00:02,000\nHi\n\n" ++
        "2\n00:00:03,000 --> 00:00:04,500\nfirst line\n  second, indented \nthird\n").toList)
        ['\n', '\n'] ∧
    parseBlock
        "2\n00:00:03,000 --> 00:00:04,500\nfirst line\n  second, indented \nthird".toList =
      some ⟨2, 3000000000, 4500000000, "first line\n  second, indented \nthird".toList⟩ ∧
    ((⟨2, 3000000000, 4500000000, "first line\n  second, indented \nthird".toList⟩ : Entry) ∈
      (Parse ("1\n00:00:01,000 --> 00:00:02,000\nHi\n\n" ++
        "2\n00:00:03,000 --> 00:00:04,500\nfirst line\n  second, indented \nthird\n").toList).1.Entries ∧
    "first line\n  second, indented \nthird".toList =
      Join ((blockLines
        "2\n00:00:03,000 --> 00:00:04,500\nfirst line\n  second, indented \nthird".toList).drop 2)
        ['\n']) :=
  ⟨by decide, by decide,
    (Parse_text_lines
      ("1\n00:00:01,000 --> 00:00:02,000\nHi\n\n" ++
        "2\n00:00:03,000 --> 00:00:04,500\nfirst line\n  second, indented \nthird\n").toList
      "2\n00:00:03,000 --> 00:00:04,500\nfirst line\n  second, indented \nthird".toList
      ⟨2, 3000000000, 4500000000, "first line\n  second, indented \nthird".toList⟩
      (by decide) (by decide)).1,
    (Parse_text_lines
      ("1\n00:00:01,000 --> 00:00:02,000\nHi\n\n" ++
        "2\n00:00:03,000 --> 00:00:04,500\nfirst line\n  second, indented \nthird\n").toList
      "2\n00:00:03,000 --> 00:00:04,500\nfirst line\n  second, indented \nthird".toList
      ⟨2, 3000000000, 4500000000, "first line\n  second, indented \nthird".toList⟩
      (by decide) (by decide)).2.1⟩

/-! ## C15, C16: the integers that `Atoi` reads -/

theorem parseUint_eq (acc : Nat) (ds : List Char) :
    parseUint acc ds =
      if ds.all isDigit = true then some (ds.foldl (fun a c => a * 10 + digitVal c) acc)
      else none := by
  induction ds generalizing acc with
  | nil => simp [parseUint]
  | cons c cs ih =>
    rw [parseUint]
    by_cases hc : isDigit c = true
    · rw [if_pos hc, ih]
      simp [hc]
    · rw [if_neg hc]
      simp [hc]

theorem parseUint_zero_eq_some (ds : List Char) (k : Nat) :
    parseUint 0 ds = some k ↔ (∀ c ∈ ds, isDigit c = true) ∧ k = decimalValue ds := by
  rw [parseUint_eq]
  unfold decimalValue
  by_cases h : ds.all isDigit = true
  · rw [if_pos h]
    have h' : ∀ c ∈ ds, isDigit c = true := by simpa using h
    constructor
    · intro hk
      exact ⟨h', (Option.some.inj hk).symm⟩
    · intro hk
      rw [hk.2]
  · rw [if_neg h]
    constructor
    · intro hk
      exact absurd hk (by simp)
    · intro hk
      exact absurd (by simpa using hk.1) h

theorem Atoi_minus (cs : List Char) (n : ℤ) :
    Atoi ('-' :: cs) = some n ↔
      cs ≠ [] ∧ ∃ k, parseUint 0 cs = some k ∧ k ≤ 2 ^ 63 ∧ n = -(k : ℤ) := by
  unfold Atoi
  simp only [beq_self_eq_true, Bool.true_or, if_true]
  cases cs with
  | nil => simp
  | cons d ds =>
    simp only [List.isEmpty_cons, Bool.false_eq_true, if_false, ne_eq, not_false_eq_true,
      true_and, reduceCtorEq]
    cases hp : parseUint 0 (d :: ds) with
    | none => simp
    | some k =>
      simp only [Option.some.injEq, exists_eq_left']
      by_cases hk : k ≤ 2 ^ 63
      · rw [if_pos hk]
        simp only [Option.some.injEq]
        constructor
        · intro h; exact ⟨hk, h.symm⟩
        · intro h; exact h.2.symm
      · rw [if_neg hk]
        constructor
        · intro h; exact absurd h (by simp)
        · intro h; exact absurd h.1 hk

theorem Atoi_plus (cs : List Char) (n : ℤ) :
    Atoi ('+' :: cs) = some n ↔
      cs ≠ [] ∧ ∃ k, parseUint 0 cs = some k ∧ k < 2 ^ 63 ∧ n = (k : ℤ) := by
  unfold Atoi
  have h1 : ('+' == '-') = false := by decide
  simp only [h1, beq_self_eq_true, Bool.or_true, if_true, Bool.false_eq_true, if_false]
  cases cs with
  | nil => simp
  | cons d ds =>
    simp only [List.isEmpty_cons, Bool.false_eq_true, if_false, ne_eq, not_false_eq_true,
      true_and, reduceCtorEq]
    cases hp : parseUint 0 (d :: ds) with
    | none => simp
    | some k =>
      simp only [Option.some.injEq, exists_eq_left']
      by_cases hk : k < 2 ^ 63
      · rw [if_pos hk]
        simp only [Option.some.injEq]
        constructor
        · intro h; exact ⟨hk, h.symm⟩
        · intro h; exact h.2.symm
      · rw [if_neg hk]
        constructor
        · intro h; exact absurd h (by simp)
        · intro h; exact absurd h.1 hk

theorem Atoi_plain (c : Char) (cs : List Char) (n : ℤ) (hm : c ≠ '-') (hp : c ≠ '+') :
    Atoi (c :: cs) = some n ↔
      ∃ k, parseUint 0 (c :: cs) = some k ∧ k < 2 ^ 63 ∧ n = (k : ℤ) := by
  unfold Atoi
  have h1 : (c == '-') = false := by simpa using hm
  have h2 : (c == '+') = false := by simpa using hp
  simp only [h1, h2, Bool.or_false, Bool.false_eq_true, if_false, List.isEmpty_cons]
  cases hq : parseUint 0 (c :: cs) with
  | none => simp
  | some k =>
    simp only [Option.some.injEq, exists_eq_left']
    by_cases hk : k < 2 ^ 63
    · rw [if_pos hk]
      simp only [Option.some.injEq]
      constructor
      · intro h; exact ⟨hk, h.symm⟩
      · intro h; exact h.2.symm
    · rw [if_neg hk]
      constructor
      · intro h; exact absurd h (by simp)
      · intro h; exact absurd h.1 hk

/-- What `Atoi` accepts: exactly the decimal writings of the integers of the 64-bit
range, with an optional sign. -/
theorem Atoi_eq_some_iff (s : List Char) (n : ℤ) : Atoi s = some n ↔ IntText s n := by
  have hdm : isDigit '-' = false := by decide
  have hdp : isDigit '+' = false := by decide
  unfold IntText
  cases s with
  | nil =>
    constructor
    · intro h; exact absurd h (by simp [Atoi])
    · rintro ⟨⟨ds, hne, -, (⟨h | h, -⟩ | ⟨h, -⟩)⟩, -⟩
      · exact absurd h.symm hne
      · exact absurd h (by simp)
      · exact absurd h (by simp)
  | cons c cs =>
    by_cases hm : c = '-'
    · subst hm
      rw [Atoi_minus]
      constructor
      · rintro ⟨hne, k, hk, hle, rfl⟩
        obtain ⟨hd, rfl⟩ := (parseUint_zero_eq_some cs k).mp hk
        refine ⟨⟨cs, hne, hd, Or.inr ⟨rfl, rfl⟩⟩, ?_, ?_⟩
        · have : ((decimalValue cs : ℕ) : ℤ) ≤ 2 ^ 63 := by exact_mod_cast hle
          omega
        · have : (0 : ℤ) ≤ (decimalValue cs : ℕ) := Int.natCast_nonneg _
          omega
      · rintro ⟨⟨ds, hne, hd, (⟨h | h, -⟩ | ⟨h, hn⟩)⟩, hlo, -⟩
        · rw [← h] at hd
          have := hd '-' (List.mem_cons_self _ _)
          rw [hdm] at this
          exact absurd this (by simp)
        · exact absurd (List.cons.inj h).1 (by decide)
        · have hcs : cs = ds := (List.cons.inj h).2
          subst hcs
          refine ⟨hne, decimalValue cs, (parseUint_zero_eq_some cs _).mpr ⟨hd, rfl⟩, ?_, hn⟩
          have : ((decimalValue cs : ℕ) : ℤ) ≤ 2 ^ 63 := by omega
          exact_mod_cast this
    · by_cases hp : c = '+'
      · subst hp
        rw [Atoi_plus]
        constructor
        · rintro ⟨hne, k, hk, hlt, rfl⟩
          obtain ⟨hd, rfl⟩ := (parseUint_zero_eq_some cs k).mp hk
          refine ⟨⟨cs, hne, hd, Or.inl ⟨Or.inr rfl, rfl⟩⟩, ?_, ?_⟩
          · have : (0 : ℤ) ≤ (decimalValue cs : ℕ) := Int.natCast_nonneg _
            omega
          · exact_mod_cast hlt
        · rintro ⟨⟨ds, hne, hd, (⟨h | h, hn⟩ | ⟨h, -⟩)⟩, -, hhi⟩
          · rw [← h] at hd
            have := hd '+' (List.mem_cons_self _ _)
            rw [hdp] at this
            exact absurd this (by simp)
          · have hcs : cs = ds := (List.cons.inj h).2
            subst hcs
            refine ⟨hne, decimalValue cs, (parseUint_zero_eq_some cs _).mpr ⟨hd, rfl⟩, ?_, hn⟩
            rw [hn] at hhi
            exact_mod_cast hhi
          · exact absurd (List.cons.inj h).1 (by decide)
      · rw [Atoi_plain c cs n hm hp]
        constructor
        · rintro ⟨k, hk, hlt, rfl⟩
          obtain ⟨hd, rfl⟩ := (parseUint_zero_eq_some (c :: cs) k).mp hk
          refine ⟨⟨c :: cs, by simp, hd, Or.inl ⟨Or.inl rfl, rfl⟩⟩, ?_, ?_⟩
          · have : (0 : ℤ) ≤ (decimalValue (c :: cs) : ℕ) := Int.natCast_nonneg _
            omega
          · exact_mod_cast hlt
        · rintro ⟨⟨ds, hne, hd, (⟨h | h, hn⟩ | ⟨h, -⟩)⟩, -, hhi⟩
          · subst h
            refine ⟨decimalValue (c :: cs), (parseUint_zero_eq_some _ _).mpr ⟨hd, rfl⟩, ?_, hn⟩
            rw [hn] at hhi
            exact_mod_cast hhi
          · exact absurd (List.cons.inj h).1 hp
          · exact absurd (List.cons.inj h).1 hm

theorem Atoi_eq_none_iff (s : List Char) : Atoi s = none ↔ ¬ ∃ n, IntText s n := by
  constructor
  · rintro h ⟨n, hn⟩
    rw [(Atoi_eq_some_iff s n).mpr hn] at h
    exact absurd h (by simp)
  · intro h
    cases ha : Atoi s with
    | none => rfl
    | some n => exact absurd ⟨n, (Atoi_eq_some_iff s n).mp ha⟩ h

/-- C15, refuted as stated: an entry that `Parse` produces can have a negative index, or
the index zero. -/
theorem Parse_nonpositive_index :
    Parse "-5\n00:00:01,000 --> 00:00:02,000\nHi".toList =
      ({ Entries := [⟨-5, 1000000000, 2000000000, "Hi".toList⟩] }, none) ∧
    Parse "0\n00:00:01,000 --> 00:00:02,000\nHi".toList =
      ({ Entries := [⟨0, 1000000000, 2000000000, "Hi".toList⟩] }, none) := by
  constructor <;> decide

/-- C15, as amended: every entry that `Parse` produces, for every input, comes from a
block whose first line, trimmed of white space, writes an integer in decimal (an optional
sign, then digits, the value within the 64-bit range), and the Index of the entry is that
integer, the only one the line writes. The sign of the integer is not restricted. -/
theorem Parse_index_first_line (content : List Char) (e : Entry)
    (he : e ∈ (Parse content).1.Entries) :
    ∃ b ∈ Split (TrimSpace content) ['\n', '\n'],
      parseBlock b = some e ∧
      IntText (TrimSpace ((blockLines b).getD 0 [])) e.Index ∧
      ∀ n, IntText (TrimSpace ((blockLines b).getD 0 [])) n → n = e.Index := by
  obtain ⟨b, hb, hp⟩ := (mem_Parse_iff content e).mp he
  obtain ⟨l0, l1, l2, rest, pre, post, h1, m1, s1, ms1, h2, m2, s2, ms2, hl, ha, -⟩ :=
    parseBlock_some b e hp
  refine ⟨b, hb, hp, ?_, ?_⟩
  · rw [hl]
    exact (Atoi_eq_some_iff _ _).mp ha
  · intro n hn
    rw [hl] at hn
    have := (Atoi_eq_some_iff _ _).mpr hn
    rw [List.getD_cons_zero, ha] at this
    exact (Option.some.inj this).symm

theorem Parse_index_first_line_witness :
    (⟨-5, 1000000000, 2000000000, "Hi".toList⟩ : Entry) ∈
      (Parse " -5 \n00:00:01,000 --> 00:00:02,000\nHi\n\n+7\t\n00:00:03,000 --> 00:00:04,000\nLo".toList).1.Entries ∧
    ∃ b ∈ Split (TrimSpace
        " -5 \n00:00:01,000 --> 00:00:02,000\nHi\n\n+7\t\n00:00:03,000 --> 00:00:04,000\nLo".toList)
        ['\n', '\n'],
      parseBlock b = some ⟨-5, 1000000000, 2000000000, "Hi".toList⟩ ∧
      IntText (TrimSpace ((blockLines b).getD 0 []))
        (⟨-5, 1000000000, 2000000000, "Hi".toList⟩ : Entry).Index ∧
      ∀ n, IntText (TrimSpace ((blockLines b).getD 0 [])) n →
        n = (⟨-5, 1000000000, 2000000000, "Hi".toList⟩ : Entry).Index :=
  ⟨by decide, Parse_index_first_line _ _ (by decide)⟩

/-- C16, refuted as stated: `parseTime` accepts signed fields, and it rejects a field of
digits only whose value does not fit the 64-bit `int`. -/
theorem parseTime_signed_and_wide :
    parseTime "-1".toList "0".toList "0".toList "0".toList = some (-3600000000000) ∧
    parseTime "0".toList "+1".toList "0".toList "0".toList = some 60000000000 ∧
    parseTime "9223372036854775808".toList "0".toList "0".toList "0".toList = none ∧
    parseTime "9223372036854775807".toList "0".toList "0".toList "0".toList =
      some (-3600000000000) := by
  decide

/-- C16, as amended: `parseTime` returns an error exactly when at least one of its four
arguments does not write an integer of the 64-bit range in decimal, that is an optional
sign `+` or `-` followed by one or more ASCII digits; when all four do, it returns no
error, and its result is the sum of the four products in 64-bit arithmetic. -/
theorem parseTime_error_iff (hours minutes seconds milliseconds : List Char) :
    (parseTime hours minutes seconds milliseconds = none ↔
      ¬ ((∃ n, IntText hours n) ∧ (∃ n, IntText minutes n) ∧ (∃ n, IntText seconds n) ∧
        (∃ n, IntText milliseconds n))) ∧
    (∀ h m s ms : ℤ, IntText hours h ∧ IntText minutes m ∧ IntText seconds s ∧
        IntText milliseconds ms →
      parseTime hours minutes seconds milliseconds =
        some (wrap64 (h * Hour + m * Minute + s * Second + ms * Millisecond))) := by
  constructor
  · unfold parseTime
    cases h1 : Atoi hours with
    | none =>
      simp only [true_iff]
      rintro ⟨⟨n, hn⟩, -⟩
      rw [(Atoi_eq_some_iff _ _).mpr hn] at h1
      exact absurd h1 (by simp)
    | some a =>
      cases h2 : Atoi minutes with
      | none =>
        simp only [true_iff]
        rintro ⟨-, ⟨n, hn⟩, -⟩
        rw [(Atoi_eq_some_iff _ _).mpr hn] at h2
        exact absurd h2 (by simp)
      | some b =>
        cases h3 : Atoi seconds with
        | none =>
          simp only [true_iff]
          rintro ⟨-, -, ⟨n, hn⟩, -⟩
          rw [(Atoi_eq_some_iff _ _).mpr hn] at h3
          exact absurd h3 (by simp)
        | some c =>
          cases h4 : Atoi milliseconds with
          | none =>
            simp only [true_iff]
            rintro ⟨-, -, -, ⟨n, hn⟩⟩
            rw [(Atoi_eq_some_iff _ _).mpr hn] at h4
            exact absurd h4 (by simp)
          | some d =>
            simp only [reduceCtorEq, false_iff, not_not]
            exact ⟨⟨a, (Atoi_eq_some_iff _ _).mp h1⟩, ⟨b, (Atoi_eq_some_iff _ _).mp h2⟩,
              ⟨c, (Atoi_eq_some_iff _ _).mp h3⟩, ⟨d, (Atoi_eq_some_iff _ _).mp h4⟩⟩
  · rintro h m s ms ⟨h1, h2, h3, h4⟩
    unfold parseTime
    rw [(Atoi_eq_some_iff _ _).mpr h1, (Atoi_eq_some_iff _ _).mpr h2,
      (Atoi_eq_some_iff _ _).mpr h3, (Atoi_eq_some_iff _ _).mpr h4]

theorem parseTime_error_iff_witness :
    (IntText "-1".toList (-1) ∧ IntText "+02".toList 2 ∧ IntText "3".toList 3 ∧
      IntText "004".toList 4) ∧
    parseTime "-1".toList "+02".toList "3".toList "004".toList =
      some (wrap64 (-1 * Hour + 2 * Minute + 3 * Second + 4 * Millisecond)) ∧
    (parseTime "1".toList "".toList "3".toList "004".toList = none ↔
      ¬ ((∃ n, IntText "1".toList n) ∧ (∃ n, IntText "".toList n) ∧
        (∃ n, IntText "3".toList n) ∧ (∃ n, IntText "004".toList n))) :=
  ⟨⟨(Atoi_eq_some_iff _ _).mp (by decide), (Atoi_eq_some_iff _ _).mp (by decide),
      (Atoi_eq_some_iff _ _).mp (by decide), (Atoi_eq_some_iff _ _).mp (by decide)⟩,
    (parseTime_error_iff "-1".toList "+02".toList "3".toList "004".toList).2 (-1) 2 3 4
      ⟨(Atoi_eq_some_iff _ _).mp (by decide), (Atoi_eq_some_iff _ _).mp (by decide),
        (Atoi_eq_some_iff _ _).mp (by decide), (Atoi_eq_some_iff _ _).mp (by decide)⟩,
    (parseTime_error_iff "1".toList "".toList "3".toList "004".toList).1⟩

/-! ## C18: invariants of the parsed entries -/

theorem dropWhile_isSpace_clean (l : List Char) :
    l.dropWhile isSpace = [] ∨ startsClean (l.dropWhile isSpace) = true := by
  induction l with
  | nil => exact Or.inl rfl
  | cons c cs ih =>
    rw [List.dropWhile_cons]
    by_cases hc : isSpace c = true
    · rw [if_pos hc]; exact ih
    · rw [if_neg hc]
      right
      simpa [startsClean] using hc

theorem endsClean_TrimSpace (s : List Char) (h : TrimSpace s ≠ []) :
    endsClean (TrimSpace s) = true := by
  unfold TrimSpace List.rdropWhile at h ⊢
  unfold endsClean
  rw [List.reverse_reverse]
  rcases dropWhile_isSpace_clean (s.dropWhile isSpace).reverse with h0 | h1
  · rw [h0] at h
    exact absurd rfl h
  · exact h1

theorem endsClean_of_append (s t : List Char) (ht : t ≠ []) (h : endsClean (s ++ t) = true) :
    endsClean t = true := by
  unfold endsClean at h ⊢
  rw [List.reverse_append] at h
  cases hr : t.reverse with
  | nil => exact absurd (List.reverse_eq_nil_iff.mp hr) ht
  | cons x xs =>
    rw [hr] at h
    simpa [startsClean] using h

theorem hasBlank_suffix (a b : List Char) (h : hasBlank (a ++ b) = false) :
    hasBlank b = false := by
  induction a with
  | nil => exact h
  | cons c cs ih => exact ih (hasBlank_tail h)

theorem hasBlank_prefix (a b : List Char) (h : hasBlank (a ++ b) = false) :
    hasBlank a = false := by
  induction a with
  | nil => rfl
  | cons c cs ih =>
    cases cs with
    | nil => rfl
    | cons d ds =>
      rw [List.cons_append, List.cons_append, hasBlank_cons_cons] at h
      rw [hasBlank_cons_cons]
      simp only [Bool.or_eq_false_iff] at h ⊢
      exact ⟨h.1, ih h.2⟩

theorem hasBlank_TrimSpace (s : List Char) (h : hasBlank s = false) :
    hasBlank (TrimSpace s) = false := by
  unfold TrimSpace
  obtain ⟨t, ht⟩ := List.rdropWhile_prefix isSpace (s.dropWhile isSpace)
  obtain ⟨u, hu⟩ := List.dropWhile_suffix isSpace (l := s)
  rw [← hu] at h
  have h1 := hasBlank_suffix _ _ h
  rw [← ht] at h1
  exact hasBlank_prefix _ _ h1

theorem splitGo_head_prefix (sep : List Char) (s : List Char) :
    ∀ p ps, splitGo sep 0 s = p :: ps → p <+: s := by
  induction s with
  | nil =>
    intro p ps h
    simp only [splitGo, List.cons.injEq] at h
    rw [← h.1]
  | cons c cs ih =>
    intro p ps h
    rw [splitGo] at h
    by_cases hpre : sep.isPrefixOf (c :: cs) = true
    · rw [if_pos hpre] at h
      rw [← (List.cons.inj h).1]
      exact List.nil_prefix
    · rw [if_neg hpre] at h
      cases hq : splitGo sep 0 cs with
      | nil => exact absurd hq (splitGo_ne_nil _ _ _)
      | cons q qs =>
        rw [hq] at h
        simp only [List.cons.injEq] at h
        rw [← h.1]
        exact (List.prefix_cons_inj c).mpr (ih q qs hq)

/-- No piece of a text split at blank lines holds a blank line. -/
theorem splitGo_blank_pieces (s : List Char) :
    ∀ k, ∀ p ∈ splitGo ['\n', '\n'] k s, hasBlank p = false := by
  induction s with
  | nil =>
    intro k p hp
    have : p = [] := by
      cases k <;> simpa [splitGo] using hp
    rw [this]; rfl
  | cons c cs ih =>
    intro k p hp
    cases k with
    | succ k =>
      rw [splitGo] at hp
      exact ih k p hp
    | zero =>
      rw [splitGo] at hp
      by_cases hpre : List.isPrefixOf ['\n', '\n'] (c :: cs) = true
      · rw [if_pos hpre] at hp
        rcases List.mem_cons.mp hp with h | h
        · rw [h]; rfl
        · exact ih _ p h
      · rw [if_neg hpre] at hp
        cases hq : splitGo ['\n', '\n'] 0 cs with
        | nil => exact absurd hq (splitGo_ne_nil _ _ _)
        | cons q qs =>
          rw [hq] at hp
          simp only at hp
          rcases List.mem_cons.mp hp with h | h
          · have hqb : hasBlank q = false := ih 0 q (by rw [hq]; exact List.mem_cons_self _ _)
            rw [h]
            cases q with
            | nil => rfl
            | cons d q' =>
              rw [hasBlank_cons_cons, hqb, Bool.or_false]
              obtain ⟨t, ht⟩ := splitGo_head_prefix _ cs _ _ hq
              rw [← ht] at hpre
              by_contra hcd
              apply hpre
              simp only [Bool.not_eq_false, Bool.and_eq_true, beq_iff_eq] at hcd
              rw [hcd.1, hcd.2]
              simp [List.isPrefixOf]
          · exact ih 0 p (by rw [hq]; exact List.mem_cons_of_mem _ h)

theorem parseBlock_text_clean (b : List Char) (e : Entry) (hb : hasBlank b = false)
    (h : parseBlock b = some e) :
    e.Text ≠ [] ∧ hasBlank e.Text = false ∧ endsClean e.Text = true := by
  obtain ⟨-, -, ht⟩ := parseBlock_text b e h
  have hne : TrimSpace b ≠ [] := by rw [ht]; simp
  have hec := endsClean_TrimSpace b hne
  have hbl := hasBlank_TrimSpace b hb
  have ht' : TrimSpace b =
      ((blockLines b).getD 0 [] ++ '\n' :: (blockLines b).getD 1 []) ++ ('\n' :: e.Text) := by
    rw [ht]; simp
  rw [ht'] at hec hbl
  have h1 := endsClean_of_append _ _ (by simp) hec
  have hText : e.Text ≠ [] := by
    intro hnil
    rw [hnil] at h1
    exact absurd h1 (by decide)
  refine ⟨hText, ?_, ?_⟩
  · exact hasBlank_tail (hasBlank_suffix _ _ hbl)
  · exact endsClean_of_append ['\n'] e.Text hText h1

theorem fieldsDuration_bounds (h m s ms : Nat) (hh : h < 100) (hm : m < 100) (hs : s < 100)
    (hms : ms < 1000) :
    0 ≤ fieldsDuration h m s ms ∧ fieldsDuration h m s ms % Millisecond = 0 ∧
    fieldsDuration h m s ms ≤ 99 * Hour + 99 * Minute + 99 * Second + 999 * Millisecond := by
  unfold fieldsDuration Hour Minute Second Millisecond
  refine ⟨by omega, by omega, by omega⟩

/-- C18: every entry that `Parse` returns, for every input, has a StartTime and an
EndTime that are whole multiples of one millisecond, not negative and not above
99 h + 99 min + 99 s + 999 ms, and a Text that is not empty, holds no two consecutive
newlines and does not end with white space. -/
theorem Parse_entry_invariants (content : List Char) (e : Entry)
    (he : e ∈ (Parse content).1.Entries) :
    (0 ≤ e.StartTime ∧ e.StartTime % Millisecond = 0 ∧
      e.StartTime ≤ 99 * Hour + 99 * Minute + 99 * Second + 999 * Millisecond) ∧
    (0 ≤ e.EndTime ∧ e.EndTime % Millisecond = 0 ∧
      e.EndTime ≤ 99 * Hour + 99 * Minute + 99 * Second + 999 * Millisecond) ∧
    e.Text ≠ [] ∧ hasBlank e.Text = false ∧ endsClean e.Text = true := by
  obtain ⟨b, hb, hp⟩ := (mem_Parse_iff content e).mp he
  obtain ⟨l0, l1, l2, rest, pre, post, h1, m1, s1, ms1, h2, m2, s2, ms2, -, -,
    ⟨a1, a2, a3, a4⟩, ⟨b1, b2, b3, b4⟩, -, hs, hen, -⟩ := parseBlock_some b e hp
  refine ⟨?_, ?_, parseBlock_text_clean b e (splitGo_blank_pieces _ 0 b hb) hp⟩
  · rw [hs]; exact fieldsDuration_bounds h1 m1 s1 ms1 a1 a2 a3 a4
  · rw [hen]; exact fieldsDuration_bounds h2 m2 s2 ms2 b1 b2 b3 b4

theorem Parse_entry_invariants_witness :
    (⟨2, 359999999000000, 362439999000000, "two\n lines".toList⟩ : Entry) ∈
      (Parse ("\n1\n00:00:01,000 --> 00:00:02,000\nHi \n\n\n 2\n" ++
        "x99:59:59,999 --> 99:99:99,9999\ntwo\n lines \n\nrest").toList).1.Entries ∧
    ((0 ≤ (359999999000000 : ℤ) ∧ (359999999000000 : ℤ) % Millisecond = 0 ∧
      (359999999000000 : ℤ) ≤ 99 * Hour + 99 * Minute + 99 * Second + 999 * Millisecond) ∧
    (0 ≤ (362439999000000 : ℤ) ∧ (362439999000000 : ℤ) % Millisecond = 0 ∧
      (362439999000000 : ℤ) ≤
        99 * Hour + 99 * Minute + 99 * Second + 999 * Millisecond) ∧
    "two\n lines".toList ≠ [] ∧ hasBlank "two\n lines".toList = false ∧
      endsClean "two\n lines".toList = true) :=
  ⟨by decide,
    Parse_entry_invariants
      ("\n1\n00:00:01,000 --> 00:00:02,000\nHi \n\n\n 2\n" ++
        "x99:59:59,999 --> 99:99:99,9999\ntwo\n lines \n\nrest").toList
      ⟨2, 359999999000000, 362439999000000, "two\n lines".toList⟩ (by decide)⟩

/-! ## C12: the times come from the leftmost timing text -/

/-- A match found by the search is the leftmost one: no start further left matches. -/
theorem findLeftmost_some_first (ps : List Pat) (line m : List Char)
    (h : findLeftmost ps line = some m) :
    ∃ pre post, line = pre ++ (m ++ post) ∧ matchHere ps m = true ∧ m.length = ps.length ∧
      ∀ t, t ≠ [] → t <:+ pre → matchHere ps (t ++ (m ++ post)) = false := by
  induction line with
  | nil =>
    obtain ⟨pre, post, h1, h2, h3⟩ := findLeftmost_some ps [] m h
    have hp : pre = [] := by
      have := congrArg List.length h1
      simp only [List.length_nil, List.length_append] at this
      exact List.length_eq_zero.mp (by omega)
    subst hp
    refine ⟨[], post, by simpa using h1, h2, h3, ?_⟩
    intro t ht hs
    exact absurd (List.suffix_nil.mp hs) ht
  | cons c cs ih =>
    simp only [findLeftmost] at h
    by_cases hm : matchHere ps (c :: cs) = true
    · rw [if_pos hm] at h
      simp only [Option.some.injEq] at h
      obtain ⟨h1, h2⟩ := matchHere_take ps (c :: cs) hm
      rw [h] at h1 h2
      refine ⟨[], (c :: cs).drop ps.length, ?_, h1, h2, ?_⟩
      · rw [← h]; simp
      · intro t ht hs
        exact absurd (List.suffix_nil.mp hs) ht
    · rw [if_neg hm] at h
      obtain ⟨pre, post, h1, h2, h3, h4⟩ := ih h
      refine ⟨c :: pre, post, by rw [h1]; simp, h2, h3, ?_⟩
      intro t ht hs
      rcases List.suffix_cons_iff.mp hs with heq | hsuf
      · rw [heq, List.cons_append, ← h1]
        simpa using hm
      · exact h4 t ht hsuf

theorem length_le_of_first (ps : List Pat) (pre m post pre' m' post' : List Char)
    (hfirst : ∀ t, t ≠ [] → t <:+ pre → matchHere ps (t ++ (m ++ post)) = false)
    (hm' : matchHere ps m' = true) (he : pre ++ (m ++ post) = pre' ++ (m' ++ post')) :
    pre.length ≤ pre'.length := by
  by_contra hlt
  push_neg at hlt
  have hp1 : pre' <+: pre ++ (m ++ post) := ⟨m' ++ post', he.symm⟩
  have hp2 : pre <+: pre ++ (m ++ post) := ⟨m ++ post, rfl⟩
  obtain ⟨t, ht⟩ := List.prefix_of_prefix_length_le hp1 hp2 hlt.le
  have htne : t ≠ [] := by
    intro h0
    rw [h0, List.append_nil] at ht
    rw [ht] at hlt
    exact absurd hlt (lt_irrefl _)
  have hf := hfirst t htne ⟨pre', ht⟩
  rw [← ht, List.append_assoc] at he
  have he2 := List.append_cancel_left he
  rw [he2, matchHere_append ps m' post' hm'] at hf
  exact absurd hf (by simp)

theorem timingLine_length (h1 m1 s1 ms1 h2 m2 s2 ms2 : Nat) :
    (timingLine h1 m1 s1 ms1 h2 m2 s2 ms2).length = 29 := by
  simp [timingLine, pad2, pad3]

/-- The search returns the leftmost timing text of the line. -/
theorem findLeftmost_of_leftmostTiming (line pre post : List Char)
    (h1 m1 s1 ms1 h2 m2 s2 ms2 : Nat)
    (h : LeftmostTiming line pre post h1 m1 s1 ms1 h2 m2 s2 ms2) :
    findLeftmost srtTimeRegex line = some (timingLine h1 m1 s1 ms1 h2 m2 s2 ms2) := by
  obtain ⟨-, -, hl, hleft⟩ := h
  have hlen := timingLine_length h1 m1 s1 ms1 h2 m2 s2 ms2
  have hmatch := matchHere_append srtTimeRegex _ post
    (matchHere_timingLine h1 m1 s1 ms1 h2 m2 s2 ms2)
  rw [List.append_assoc] at hl
  rw [findLeftmost_skip line pre (timingLine h1 m1 s1 ms1 h2 m2 s2 ms2 ++ post) ?_ hl]
  · cases hc : timingLine h1 m1 s1 ms1 h2 m2 s2 ms2 ++ post with
    | nil =>
      have := congrArg List.length hc
      simp only [List.length_append, List.length_nil] at this
      omega
    | cons c cs =>
      rw [hc] at hmatch
      rw [findLeftmost, if_pos hmatch, ← hc]
      have : srtTimeRegex.length = (timingLine h1 m1 s1 ms1 h2 m2 s2 ms2).length := by
        rw [hlen]; rfl
      rw [this, List.take_left]
  · intro t ht hs
    cases hb : matchHere srtTimeRegex (t ++ (timingLine h1 m1 s1 ms1 h2 m2 s2 ms2 ++ post)) with
    | false => rfl
    | true =>
      exfalso
      obtain ⟨hm1, hm2⟩ := matchHere_take srtTimeRegex _ hb
      have h29 : srtTimeRegex.length = 29 := rfl
      rw [h29] at hm1 hm2
      obtain ⟨a1, b1, c1, d1, a2, b2, c2, d2, q1, q2, em⟩ := timingLine_of_match _ hm1 hm2
      obtain ⟨u, hu⟩ := hs
      have := hleft u ((t ++ (timingLine h1 m1 s1 ms1 h2 m2 s2 ms2 ++ post)).drop 29)
        a1 b1 c1 d1 a2 b2 c2 d2 q1 q2 (by
          rw [hl, ← hu, ← em, List.append_assoc, List.append_assoc, List.take_append_drop])
      rw [← hu, List.length_append] at this
      have htl : 0 < t.length := List.length_pos.mpr ht
      omega

theorem FindStringSubmatch_of_leftmostTiming (line pre post : List Char)
    (h1 m1 s1 ms1 h2 m2 s2 ms2 : Nat)
    (h : LeftmostTiming line pre post h1 m1 s1 ms1 h2 m2 s2 ms2) :
    FindStringSubmatch line =
      [timingLine h1 m1 s1 ms1 h2 m2 s2 ms2, pad2 h1, pad2 m1, pad2 s1, pad3 ms1,
        pad2 h2, pad2 m2, pad2 s2, pad3 ms2] := by
  unfold FindStringSubmatch
  rw [findLeftmost_of_leftmostTiming line pre post h1 m1 s1 ms1 h2 m2 s2 ms2 h]
  simp [timingLine, pad2, pad3]

/-- A line on which the search succeeds has a leftmost timing text. -/
theorem leftmostTiming_of_find (line : List Char) (h : (FindStringSubmatch line).length = 9) :
    ∃ (pre post : List Char) (h1 m1 s1 ms1 h2 m2 s2 ms2 : Nat),
      LeftmostTiming line pre post h1 m1 s1 ms1 h2 m2 s2 ms2 := by
  unfold FindStringSubmatch at h
  cases hf : findLeftmost srtTimeRegex line with
  | none => rw [hf] at h; simp at h
  | some m =>
    obtain ⟨pre, post, e, hm, hl, hfirst⟩ := findLeftmost_some_first _ _ _ hf
    obtain ⟨h1, m1, s1, ms1, h2, m2, s2, ms2, b1, b2, em⟩ := timingLine_of_match m hm hl
    refine ⟨pre, post, h1, m1, s1, ms1, h2, m2, s2, ms2, b1, b2, ?_, ?_⟩
    · rw [e, em, List.append_assoc]
    · intro pre' post' a1 b1' c1 d1 a2 b2' c2 d2 _ _ hl'
      refine length_le_of_first srtTimeRegex pre m post pre' _ post' hfirst
        (matchHere_timingLine a1 b1' c1 d1 a2 b2' c2 d2) ?_
      rw [← e, hl', List.append_assoc]

/-- The times of the entry are those of the fields that the search captures. -/
theorem parseBlock_times (b : List Char) (e : Entry) (h : parseBlock b = some e)
    (h1 m1 s1 ms1 h2 m2 s2 ms2 : Nat)
    (hb1 : h1 < 100 ∧ m1 < 100 ∧ s1 < 100 ∧ ms1 < 1000)
    (hb2 : h2 < 100 ∧ m2 < 100 ∧ s2 < 100 ∧ ms2 < 1000)
    (hg : FindStringSubmatch ((blockLines b).getD 1 []) =
      [timingLine h1 m1 s1 ms1 h2 m2 s2 ms2, pad2 h1, pad2 m1, pad2 s1, pad3 ms1,
        pad2 h2, pad2 m2, pad2 s2, pad3 ms2]) :
    e.StartTime = fieldsDuration h1 m1 s1 ms1 ∧ e.EndTime = fieldsDuration h2 m2 s2 ms2 := by
  unfold blockLines at hg
  unfold parseBlock at h
  by_cases hnil : TrimSpace b = []
  · rw [if_pos hnil] at h; exact absurd h (by simp)
  rw [if_neg hnil] at h
  simp only at h
  by_cases hlen : (Split (TrimSpace b) ['\n']).length < 3
  · rw [if_pos hlen] at h; exact absurd h (by simp)
  rw [if_neg hlen] at h
  cases ha : Atoi (TrimSpace ((Split (TrimSpace b) ['\n']).getD 0 [])) with
  | none => rw [ha] at h; simp at h
  | some idx =>
    rw [ha] at h
    simp only at h
    rw [hg] at h
    simp only [List.length_cons, List.length_nil, List.getD_cons_zero, List.getD_cons_succ] at h
    rw [parseTime_pads h1 m1 s1 ms1 hb1.1 hb1.2.1 hb1.2.2.1 hb1.2.2.2,
      parseTime_pads h2 m2 s2 ms2 hb2.1 hb2.2.1 hb2.2.2.1 hb2.2.2.2] at h
    simp only [ne_eq, not_true_eq_false, if_false, Option.some.injEq] at h
    rw [← h]
    exact ⟨rfl, rfl⟩

/-- How to show that a timing text is the leftmost of its line: no end piece of what
stands before it begins a match. -/
theorem leftmostTiming_intro (pre post : List Char) (h1 m1 s1 ms1 h2 m2 s2 ms2 : Nat)
    (hb1 : h1 < 100 ∧ m1 < 100 ∧ s1 < 100 ∧ ms1 < 1000)
    (hb2 : h2 < 100 ∧ m2 < 100 ∧ s2 < 100 ∧ ms2 < 1000)
    (hfirst : ∀ t ∈ pre.tails, t ≠ [] →
      matchHere srtTimeRegex (t ++ (timingLine h1 m1 s1 ms1 h2 m2 s2 ms2 ++ post)) = false) :
    LeftmostTiming (pre ++ timingLine h1 m1 s1 ms1 h2 m2 s2 ms2 ++ post) pre post
      h1 m1 s1 ms1 h2 m2 s2 ms2 := by
  refine ⟨hb1, hb2, rfl, ?_⟩
  intro pre' post' a1 b1 c1 d1 a2 b2 c2 d2 _ _ hl
  refine length_le_of_first srtTimeRegex pre _ post pre' _ post'
    (fun t ht hs => hfirst t ((List.mem_tails t pre).mpr hs) ht)
    (matchHere_timingLine a1 b1 c1 d1 a2 b2 c2 d2) ?_
  rw [← List.append_assoc, hl, List.append_assoc]

/-- C12, as amended: `Parse` produces an entry only from a block whose second line
holds a timing text (two-digit hours, minutes and seconds, three-digit milliseconds,
exactly the arrow between two blanks as separator), and the two times of the entry are
those of the leftmost timing text of that line, whatever way this text is exhibited; a
block whose second line holds no such text is skipped; characters before and after the
timing text do not matter, the search succeeding exactly on the lines that hold one. -/
theorem Parse_entry_second_line (content : List Char) (e : Entry)
    (he : e ∈ (Parse content).1.Entries) :
    (∃ b ∈ Split (TrimSpace content) ['\n', '\n'],
      parseBlock b = some e ∧ ContainsTiming ((blockLines b).getD 1 []) ∧
      ∃ (pre post : List Char) (h1 m1 s1 ms1 h2 m2 s2 ms2 : Nat),
        LeftmostTiming ((blockLines b).getD 1 []) pre post h1 m1 s1 ms1 h2 m2 s2 ms2 ∧
        e.StartTime = fieldsDuration h1 m1 s1 ms1 ∧ e.EndTime = fieldsDuration h2 m2 s2 ms2) ∧
    (∀ (b : List Char) (e' : Entry) (pre post : List Char) (h1 m1 s1 ms1 h2 m2 s2 ms2 : Nat),
      parseBlock b = some e' →
      LeftmostTiming ((blockLines b).getD 1 []) pre post h1 m1 s1 ms1 h2 m2 s2 ms2 →
      e'.StartTime = fieldsDuration h1 m1 s1 ms1 ∧ e'.EndTime = fieldsDuration h2 m2 s2 ms2) ∧
    (∀ b, ¬ ContainsTiming ((blockLines b).getD 1 []) → parseBlock b = none) ∧
    (∀ line, (FindStringSubmatch line).length = 9 ↔ ContainsTiming line) := by
  have key : ∀ b e', parseBlock b = some e' → ContainsTiming ((blockLines b).getD 1 []) := by
    intro b e' hb
    obtain ⟨l0, l1, l2, rest, pre, post, h1, m1, s1, ms1, h2, m2, s2, ms2, hl, -, b1, b2, el, -⟩ :=
      parseBlock_some b e' hb
    rw [hl]
    exact ⟨pre, post, h1, m1, s1, ms1, h2, m2, s2, ms2, b1, b2, el⟩
  have times : ∀ (b : List Char) (e' : Entry) (pre post : List Char)
      (h1 m1 s1 ms1 h2 m2 s2 ms2 : Nat), parseBlock b = some e' →
      LeftmostTiming ((blockLines b).getD 1 []) pre post h1 m1 s1 ms1 h2 m2 s2 ms2 →
      e'.StartTime = fieldsDuration h1 m1 s1 ms1 ∧
        e'.EndTime = fieldsDuration h2 m2 s2 ms2 := by
    intro b e' pre post h1 m1 s1 ms1 h2 m2 s2 ms2 hp hleft
    exact parseBlock_times b e' hp h1 m1 s1 ms1 h2 m2 s2 ms2 hleft.1 hleft.2.1
      (FindStringSubmatch_of_leftmostTiming _ pre post h1 m1 s1 ms1 h2 m2 s2 ms2 hleft)
  refine ⟨?_, times, ?_, FindStringSubmatch_length_iff⟩
  · obtain ⟨b, hb, hp⟩ := (mem_Parse_iff content e).mp he
    have hc := key b e hp
    obtain ⟨pre, post, h1, m1, s1, ms1, h2, m2, s2, ms2, hleft⟩ :=
      leftmostTiming_of_find _ ((FindStringSubmatch_length_iff _).mpr hc)
    exact ⟨b, hb, hp, hc, pre, post, h1, m1, s1, ms1, h2, m2, s2, ms2, hleft,
      times b e pre post h1 m1 s1 ms1 h2 m2 s2 ms2 hp hleft⟩
  · intro b hn
    cases hp : parseBlock b with
    | none => rfl
    | some e' => exact absurd (key b e' hp) hn

/-- C12 as amended, at an input: the second line of the block holds two timing texts
behind two other characters; the entry is timed by the first of them, 1 s to 2 s. -/
theorem Parse_entry_second_line_witness :
    (⟨1, 1000000000, 2000000000, "Hi".toList⟩ : Entry) ∈
      (Parse ("1\nx 00:00:01,000 --> 00:00:02,000 00:00:05,000 --> 00:00:06,000" ++
        "\nHi").toList).1.Entries ∧
    parseBlock ("1\nx 00:00:01,000 --> 00:00:02,000 00:00:05,000 --> 00:00:06,000" ++
        "\nHi").toList = some ⟨1, 1000000000, 2000000000, "Hi".toList⟩ ∧
    LeftmostTiming
      ((blockLines ("1\nx 00:00:01,000 --> 00:00:02,000 00:00:05,000 --> 00:00:06,000" ++
        "\nHi").toList).getD 1 [])
      "x ".toList " 00:00:05,000 --> 00:00:06,000".toList 0 0 1 0 0 0 2 0 ∧
    ((⟨1, 1000000000, 2000000000, "Hi".toList⟩ : Entry).StartTime = fieldsDuration 0 0 1 0 ∧
      (⟨1, 1000000000, 2000000000, "Hi".toList⟩ : Entry).EndTime = fieldsDuration 0 0 2 0) :=
  have hleft : LeftmostTiming
      ((blockLines ("1\nx 00:00:01,000 --> 00:00:02,000 00:00:05,000 --> 00:00:06,000" ++
        "\nHi").toList).getD 1 [])
      "x ".toList " 00:00:05,000 --> 00:00:06,000".toList 0 0 1 0 0 0 2 0 := by
    have e : (blockLines ("1\nx 00:00:01,000 --> 00:00:02,000 00:00:05,000 --> 00:00:06,000" ++
        "\nHi").toList).getD 1 [] =
        "x ".toList ++ timingLine 0 0 1 0 0 0 2 0 ++
          " 00:00:05,000 --> 00:00:06,000".toList := by decide
    rw [e]
    exact leftmostTiming_intro _ _ 0 0 1 0 0 0 2 0 (by decide) (by decide) (by decide)
  ⟨by decide, by decide, hleft,
    (Parse_entry_second_line
      ("1\nx 00:00:01,000 --> 00:00:02,000 00:00:05,000 --> 00:00:06,000" ++ "\nHi").toList
      ⟨1, 1000000000, 2000000000, "Hi".toList⟩ (by decide)).2.1 _ _ _ _ 0 0 1 0 0 0 2 0
      (by decide) hleft⟩

/-! ## C2: a product outside the range of `int64` -/

theorem f64ToInt64_out_of_range {x : ℚ} (h : 2 ^ 63 ≤ |x|) :
    f64ToInt64 x = -(2 : ℤ) ^ 63 := by
  unfold f64ToInt64
  by_cases hc : -(2 : ℤ) ^ 63 ≤ truncQ x ∧ truncQ x < 2 ^ 63
  · rw [if_pos hc]
    rcases le_or_lt 0 x with hx | hx
    · exfalso
      rw [abs_of_nonneg hx] at h
      have h1 : ((2 : ℤ) ^ 63 : ℤ) ≤ truncQ x := by
        unfold truncQ
        rw [if_pos hx]
        exact Int.le_floor.mpr (by push_cast; exact h)
      omega
    · rw [abs_of_neg hx] at h
      have h1 : truncQ x ≤ -(2 : ℤ) ^ 63 := by
        unfold truncQ
        rw [if_neg (not_le.mpr hx)]
        exact Int.ceil_le.mpr (by push_cast; linarith)
      omega
  · rw [if_neg hc]

theorem scaleDuration_out_of_range (d : ℤ) (f : ℚ) (h : ¬ FitsInt64 d f) :
    scaleDuration d f = -(2 : ℤ) ^ 63 := by
  unfold FitsInt64 at h
  unfold scaleDuration
  exact f64ToInt64_out_of_range (not_lt.mp h)

theorem f64ToInt64_of_neg {x : ℚ} {q : ℤ} (hq0 : q < 0) (hq : -(2 : ℤ) ^ 63 ≤ q)
    (h1 : (q : ℚ) - 1 < x) (h2 : x ≤ q) : f64ToInt64 x = q := by
  have hx : ¬ 0 ≤ x := by
    have : (q : ℚ) < 0 := by exact_mod_cast hq0
    intro h0
    linarith
  have hf : ⌈x⌉ = q := by
    rw [Int.ceil_eq_iff]; exact ⟨h1, h2⟩
  unfold f64ToInt64 truncQ
  simp only [hx, if_false, hf]
  rw [if_pos]
  exact ⟨hq, by omega⟩

theorem Hours_least : f64ToInt64 (Hours (-9223372036854775808)) = -2562047 := by
  have e1 : Int.tdiv (-9223372036854775808) Hour = -2562047 := by decide
  have e2 : Int.tmod (-9223372036854775808) Hour = -2836854775808 := by decide
  have r1 : f64Round ((-2562047 : ℤ) : ℚ) = -2562047 := by
    rw [f64Round_intCast _ (by norm_num)]; norm_num
  have r2 : f64Round ((-2836854775808 : ℤ) : ℚ) = -2836854775808 := by
    rw [f64Round_intCast _ (by norm_num)]; norm_num
  have r3 : f64Round ((-2836854775808 : ℚ) / 3600000000000) = -7097810061796178 / 2 ^ 53 := by
    rw [f64Round_eq (e := -1) (n := -7097810061796178) (by norm_num)
      (by rw [abs_of_neg (by norm_num)]; norm_num)
      (by rw [abs_of_neg (by norm_num)]; norm_num)
      (roundHalfEven_eq_of_abs_lt (by rw [abs_lt]; constructor <;> norm_num))]
    norm_num
  have r4 : f64Round ((-2562047 : ℚ) + -7097810061796178 / 2 ^ 53) =
      -5501955730157246 / 2 ^ 31 := by
    rw [f64Round_eq (e := 21) (n := -5501955730157246) (by norm_num)
      (by rw [abs_of_neg (by norm_num)]; norm_num)
      (by rw [abs_of_neg (by norm_num)]; norm_num)
      (roundHalfEven_eq_of_abs_lt (by rw [abs_lt]; constructor <;> norm_num))]
    norm_num
  unfold Hours
  rw [e1, e2, r1, r2, r3, r4]
  exact f64ToInt64_of_neg (by norm_num) (by norm_num) (by norm_num) (by norm_num)

theorem Minutes_least : f64ToInt64 (Minutes (-9223372036854775808)) = -153722867 := by
  have e1 : Int.tdiv (-9223372036854775808) Minute = -153722867 := by decide
  have e2 : Int.tmod (-9223372036854775808) Minute = -16854775808 := by decide
  have r1 : f64Round ((-153722867 : ℤ) : ℚ) = -153722867 := by
    rw [f64Round_intCast _ (by norm_num)]; norm_num
  have r2 : f64Round ((-16854775808 : ℤ) : ℚ) = -16854775808 := by
    rw [f64Round_intCast _ (by norm_num)]; norm_num
  have r3 : f64Round ((-16854775808 : ℚ) / 60000000000) = -5060477469888137 / 2 ^ 54 := by
    rw [f64Round_eq (e := -2) (n := -5060477469888137) (by norm_num)
      (by rw [abs_of_neg (by norm_num)]; norm_num)
      (by rw [abs_of_neg (by norm_num)]; norm_num)
      (roundHalfEven_eq_of_abs_lt (by rw [abs_lt]; constructor <;> norm_num))]
    norm_num
  have r4 : f64Round ((-153722867 : ℚ) + -5060477469888137 / 2 ^ 54) =
      -5158083497022418 / 2 ^ 25 := by
    rw [f64Round_eq (e := 27) (n := -5158083497022418) (by norm_num)
      (by rw [abs_of_neg (by norm_num)]; norm_num)
      (by rw [abs_of_neg (by norm_num)]; norm_num)
      (roundHalfEven_eq_of_abs_lt (by rw [abs_lt]; constructor <;> norm_num))]
    norm_num
  unfold Minutes
  rw [e1, e2, r1, r2, r3, r4]
  exact f64ToInt64_of_neg (by norm_num) (by norm_num) (by norm_num) (by norm_num)

theorem Seconds_least : f64ToInt64 (Seconds (-9223372036854775808)) = -9223372036 := by
  have e1 : Int.tdiv (-9223372036854775808) Second = -9223372036 := by decide
  have e2 : Int.tmod (-9223372036854775808) Second = -854775808 := by decide
  have r1 : f64Round ((-9223372036 : ℤ) : ℚ) = -9223372036 := by
    rw [f64Round_intCast _ (by norm_num)]; norm_num
  have r2 : f64Round ((-854775808 : ℤ) : ℚ) = -854775808 := by
    rw [f64Round_intCast _ (by norm_num)]; norm_num
  have r3 : f64Round ((-854775808 : ℚ) / 1000000000) = -7699136020788229 / 2 ^ 53 := by
    rw [f64Round_eq (e := -1) (n := -7699136020788229) (by norm_num)
      (by rw [abs_of_neg (by norm_num)]; norm_num)
      (by rw [abs_of_neg (by norm_num)]; norm_num)
      (roundHalfEven_eq_of_abs_lt (by rw [abs_lt]; constructor <;> norm_num))]
    norm_num
  have r4 : f64Round ((-9223372036 : ℚ) + -7699136020788229 / 2 ^ 53) =
      -4835703278458517 / 2 ^ 19 := by
    rw [f64Round_eq (e := 33) (n := -4835703278458517) (by norm_num)
      (by rw [abs_of_neg (by norm_num)]; norm_num)
      (by rw [abs_of_neg (by norm_num)]; norm_num)
      (roundHalfEven_eq_of_abs_lt (by rw [abs_lt]; constructor <;> norm_num))]
    norm_num
  unfold Seconds
  rw [e1, e2, r1, r2, r3, r4]
  exact f64ToInt64_of_neg (by norm_num) (by norm_num) (by norm_num) (by norm_num)

/-- The timecode of the least duration, `-2^63` ns: every field is negative. -/
theorem formatTime_least :
    formatTime (-9223372036854775808) = "-2562047:-47:-16,-854".toList := by
  unfold formatTime
  rw [Hours_least, Minutes_least, Seconds_least]
  decide

theorem scaleDuration_second_overflow :
    scaleDuration 1000000000 10000000000 = -9223372036854775808 := by
  have r1 : f64Round ((1000000000 : ℤ) : ℚ) = 1000000000 := by
    rw [f64Round_intCast _ (by norm_num)]; norm_num
  have r2 : f64Round ((1000000000 : ℚ) * 10000000000) = 10000000000000000000 :=  by
    rw [f64Round_of_isF64 ⟨19073486328125, 19, by norm_num, by norm_num, by norm_num⟩]
    norm_num
  unfold scaleDuration
  rw [r1, r2, f64ToInt64_out_of_range (by rw [abs_of_pos (by norm_num)]; norm_num)]
  norm_num

theorem scaleDuration_two_seconds_overflow :
    scaleDuration 2000000000 10000000000 = -9223372036854775808 := by
  have r1 : f64Round ((2000000000 : ℤ) : ℚ) = 2000000000 := by
    rw [f64Round_intCast _ (by norm_num)]; norm_num
  have r2 : f64Round ((2000000000 : ℚ) * 10000000000) = 20000000000000000000 :=  by
    rw [f64Round_of_isF64 ⟨19073486328125, 20, by norm_num, by norm_num, by norm_num⟩]
    norm_num
  unfold scaleDuration
  rw [r1, r2, f64ToInt64_out_of_range (by rw [abs_of_pos (by norm_num)]; norm_num)]
  norm_num

/-- C2, refuted as stated: on the well-formed cue timed 1 s to 2 s the factor `10^10`
gives products, `10^19` ns and `2 * 10^19` ns, that lie outside the range of `int64`;
the conversion returns `-2^63` ns for both, and `String` renders negative fields, not
the timestamps multiplied by the factor. -/
theorem Parse_AdjustSpeed_String_overflows :
    (0 : ℚ) < 10000000000 ∧
    IsCue ⟨1, 1000000000, 2000000000, "Hi".toList⟩ ∧
    cueBlock ⟨1, 1000000000, 2000000000, "Hi".toList⟩ =
      "1\n00:00:01,000 --> 00:00:02,000\nHi".toList ∧
    ((Parse "1\n00:00:01,000 --> 00:00:02,000\nHi".toList).1.AdjustSpeed 10000000000).Entries =
      [⟨1, -9223372036854775808, -9223372036854775808, "Hi".toList⟩] ∧
    ((Parse "1\n00:00:01,000 --> 00:00:02,000\nHi".toList).1.AdjustSpeed 10000000000).String =
      ("1\n-2562047:-47:-16,-854 --> -2562047:-47:-16,-854\nHi".toList, none) := by
  have hp : Parse "1\n00:00:01,000 --> 00:00:02,000\nHi".toList =
      ({ Entries := [⟨1, 1000000000, 2000000000, "Hi".toList⟩] }, none) := by decide
  have ha : (Subtitle.AdjustSpeed { Entries := [⟨1, 1000000000, 2000000000, "Hi".toList⟩] }
      10000000000) =
      { Entries := [⟨1, -9223372036854775808, -9223372036854775808, "Hi".toList⟩] } := by
    simp only [Subtitle.AdjustSpeed, List.map_cons, List.map_nil,
      scaleDuration_second_overflow, scaleDuration_two_seconds_overflow]
  refine ⟨by norm_num, by decide, ?_, ?_, ?_⟩
  · rw [cueBlock_eq_cueText (by decide) (by decide)]; decide
  · rw [hp, ha]
  · rw [hp, ha]
    simp only [Subtitle.String, renderFrom, formatTime_least]
    decide

/-- C2, as amended: on the text of well-formed cues (the blocks of entries that the file
format can carry, separated by one blank line), `Parse`, then `AdjustSpeed(f)`, then
`String` give the same cues in the same order, each with its index and text, and with
each timestamp replaced by the float64 product that `AdjustSpeed` computes, truncated.
As long as that product fits `int64` it is the old value times `f` in the sense of
`ScaledBy`; when it does not fit, the timestamp is `-2^63` ns, which is rendered with
negative fields, as `-2562047:-47:-16,-854`. -/
theorem Parse_AdjustSpeed_String (es : List Entry) (f : ℚ) (_hf : 0 < f)
    (h : ∀ e ∈ es, IsCue e) :
    ((Parse (Join (es.map cueBlock) ['\n', '\n'])).1.AdjustSpeed f).String =
      (Join (es.map fun e => cueBlock
          { Index := e.Index, StartTime := scaleDuration e.StartTime f,
            EndTime := scaleDuration e.EndTime f, Text := e.Text }) ['\n', '\n'], none) ∧
    (∀ e ∈ es, ScaledBy f e.StartTime (scaleDuration e.StartTime f) ∧
      ScaledBy f e.EndTime (scaleDuration e.EndTime f)) ∧
    (∀ e ∈ es,
      (¬ FitsInt64 e.StartTime f → scaleDuration e.StartTime f = -9223372036854775808) ∧
      (¬ FitsInt64 e.EndTime f → scaleDuration e.EndTime f = -9223372036854775808)) ∧
    formatTime (-9223372036854775808) = "-2562047:-47:-16,-854".toList := by
  have hout : ∀ d : ℤ, ¬ FitsInt64 d f → scaleDuration d f = -9223372036854775808 := by
    intro d hd
    rw [scaleDuration_out_of_range d f hd]
    norm_num
  refine ⟨?_, fun e _ => ⟨scaleDuration_scaledBy _ _, scaleDuration_scaledBy _ _⟩,
    fun e _ => ⟨hout _, hout _⟩, formatTime_least⟩
  have hp := Parse_String_cues es h
  unfold Subtitle.String at hp
  simp only at hp
  rw [renderFrom_zero] at hp
  rw [hp]
  unfold Subtitle.AdjustSpeed Subtitle.String
  simp only
  rw [renderFrom_zero, List.map_map]
  rfl

/-- C2, at the input of the specification: the two cues timed 1 s to 2.5 s and 3 s to
4 s, with factor 2.5, render with the times 2.5 s to 6.25 s and 7.5 s to 10 s. -/
theorem Parse_AdjustSpeed_String_witness :
    (0 : ℚ) < 5 / 2 ∧
    (IsCue ⟨1, 1000000000, 2500000000, "Hello world".toList⟩ ∧
      IsCue ⟨2, 3000000000, 4000000000, "Second line".toList⟩) ∧
    ((Parse ("1\n00:00:01,000 --> 00:00:02,500\nHello world\n\n" ++
        "2\n00:00:03,000 --> 00:00:04,000\nSecond line").toList).1.AdjustSpeed (5 / 2)).String =
      (("1\n00:00:02,500 --> 00:00:06,250\nHello world\n\n" ++
        "2\n00:00:07,500 --> 00:00:10,000\nSecond line").toList, none) := by
  refine ⟨by norm_num, by decide, ?_⟩
  have h := (Parse_AdjustSpeed_String
    [⟨1, 1000000000, 2500000000, "Hello world".toList⟩,
     ⟨2, 3000000000, 4000000000, "Second line".toList⟩] (5 / 2) (by norm_num) (by decide)).1
  have e1 : cueBlock ⟨1, 1000000000, 2500000000, "Hello world".toList⟩ =
      "1\n00:00:01,000 --> 00:00:02,500\nHello world".toList := by
    rw [cueBlock_eq_cueText (by decide) (by decide)]; decide
  have e2 : cueBlock ⟨2, 3000000000, 4000000000, "Second line".toList⟩ =
      "2\n00:00:03,000 --> 00:00:04,000\nSecond line".toList := by
    rw [cueBlock_eq_cueText (by decide) (by decide)]; decide
  have s1 : scaleDuration 1000000000 (5 / 2) = 2500000000 :=
    scaleDuration_of_int _ _ _ (by norm_num) (by norm_num) (by norm_num)
  have s2 : scaleDuration 2500000000 (5 / 2) = 6250000000 :=
    scaleDuration_of_int _ _ _ (by norm_num) (by norm_num) (by norm_num)
  have s3 : scaleDuration 3000000000 (5 / 2) = 7500000000 :=
    scaleDuration_of_int _ _ _ (by norm_num) (by norm_num) (by norm_num)
  have s4 : scaleDuration 4000000000 (5 / 2) = 10000000000 :=
    scaleDuration_of_int _ _ _ (by norm_num) (by norm_num) (by norm_num)
  have o1 : cueBlock ⟨1, 2500000000, 6250000000, "Hello world".toList⟩ =
      "1\n00:00:02,500 --> 00:00:06,250\nHello world".toList := by
    rw [cueBlock_eq_cueText (by decide) (by decide)]; decide
  have o2 : cueBlock ⟨2, 7500000000, 10000000000, "Second line".toList⟩ =
      "2\n00:00:07,500 --> 00:00:10,000\nSecond line".toList := by
    rw [cueBlock_eq_cueText (by decide) (by decide)]; decide
  simp only [List.map_cons, List.map_nil, e1, e2, s1, s2, s3, s4, o1, o2] at h
  exact h

/-! ## C10: two adjustments in a row -/

theorem f64Round_error_add (z : ℚ) : |f64Round z - z| ≤ |z| / 2 ^ 53 + 1 / 2 ^ 1075 := by
  rcases f64Round_error z with h | ⟨h, _⟩
  · have : (0 : ℚ) ≤ 1 / 2 ^ 1075 := by positivity
    linarith
  · have : 0 ≤ |z| / 2 ^ 53 := by positivity
    linarith

theorem fitsInt64_of_exactProduct {d : ℤ} {f : ℚ} (h : ExactProduct d f) : FitsInt64 d f := by
  obtain ⟨h1, h2, h3⟩ := h
  unfold FitsInt64
  rw [h1, h2]
  exact h3

/-- Two adjustments in a row against one adjustment by the float64 product of the
factors, for one timestamp. -/
theorem scaleDuration_compose_error (t : ℤ) (a b : ℚ) (_ha : 0 < a) (hb : 0 < b)
    (h : ComposeFits t a b) :
    |((scaleDuration (scaleDuration t a) b - scaleDuration t (f64Round (a * b)) : ℤ) : ℚ)| <
      composeTolerance t a b := by
  obtain ⟨⟨ht1, ht2⟩, h1, h2, h3⟩ := h
  have A := scaleDuration_error t a h1
  have B := scaleDuration_error (scaleDuration t a) b h2
  have C := scaleDuration_error t (f64Round (a * b)) h3
  have E := f64Round_error_add (a * b)
  have hT : |(t : ℚ)| ≤ 2 ^ 63 := by
    rw [abs_le]
    constructor
    · have : ((-(2 : ℤ) ^ 63 : ℤ) : ℚ) ≤ (t : ℚ) := Int.cast_le.mpr ht1
      push_cast at this
      exact this
    · have : (t : ℚ) < (((2 : ℤ) ^ 63 : ℤ) : ℚ) := Int.cast_lt.mpr ht2
      push_cast at this
      exact this.le
  unfold composeTolerance
  push_cast
  generalize (scaleDuration (scaleDuration t a) b : ℚ) = X2 at B ⊢
  generalize (scaleDuration t (f64Round (a * b)) : ℚ) = Y at C ⊢
  generalize (scaleDuration t a : ℚ) = X1 at A B
  generalize f64Round (a * b) = c at C E
  generalize (t : ℚ) = T at A C hT ⊢
  have hQ : |T * a * b| = |T * a| * b := by rw [abs_mul, abs_of_pos hb]
  have hQ2 : |T * a * b| = |T| * |a * b| := by rw [mul_assoc, abs_mul]
  have hA : |X1 * b - T * a * b| < b + |T * a * b| / 2 ^ 51 := by
    have e : X1 * b - T * a * b = (X1 - T * a) * b := by ring
    rw [e, abs_mul, abs_of_pos hb, hQ]
    calc |X1 - T * a| * b < (1 + |T * a| / 2 ^ 51) * b := mul_lt_mul_of_pos_right A hb
      _ = b + |T * a| * b / 2 ^ 51 := by ring
  have hE : |T * c - T * a * b| ≤ |T * a * b| / 2 ^ 53 + |T| / 2 ^ 1075 := by
    have e : T * c - T * a * b = T * (c - a * b) := by ring
    rw [e, abs_mul, hQ2]
    calc |T| * |c - a * b| ≤ |T| * (|a * b| / 2 ^ 53 + 1 / 2 ^ 1075) :=
          mul_le_mul_of_nonneg_left E (abs_nonneg T)
      _ = |T| * |a * b| / 2 ^ 53 + |T| / 2 ^ 1075 := by ring
  have hδ : |T| / 2 ^ 1075 ≤ 1 / 2 ^ 53 := by
    rw [div_le_div_iff₀ (by positivity) (by positivity)]
    calc |T| * 2 ^ 53 ≤ 2 ^ 63 * 2 ^ 53 := mul_le_mul_of_nonneg_right hT (by positivity)
      _ = 2 ^ 116 := by rw [← pow_add]
      _ ≤ 2 ^ 1075 := pow_le_pow_right₀ (by norm_num) (by norm_num)
      _ = 1 * 2 ^ 1075 := by ring
  generalize |T| / 2 ^ 1075 = δ at hE hδ
  have hU : |X1 * b| ≤ |X1 * b - T * a * b| + |T * a * b| := by
    have := abs_add (X1 * b - T * a * b) (T * a * b)
    simpa using this
  have hV : |T * c| ≤ |T * c - T * a * b| + |T * a * b| := by
    have := abs_add (T * c - T * a * b) (T * a * b)
    simpa using this
  have hq0 : 0 ≤ |T * a * b| := abs_nonneg _
  generalize |T * a * b| = q at hA hE hU hV hq0 ⊢
  generalize |X1 * b| = pU at B hU
  generalize |T * c| = pV at C hV
  have hA' := abs_lt.mp hA
  have hE' := abs_le.mp hE
  have hB' := abs_lt.mp B
  have hC' := abs_lt.mp C
  generalize |X1 * b - T * a * b| = rA at hA hU
  generalize |T * c - T * a * b| = rE at hE hV
  have k1 : pU / 2 ^ 51 ≤ (b + q / 2 ^ 51 + q) / 2 ^ 51 :=
    div_le_div_of_nonneg_right (by linarith) (by positivity)
  have k2 : pV / 2 ^ 51 ≤ (q / 2 ^ 53 + δ + q) / 2 ^ 51 :=
    div_le_div_of_nonneg_right (by linarith) (by positivity)
  have k3 : (b + q / 2 ^ 51 + q) / 2 ^ 51 + q / 2 ^ 51 + q / 2 ^ 53 + δ +
      (q / 2 ^ 53 + δ + q) / 2 ^ 51 ≤ (1 + b + 4 * q) / 2 ^ 51 := by
    have e1 : (b + q / 2 ^ 51 + q) / 2 ^ 51 + q / 2 ^ 51 + q / 2 ^ 53 + δ +
        (q / 2 ^ 53 + δ + q) / 2 ^ 51 =
        b / 2 ^ 51 + q * (3 / 2 ^ 51 + 1 / 2 ^ 53 + 1 / 2 ^ 102 + 1 / 2 ^ 104) +
          δ * (1 + 1 / 2 ^ 51) := by
      ring
    have e2 : (1 + b + 4 * q) / 2 ^ 51 = b / 2 ^ 51 + q * (4 / 2 ^ 51) + 1 / 2 ^ 51 := by ring
    rw [e1, e2]
    have c1 : q * (3 / 2 ^ 51 + 1 / 2 ^ 53 + 1 / 2 ^ 102 + 1 / 2 ^ 104) ≤ q * (4 / 2 ^ 51) :=
      mul_le_mul_of_nonneg_left (by norm_num) hq0
    have c2 : δ * (1 + 1 / 2 ^ 51) ≤ 1 / 2 ^ 53 * (1 + 1 / 2 ^ 51) :=
      mul_le_mul_of_nonneg_right hδ (by norm_num)
    have c3 : (1 : ℚ) / 2 ^ 53 * (1 + 1 / 2 ^ 51) ≤ 1 / 2 ^ 51 := by norm_num
    linarith
  rw [abs_lt]
  constructor <;> linarith

theorem scaleDuration_compose_exact (t : ℤ) (a b : ℚ) (hb : 0 < b) (h : ComposeExact t a b) :
    |((scaleDuration (scaleDuration t a) b - scaleDuration t (f64Round (a * b)) : ℤ) : ℚ)| <
      b + 1 := by
  obtain ⟨hab, h1, h2, h3⟩ := h
  rw [hab]
  have e1 := scaleDuration_exact h1
  rw [scaleDuration_exact h2, scaleDuration_exact h3, e1]
  have := truncQ_compose ((t : ℚ) * a) b hb
  rw [mul_assoc] at this
  push_cast
  exact this

theorem forall₂_zip_map {α β γ : Type} (R : α → β × γ → Prop) (f : α → β) (g : α → γ)
    (l : List α) (h : ∀ x ∈ l, R x (f x, g x)) :
    List.Forall₂ R l (List.zip (l.map f) (l.map g)) := by
  induction l with
  | nil => exact List.Forall₂.nil
  | cons x xs ih =>
    simp only [List.map_cons, List.zip_cons_cons]
    exact List.Forall₂.cons (h x (List.mem_cons_self _ _))
      (ih (fun y hy => h y (List.mem_cons_of_mem _ hy)))

/-! ## C10: the factor 1.1 applied twice to 20000001.999 s -/

theorem f64Round_far : f64Round ((20000001999000000 : ℤ) : ℚ) = 20000001999000000 := by
  rw [f64Round_of_isF64 ⟨5000000499750000, 2, by norm_num, by norm_num, by norm_num⟩]
  norm_num

theorem f64Round_far_scaled : f64Round ((22000002198900000 : ℤ) : ℚ) = 22000002198900000 := by
  rw [f64Round_of_isF64 ⟨5500000549725000, 2, by norm_num, by norm_num, by norm_num⟩]
  norm_num

theorem f64Round_tenth : f64Round (2476979795053773 / 2251799813685248) =
    2476979795053773 / 2251799813685248 :=
  f64Round_of_isF64 ⟨2476979795053773, -51, by norm_num, by norm_num, by norm_num⟩

theorem f64Round_tenth_sq :
    f64Round (2476979795053773 / 2251799813685248 * (2476979795053773 / 2251799813685248)) =
      5449355549118301 / 4503599627370496 := by
  rw [f64Round_eq (e := 0) (n := 5449355549118301) (by norm_num)
    (by rw [abs_of_pos (by norm_num)]; norm_num)
    (by rw [abs_of_pos (by norm_num)]; norm_num)
    (roundHalfEven_eq_of_abs_lt (by rw [abs_lt]; constructor <;> norm_num))]
  norm_num

theorem product_far_first :
    f64Round (f64Round ((20000001999000000 : ℤ) : ℚ) *
      (2476979795053773 / 2251799813685248)) = 22000002198900000 := by
  rw [f64Round_far, f64Round_eq (e := 54) (n := 5500000549725000) (by norm_num)
    (by rw [abs_of_pos (by norm_num)]; norm_num)
    (by rw [abs_of_pos (by norm_num)]; norm_num)
    (roundHalfEven_eq_of_abs_lt (by rw [abs_lt]; constructor <;> norm_num))]
  norm_num

theorem product_far_second :
    f64Round (f64Round ((22000002198900000 : ℤ) : ℚ) *
      (2476979795053773 / 2251799813685248)) = 24200002418790000 := by
  rw [f64Round_far_scaled, f64Round_eq (e := 54) (n := 6050000604697500) (by norm_num)
    (by rw [abs_of_pos (by norm_num)]; norm_num)
    (by rw [abs_of_pos (by norm_num)]; norm_num)
    (roundHalfEven_eq_of_abs_lt (by rw [abs_lt]; constructor <;> norm_num))]
  norm_num

theorem product_far_once :
    f64Round (f64Round ((20000001999000000 : ℤ) : ℚ) *
      (5449355549118301 / 4503599627370496)) = 24200002418790004 := by
  rw [f64Round_far, f64Round_eq (e := 54) (n := 6050000604697501) (by norm_num)
    (by rw [abs_of_pos (by norm_num)]; norm_num)
    (by rw [abs_of_pos (by norm_num)]; norm_num)
    (roundHalfEven_eq_of_abs_lt (by rw [abs_lt]; constructor <;> norm_num))]
  norm_num

theorem scaleDuration_far_first :
    scaleDuration 20000001999000000 (2476979795053773 / 2251799813685248) =
      22000002198900000 := by
  unfold scaleDuration
  rw [product_far_first]
  exact f64ToInt64_of_mem_Ico (by norm_num) (by norm_num) (by norm_num) (by norm_num)

theorem scaleDuration_far_second :
    scaleDuration 22000002198900000 (2476979795053773 / 2251799813685248) =
      24200002418790000 := by
  unfold scaleDuration
  rw [product_far_second]
  exact f64ToInt64_of_mem_Ico (by norm_num) (by norm_num) (by norm_num) (by norm_num)

theorem scaleDuration_far_once :
    scaleDuration 20000001999000000 (5449355549118301 / 4503599627370496) =
      24200002418790004 := by
  unfold scaleDuration
  rw [product_far_once]
  exact f64ToInt64_of_mem_Ico (by norm_num) (by norm_num) (by norm_num) (by norm_num)

theorem AdjustSpeed_far_twice :
    ((Subtitle.AdjustSpeed ⟨[⟨1, 20000001999000000, 20000001999000000, ['a']⟩]⟩
        (2476979795053773 / 2251799813685248)).AdjustSpeed
        (2476979795053773 / 2251799813685248)).Entries =
      [⟨1, 24200002418790000, 24200002418790000, ['a']⟩] := by
  simp only [Subtitle.AdjustSpeed, List.map_cons, List.map_nil, scaleDuration_far_first,
    scaleDuration_far_second]

theorem AdjustSpeed_far_once :
    (Subtitle.AdjustSpeed ⟨[⟨1, 20000001999000000, 20000001999000000, ['a']⟩]⟩
        (f64Round (2476979795053773 / 2251799813685248 *
          (2476979795053773 / 2251799813685248)))).Entries =
      [⟨1, 24200002418790004, 24200002418790004, ['a']⟩] := by
  simp only [Subtitle.AdjustSpeed, List.map_cons, List.map_nil, f64Round_tenth_sq,
    scaleDuration_far_once]

theorem composeFits_far :
    ComposeFits 20000001999000000 (2476979795053773 / 2251799813685248)
      (2476979795053773 / 2251799813685248) := by
  refine ⟨⟨by norm_num, by norm_num⟩, ?_, ?_, ?_⟩
  · unfold FitsInt64
    rw [product_far_first, abs_of_pos (by norm_num)]
    norm_num
  · unfold FitsInt64
    rw [scaleDuration_far_first, product_far_second, abs_of_pos (by norm_num)]
    norm_num
  · unfold FitsInt64
    rw [f64Round_tenth_sq, product_far_once, abs_of_pos (by norm_num)]
    norm_num

theorem composeFits_of_exact {t : ℤ} {a b : ℚ} (ht : -(2 : ℤ) ^ 63 ≤ t ∧ t < 2 ^ 63)
    (h : ComposeExact t a b) : ComposeFits t a b := by
  obtain ⟨hab, h1, h2, h3⟩ := h
  refine ⟨ht, fitsInt64_of_exactProduct h1, fitsInt64_of_exactProduct h2, ?_⟩
  rw [hab]
  exact fitsInt64_of_exactProduct h3

/-- C10, refuted as stated: with the float64 nearest to 1.1 as both factors and the
timestamp 20000001.999 s, two adjustments in a row give 24200002418790000 ns and one
adjustment by the float64 product of the factors gives 24200002418790004 ns. The two
differ by 4 ns, which is not less than b + 1 = 2.1 ns, although in exact arithmetic with
truncation both ways give 24200002418790003 ns. -/
theorem AdjustSpeed_compose_exceeds :
    (0 : ℚ) < 2476979795053773 / 2251799813685248 ∧
    f64Round (2476979795053773 / 2251799813685248) = 2476979795053773 / 2251799813685248 ∧
    ((Subtitle.AdjustSpeed ⟨[⟨1, 20000001999000000, 20000001999000000, ['a']⟩]⟩
        (2476979795053773 / 2251799813685248)).AdjustSpeed
        (2476979795053773 / 2251799813685248)).Entries =
      [⟨1, 24200002418790000, 24200002418790000, ['a']⟩] ∧
    (Subtitle.AdjustSpeed ⟨[⟨1, 20000001999000000, 20000001999000000, ['a']⟩]⟩
        (f64Round (2476979795053773 / 2251799813685248 *
          (2476979795053773 / 2251799813685248)))).Entries =
      [⟨1, 24200002418790004, 24200002418790004, ['a']⟩] ∧
    ¬ (|((24200002418790000 - 24200002418790004 : ℤ) : ℚ)| <
      2476979795053773 / 2251799813685248 + 1) ∧
    truncQ ((truncQ (((20000001999000000 : ℤ) : ℚ) * (2476979795053773 / 2251799813685248)) : ℚ) *
      (2476979795053773 / 2251799813685248)) = 24200002418790003 ∧
    truncQ (((20000001999000000 : ℤ) : ℚ) * (2476979795053773 / 2251799813685248) *
      (2476979795053773 / 2251799813685248)) = 24200002418790003 := by
  refine ⟨by norm_num, f64Round_tenth, AdjustSpeed_far_twice, AdjustSpeed_far_once, ?_, ?_, ?_⟩
  · rw [not_lt]
    norm_num [abs_of_neg]
  · have h1 : truncQ (((20000001999000000 : ℤ) : ℚ) * (2476979795053773 / 2251799813685248)) =
        22000002198900001 :=
      truncQ_eq_of_mem_Ico (by norm_num) (by norm_num) (by norm_num)
    rw [h1]
    exact truncQ_eq_of_mem_Ico (by norm_num) (by norm_num) (by norm_num)
  · exact truncQ_eq_of_mem_Ico (by norm_num) (by norm_num) (by norm_num)

/-- C10, as amended: for positive factors `a` and `b`, as long as the timestamps are
`int64` values and no float64 product involved leaves the range of `int64`,
`AdjustSpeed(a)` followed by `AdjustSpeed(b)` and a single `AdjustSpeed(a*b)`, the
product of the factors being the float64 one, give as many entries as there were, and,
entry by entry, timestamps that differ by less than the tolerance `composeTolerance`:
`b + 2` ns plus `2^-51` of `1 + b + 4 * |t * a * b|`, where `t` is the timestamp before
the adjustment. Where no float64 product is rounded (the setting of exact arithmetic
with truncation to whole nanoseconds) they differ by less than `b + 1` ns. -/
theorem AdjustSpeed_compose (s : Subtitle) (a b : ℚ) (ha : 0 < a) (hb : 0 < b)
    (hfit : ∀ e ∈ s.Entries, ComposeFits e.StartTime a b ∧ ComposeFits e.EndTime a b) :
    ((s.AdjustSpeed a).AdjustSpeed b).Entries.length = s.Entries.length ∧
    (s.AdjustSpeed (f64Round (a * b))).Entries.length = s.Entries.length ∧
    List.Forall₂
      (fun e p =>
        |((p.1.StartTime - p.2.StartTime : ℤ) : ℚ)| < composeTolerance e.StartTime a b ∧
        |((p.1.EndTime - p.2.EndTime : ℤ) : ℚ)| < composeTolerance e.EndTime a b ∧
        (ComposeExact e.StartTime a b → |((p.1.StartTime - p.2.StartTime : ℤ) : ℚ)| < b + 1) ∧
        (ComposeExact e.EndTime a b → |((p.1.EndTime - p.2.EndTime : ℤ) : ℚ)| < b + 1))
      s.Entries
      (List.zip ((s.AdjustSpeed a).AdjustSpeed b).Entries
        (s.AdjustSpeed (f64Round (a * b))).Entries) := by
  unfold Subtitle.AdjustSpeed
  simp only [List.map_map, List.length_map, true_and]
  apply forall₂_zip_map
  intro e he
  obtain ⟨f1, f2⟩ := hfit e he
  exact ⟨scaleDuration_compose_error _ a b ha hb f1, scaleDuration_compose_error _ a b ha hb f2,
    scaleDuration_compose_exact _ a b hb, scaleDuration_compose_exact _ a b hb⟩

/-- C10 as amended, at two inputs. With the float64 nearest to 1.1 as both factors and
the timestamp 20000001.999 s the two ways differ by 4 ns, within the tolerance. With
a = 1/2, b = 3 and the timestamps 3 ns and 5 ns no product is rounded: the two steps give
3 ns and 6 ns, the single step 4 ns and 7 ns, a difference of 1 ns, below b + 1 = 4. -/
theorem AdjustSpeed_compose_witness :
    ((0 : ℚ) < 2476979795053773 / 2251799813685248 ∧
      ComposeFits 20000001999000000 (2476979795053773 / 2251799813685248)
        (2476979795053773 / 2251799813685248)) ∧
    |((24200002418790000 - 24200002418790004 : ℤ) : ℚ)| <
      composeTolerance 20000001999000000 (2476979795053773 / 2251799813685248)
        (2476979795053773 / 2251799813685248) ∧
    ((0 : ℚ) < 1 / 2 ∧ (0 : ℚ) < 3 ∧ ComposeFits 3 (1 / 2) 3 ∧ ComposeFits 5 (1 / 2) 3 ∧
      ComposeExact 3 (1 / 2) 3 ∧ ComposeExact 5 (1 / 2) 3) ∧
    ((Subtitle.AdjustSpeed ⟨[⟨1, 3, 5, ['a']⟩]⟩ (1 / 2)).AdjustSpeed 3).Entries =
      [⟨1, 3, 6, ['a']⟩] ∧
    (Subtitle.AdjustSpeed ⟨[⟨1, 3, 5, ['a']⟩]⟩ (f64Round (1 / 2 * 3))).Entries =
      [⟨1, 4, 7, ['a']⟩] ∧
    (|(((3 : ℤ) - 4 : ℤ) : ℚ)| < 3 + 1 ∧ |(((6 : ℤ) - 7 : ℤ) : ℚ)| < 3 + 1) := by
  have hs : ComposeExact 3 (1 / 2) 3 := by
    refine ⟨f64Round_threeHalves, exactProduct_three_half, ?_, exactProduct_three_threeHalves⟩
    rw [scaleDuration_three_half]
    exact exactProduct_one_three
  have he : ComposeExact 5 (1 / 2) 3 := by
    refine ⟨f64Round_threeHalves, exactProduct_five_half, ?_, exactProduct_five_threeHalves⟩
    rw [scaleDuration_five_half]
    exact exactProduct_two_three
  have fs : ComposeFits 3 (1 / 2) 3 := composeFits_of_exact ⟨by norm_num, by norm_num⟩ hs
  have fe : ComposeFits 5 (1 / 2) 3 := composeFits_of_exact ⟨by norm_num, by norm_num⟩ he
  have e1 : ((Subtitle.AdjustSpeed ⟨[⟨1, 3, 5, ['a']⟩]⟩ (1 / 2)).AdjustSpeed 3).Entries =
      [⟨1, 3, 6, ['a']⟩] := by
    simp only [Subtitle.AdjustSpeed, List.map_cons, List.map_nil, scaleDuration_three_half,
      scaleDuration_five_half, scaleDuration_one_three, scaleDuration_two_three]
  have e2 : (Subtitle.AdjustSpeed ⟨[⟨1, 3, 5, ['a']⟩]⟩ (f64Round (1 / 2 * 3))).Entries =
      [⟨1, 4, 7, ['a']⟩] := by
    simp only [Subtitle.AdjustSpeed, List.map_cons, List.map_nil, f64Round_threeHalves,
      scaleDuration_three_threeHalves, scaleDuration_five_threeHalves]
  have w1 := (AdjustSpeed_compose ⟨[⟨1, 20000001999000000, 20000001999000000, ['a']⟩]⟩
    (2476979795053773 / 2251799813685248) (2476979795053773 / 2251799813685248)
    (by norm_num) (by norm_num) (by
      intro e hmem
      simp only [List.mem_singleton] at hmem
      subst hmem
      exact ⟨composeFits_far, composeFits_far⟩)).2.2
  rw [AdjustSpeed_far_twice, AdjustSpeed_far_once] at w1
  simp only [List.zip_cons_cons, List.zip_nil_right, List.forall₂_cons, List.Forall₂.nil,
    and_true] at w1
  have w2 := (AdjustSpeed_compose ⟨[⟨1, 3, 5, ['a']⟩]⟩ (1 / 2) 3 (by norm_num) (by norm_num) (by
      intro e hmem
      simp only [List.mem_singleton] at hmem
      subst hmem
      exact ⟨fs, fe⟩)).2.2
  rw [e1, e2] at w2
  simp only [List.zip_cons_cons, List.zip_nil_right, List.forall₂_cons, List.Forall₂.nil,
    and_true] at w2
  exact ⟨⟨by norm_num, composeFits_far⟩, w1.1, ⟨by norm_num, by norm_num, fs, fe, hs, he⟩,
    e1, e2, w2.2.2.1 hs, w2.2.2.2 he⟩

end Submyvid
